import Mathlib

/-!
The program path_ortho: orthogonalisation of closed paths.

A shallow embedding of `path_ortho1.cpp` and the properties of its
specification.

Conventions of the embedding.

* `_float` (C `double`) is an arbitrary linearly ordered field `F`: all
  results are about exact arithmetic.  The square root of `<math.h>` is a
  parameter `sqrt : F → F`; a theorem that needs it to be exact says so.
  Division is the division of the field (`a / 0 = 0`); the only division
  whose divisor can vanish is the normalisation of the base vectors.
* `abs` applied to a `_float` is the absolute value of the field.
* `i32` indices and counters are natural numbers: a path with `2^30` nodes
  cannot be handed to the program, so no index computation wraps.  The
  sentinel `istart = -1` ("group not started") is `none`.
* An array is a total map from the index to the cell.  The cells of a freshly
  allocated array hold unspecified values; they are taken from a parameter
  (`Fresh`), so that every theorem holds for all such values.
* `goto RecalcOrtho` is a recursion on a counter of passes; the result `none`
  says that the passes allowed were not enough.
* A C string is the list of its characters without the terminator, and
  `atof` is a parameter of `ParsePath`.
-/

namespace PathOrtho

/-- Storage of a path, the class `Path`: node coordinates, number of active
nodes, allocated size. -/
structure Path (F : Type) where
  x : Nat → F
  y : Nat → F
  num : Nat
  alloc : Nat

/-- Unspecified contents of the arrays that `OrthogonalizePath` allocates:
the coordinate arrays of `dest` and the arrays `dir` and `dirgroup`. -/
structure Fresh (F : Type) where
  x : Nat → F
  y : Nat → F
  dir : Nat → Int
  dirgroup : Nat → Nat

/-- The method `Path::Alloc`: new arrays of the given size, no active node. -/
def Path.Alloc {F : Type} (_p : Path F) (size : Nat) (fx fy : Nat → F) : Path F :=
  { x := fx, y := fy, num := 0, alloc := size }

/-- The nodes of a path as a list of coordinate pairs. -/
def Path.nodes {F : Type} (p : Path F) : List (F × F) :=
  (List.range p.num).map (fun i => (p.x i, p.y i))

section Core

variable {F : Type} [LinearOrderedField F]

/-! ## Base direction (lines 132-231) -/

/-- Vector from node `i-1` to node `i` (lines 139-140). -/
def edgeVec (src : Path F) (i : Nat) : F × F :=
  (src.x i - src.x (i - 1), src.y i - src.y (i - 1))

/-- Lines 141-144: the vector multiplied by its squared length. -/
def weightEdge (v : F × F) : F × F :=
  let d := v.1 * v.1 + v.2 * v.2
  (v.1 * d, v.2 * d)

/-- Lines 146-149: reverse a vector that points to the left. -/
def signNorm (v : F × F) : F × F :=
  if v.1 < 0 then (-v.1, -v.2) else v

/-- Lines 152-159: `(x2, y2)` from the sign-normalised `(x1, y1)`. -/
def foldA (v : F × F) : F × F :=
  if v.2 < 0 then (-v.2, v.1) else (v.1, v.2)

/-- Lines 165-179: `(x4, y4)` from the sign-normalised `(x1, y1)`; the first
branch takes `y4 = y2`. -/
def foldB (v : F × F) : F × F :=
  if v.1 > |v.2| then (v.1, (foldA v).2)
  else if v.2 < 0 then (-v.2, v.1)
  else (v.2, -v.1)

/-- The four accumulators of the first loop. -/
structure BaseSums (F : Type) where
  xbase : F
  ybase : F
  xbase2 : F
  ybase2 : F

/-- Body of the first loop (lines 138-184). -/
def baseStep (src : Path F) (b : BaseSums F) (i : Nat) : BaseSums F :=
  let v := signNorm (weightEdge (edgeVec src i))
  { xbase := b.xbase + (foldA v).1
    ybase := b.ybase + (foldA v).2
    xbase2 := b.xbase2 + (foldB v).1
    ybase2 := b.ybase2 + (foldB v).2 }

/-- The first loop, `for (i=1;i<num;i++)` (lines 135-185). -/
def baseSums (src : Path F) : BaseSums F :=
  (List.range' 1 (src.num - 1)).foldl (baseStep src) ⟨0, 0, 0, 0⟩

/-- Lines 188-190 (and 192-194): scale a vector by `1/sqrt` of its squared
length. -/
def normalize (sqrt : F → F) (v : F × F) : F × F :=
  let d := 1 / sqrt (v.1 * v.1 + v.2 * v.2)
  (v.1 * d, v.2 * d)

/-- Lines 206-213 (and 216-223): the term an edge adds to the square error of
a base vector. -/
def errTerm (src : Path F) (b : F × F) (i : Nat) : F :=
  let x1 := (edgeVec src i).1
  let y1 := (edgeVec src i).2
  let v2 := x1 * b.1 + y1 * b.2
  let v4 := x1 * b.2 - y1 * b.1
  let v2 := v2 * v2
  let v4 := v4 * v4
  if v2 > v4 then v4 else v2

/-- The second loop (lines 197-224): the pair `(sumv2, sumv4)`. -/
def sqErrors (src : Path F) (b1 b2 : F × F) : F × F :=
  (List.range' 1 (src.num - 1)).foldl
    (fun s i => (s.1 + errTerm src b1 i, s.2 + errTerm src b2 i)) (0, 0)

/-- Lines 135-231: the base vector `(xbase, ybase)`. -/
def baseVector (sqrt : F → F) (src : Path F) : F × F :=
  let s := baseSums src
  let b1 := normalize sqrt (s.xbase, s.ybase)
  let b2 := normalize sqrt (s.xbase2, s.ybase2)
  let e := sqErrors src b1 b2
  if e.1 > e.2 then b2 else b1

/-! ## Edge directions (lines 240-253) -/

/-- Lines 244-252: the flag of the edge that ends in node `i`. -/
def edgeDir (src : Path F) (xbase ybase : F) (i : Nat) : Int :=
  let x1 := (edgeVec src i).1
  let y1 := (edgeVec src i).2
  let v2 := |x1 * xbase + y1 * ybase|
  let v4 := |x1 * ybase - y1 * xbase|
  if v2 > v4 then 0 else 1

/-- The loop of lines 241-253 on the array `dir`. -/
def fillDir (src : Path F) (xbase ybase : F) (dir : Nat → Int) : Nat → Int :=
  (List.range' 1 (src.num - 1)).foldl
    (fun d i => Function.update d (i - 1) (edgeDir src xbase ybase i)) dir

/-! ## Groups and their C-parameters (lines 261-317) -/

/-- Variables of the aggregation loop. -/
structure AggState (F : Type) where
  istart : Option Nat
  num2 : Nat
  dirprev : Int
  dest : Path F
  dirgroup : Nat → Nat

/-- Lines 274-286: the sum `c` over the nodes `istart..i`. -/
def cSum (src : Path F) (xbase ybase : F) (num1 : Nat) (dirprev : Int)
    (istart i : Nat) : F :=
  if dirprev = 0 then
    (List.range' istart (i + 1 - istart)).foldl
      (fun c j => c + (src.x (j % num1) * ybase - src.y (j % num1) * xbase)) 0
  else
    (List.range' istart (i + 1 - istart)).foldl
      (fun c j => c + (src.x (j % num1) * xbase + src.y (j % num1) * ybase)) 0

/-- Lines 274-287: the average C-parameter of the group `istart..i`. -/
def groupC (src : Path F) (xbase ybase : F) (num1 : Nat) (dirprev : Int)
    (istart i : Nat) : F :=
  cSum src xbase ybase num1 dirprev istart i / (1 + (i : F) - (istart : F))

/-- Lines 289-298 and 306-309: store `c` in the slot of the direction. -/
def storeC (dirprev : Int) (dest : Path F) (k : Nat) (c : F) : Path F :=
  if dirprev = 0 then { dest with x := Function.update dest.x k c }
  else { dest with y := Function.update dest.y k c }

/-- Body of the aggregation loop (lines 268-316); the flag says that the
loop was left by `break`. -/
def aggBody (src : Path F) (xbase ybase : F) (dir : Nat → Int) (num1 : Nat)
    (i : Nat) (s : AggState F) : AggState F × Bool :=
  if dir (i % num1) ≠ s.dirprev then
    match s.istart with
    | some istart =>
      let c := groupC src xbase ybase num1 s.dirprev istart i
      let dest1 := storeC s.dirprev (storeC s.dirprev s.dest s.num2 c) (s.num2 + 1) c
      let dirgroup1 := Function.update s.dirgroup s.num2 istart
      if i ≥ num1 then
        ({ istart := some istart, num2 := s.num2 + 1, dirprev := s.dirprev,
           dest := storeC s.dirprev dest1 0 c, dirgroup := dirgroup1 }, true)
      else
        ({ istart := some i, num2 := s.num2 + 1, dirprev := dir i,
           dest := dest1, dirgroup := dirgroup1 }, false)
    | none => ({ s with dirprev := dir i, istart := some i }, false)
  else (s, false)

/-- The loop `for(i=0;i<num*2;i++)`, started at `i` with `n` iterations
left. -/
def aggLoop (src : Path F) (xbase ybase : F) (dir : Nat → Int) (num1 : Nat) :
    Nat → Nat → AggState F → AggState F
  | 0, _, s => s
  | n + 1, i, s =>
    if (aggBody src xbase ybase dir num1 i s).2 then
      (aggBody src xbase ybase dir num1 i s).1
    else aggLoop src xbase ybase dir num1 n (i + 1) (aggBody src xbase ybase dir num1 i s).1

/-- Lines 261-317. -/
def aggregate (src : Path F) (xbase ybase : F) (dir : Nat → Int)
    (dest : Path F) (dirgroup : Nat → Nat) : AggState F :=
  let num1 := src.num - 1
  aggLoop src xbase ybase dir num1 (src.num * 2) 0
    { istart := none, num2 := 0, dirprev := dir (num1 - 1), dest := dest,
      dirgroup := dirgroup }

/-! ## Nodes of the new path (lines 326-337) -/

/-- Body of the loop of lines 326-332. -/
def rotStep (xbase ybase : F) (dest : Path F) (i : Nat) : Path F :=
  let x1 := xbase * dest.y i + ybase * dest.x i
  let y1 := -xbase * dest.x i + ybase * dest.y i
  { dest with x := Function.update dest.x i x1, y := Function.update dest.y i y1 }

/-- Lines 326-337: convert the C-parameters to coordinates and close the
path. -/
def reconstruct (xbase ybase : F) (dest : Path F) (num2 : Nat) : Path F :=
  let d := (List.range num2).foldl (rotStep xbase ybase) dest
  { x := Function.update d.x num2 (d.x 0)
    y := Function.update d.y num2 (d.y 0)
    num := num2 + 1
    alloc := d.alloc }

/-! ## Collapsing of short vectors (lines 340-380) -/

/-- Squared length of the vector from node `i-1` to node `i` (lines 349-351). -/
def edgeLen2 (p : Path F) (i : Nat) : F :=
  let x1 := p.x i - p.x (i - 1)
  let y1 := p.y i - p.y (i - 1)
  x1 * x1 + y1 * y1

/-- Lines 373-374: `for (j=istart;j<=iend;j++) dir[j]=dirprev`. -/
def relabel (dir : Nat → Int) (istart iend : Nat) (dirprev : Int) : Nat → Int :=
  (List.range' istart (iend + 1 - istart)).foldl
    (fun d j => Function.update d j dirprev) dir

/-- Body of the loop of lines 346-377 on the pair `(dir, flag)`. -/
def collapseStep (src dest : Path F) (dirgroup : Nat → Nat) (clen2 : F)
    (st : (Nat → Int) × Int) (i : Nat) : (Nat → Int) × Int :=
  if edgeLen2 dest i < clen2 then
    let istart := dirgroup (i - 1)
    let iend := if i = dest.num - 1 then dirgroup 0 else dirgroup i
    let dirprev := if istart = 0 then st.1 (src.num - 2) else st.1 (istart - 1)
    (relabel st.1 istart iend dirprev, 1)
  else st

/-- Lines 342-377: one pass over the vectors of `dest`. -/
def collapsePass (src dest : Path F) (dirgroup : Nat → Nat) (collapseLen : F)
    (dir : Nat → Int) : (Nat → Int) × Int :=
  (List.range' 1 (dest.num - 1)).foldl
    (collapseStep src dest dirgroup (collapseLen * collapseLen)) (dir, 0)

/-- State at the end of a pass. -/
structure OrthoState (F : Type) where
  dest : Path F
  dir : Nat → Int
  dirgroup : Nat → Nat
  num2 : Nat

/-- Lines 255-380, from the label `RecalcOrtho` to the end of the collapse
block; the first argument bounds the number of passes. -/
def recalcOrtho (src : Path F) (xbase ybase collapseLen : F) :
    Nat → (Nat → Int) → (Nat → Nat) → Path F → Option (OrthoState F)
  | 0, _, _, _ => none
  | fuel + 1, dir, dirgroup, dest =>
    let s := aggregate src xbase ybase dir dest dirgroup
    let dest1 := reconstruct xbase ybase s.dest s.num2
    if collapseLen > 0 then
      let r := collapsePass src dest1 s.dirgroup collapseLen dir
      if r.2 > 0 then recalcOrtho src xbase ybase collapseLen fuel r.1 s.dirgroup dest1
      else some { dest := dest1, dir := r.1, dirgroup := s.dirgroup, num2 := s.num2 }
    else some { dest := dest1, dir := dir, dirgroup := s.dirgroup, num2 := s.num2 }

/-- Lines 132-380 of `OrthogonalizePath`, after the two checks. -/
def orthoMain (sqrt : F → F) (fuel : Nat) (mem : Fresh F) (dest src : Path F)
    (collapseLen : F) : Option (OrthoState F) :=
  let b := baseVector sqrt src
  let dir := fillDir src b.1 b.2 mem.dir
  recalcOrtho src b.1 b.2 collapseLen fuel dir mem.dirgroup
    (dest.Alloc src.num mem.x mem.y)

/-- The function `OrthogonalizePath`: the return code and the path `dest`. -/
def OrthogonalizePath (sqrt : F → F) (fuel : Nat) (mem : Fresh F) (dest src : Path F)
    (collapseLen : F) : Option (Int × Path F) :=
  if src.num < 5 then some (1, dest)
  else if src.x 0 ≠ src.x (src.num - 1) ∨ src.y 0 ≠ src.y (src.num - 1) then some (2, dest)
  else (orthoMain sqrt fuel mem dest src collapseLen).map (fun s => (0, s.dest))

/-! ## Parsing of the path (lines 409-469) -/

/-- Variables of the loop of `ParsePath`. -/
structure ParseState (F : Type) where
  dest : Path F
  x : F
  y : F
  found_coords : Nat
  start_coord : Nat

/-- The character `text[i]`; the text ends in the null terminator. -/
def charAt (text : List Char) (i : Nat) : Char :=
  text.getD i (Char.ofNat 0)

/-- Lines 443-462: a number that ends before position `i`. -/
def parseNumber (atof : List Char → F) (text : List Char) (s : ParseState F) (i : Nat) :
    ParseState F :=
  let coord := (text.drop s.start_coord).take (i - s.start_coord)
  let s1 : ParseState F :=
    if s.found_coords = 0 then { s with x := atof coord }
    else if s.found_coords = 1 then
      { s with
        y := atof coord
        dest :=
          { s.dest with
            x := Function.update s.dest.x s.dest.num s.x
            y := Function.update s.dest.y s.dest.num (atof coord)
            num := s.dest.num + 1 } }
    else s
  let s2 : ParseState F := { s1 with found_coords := s1.found_coords + 1 }
  if charAt text i = ',' then { s2 with found_coords := 0 } else s2

/-- Body of the loop of lines 437-466. -/
def parseStep (atof : List Char → F) (text : List Char) (s : ParseState F) (i : Nat) :
    ParseState F :=
  if charAt text i = ',' ∨ charAt text i = ' ' ∨ charAt text i = Char.ofNat 0 then
    let s1 := if i > s.start_coord then parseNumber atof text s i else s
    { s1 with start_coord := i + 1 }
  else s

/-- The function `ParsePath` on a text without null characters, whose numbers
fit the buffer `coord`; `atof` is the conversion of `<stdlib.h>`, `fx`, `fy`
are the fresh arrays of `dest` and `x0`, `y0` the values that the variables
`x`, `y` hold at first. -/
def ParsePath (atof : List Char → F) (fx fy : Nat → F) (x0 y0 : F) (dest : Path F)
    (text : List Char) : Int × Path F :=
  let len := text.length
  let nodesNumEst := 10 + (text.filter (fun c => c = ',')).length
  let s0 : ParseState F :=
    { dest := dest.Alloc nodesNumEst fx fy, x := x0, y := y0, found_coords := 0,
      start_coord := 0 }
  (0, ((List.range (len + 1)).foldl (parseStep atof text) s0).dest)

/-! ## Notions of the statements -/

/-- Every flag of the `num1` vectors is 0 or 1. -/
def BinaryDir (dir : Nat → Int) (num1 : Nat) : Prop :=
  ∀ e, e < num1 → dir e = 0 ∨ dir e = 1

/-- Two arrays of flags agree on the `num1` vectors. -/
def SameDir (dir1 dir2 : Nat → Int) (num1 : Nat) : Prop :=
  ∀ e, e < num1 → dir1 e = dir2 e

/-- A vector of `dest` is shorter than `collapseLen`. -/
def Undersized (dest : Path F) (collapseLen : F) (i : Nat) : Prop :=
  edgeLen2 dest i < collapseLen * collapseLen

/-- The labels with which the first pass starts. -/
def initDir (sqrt : F → F) (mem : Fresh F) (src : Path F) : Nat → Int :=
  fillDir src (baseVector sqrt src).1 (baseVector sqrt src).2 mem.dir

/-- The aggregation of the first pass of `OrthogonalizePath`. -/
def firstAgg (sqrt : F → F) (mem : Fresh F) (dest src : Path F) : AggState F :=
  aggregate src (baseVector sqrt src).1 (baseVector sqrt src).2 (initDir sqrt mem src)
    (dest.Alloc src.num mem.x mem.y) mem.dirgroup

/-- The vector cyclically before vector `e` among `num1` vectors. -/
def cpred (num1 e : Nat) : Nat :=
  if e = 0 then num1 - 1 else e - 1

/-- Vector `e` starts a group: its flag differs from the flag of the vector
cyclically before it. -/
def isStart (dir : Nat → Int) (num1 e : Nat) : Bool :=
  decide (dir e ≠ dir (cpred num1 e))

/-- The vectors that start a group, in increasing order. -/
def groupStarts (dir : Nat → Int) (num1 : Nat) : List Nat :=
  (List.range num1).filter (isStart dir num1)

/-- The number of maximal cyclic runs of vectors with equal flags, when the
flags are not all equal, and 0 when they are. -/
def groupCount (dir : Nat → Int) (num1 : Nat) : Nat :=
  (groupStarts dir num1).length

/-- Vector `e` belongs to group `g` of the `num2` groups with the starts
`dirgroup`: a group runs from its start up to the start of the next group,
the last group wraps round to the start of the first. -/
def InGroup (dirgroup : Nat → Nat) (num2 g e : Nat) : Prop :=
  if g + 1 < num2 then dirgroup g ≤ e ∧ e < dirgroup (g + 1)
  else dirgroup g ≤ e ∨ e < dirgroup 0

/-- Membership in a group can be decided. -/
instance InGroup.decidable (dirgroup : Nat → Nat) (num2 g e : Nat) :
    Decidable (InGroup dirgroup num2 g e) := by
  unfold InGroup
  infer_instance

/-- The group cyclically before group `g`. -/
def prevGroup (num2 g : Nat) : Nat :=
  if g = 0 then num2 - 1 else g - 1

/-- The nodes that the usage comment above `main` promises (lines 478-481):
a comma delimits nodes, a space delimits coordinates, a node is made of the
first two coordinates between two commas, one or zero coordinates between
commas make no node. -/
def parseDoc (atof : List Char → F) (text : List Char) : List (F × F) :=
  (text.splitOn ',').filterMap (fun seg =>
    match (seg.splitOn ' ').filter (fun w => w ≠ []) with
    | a :: b :: _ => some (atof a, atof b)
    | _ => none)

/-! ## Invariant of the aggregation loop -/

/-- The slot of `dest` that holds the C-parameter of a group with flag `lab`. -/
def slotAt (lab : Int) (p : Path F) (k : Nat) : F :=
  if lab = 0 then p.x k else p.y k

/-- End of group `g` while the loop runs: the start of the next group, or
of the group in progress. -/
def nxtRun (num2 : Nat) (dirgroup : Nat → Nat) (ist g : Nat) : Nat :=
  if g + 1 < num2 then dirgroup (g + 1) else ist

/-- Start of the first group while the loop runs. -/
def firstStart (num2 : Nat) (dirgroup : Nat → Nat) (ist : Nat) : Nat :=
  if num2 = 0 then ist else dirgroup 0

/-- End of group `g` after the loop: the start of the next group, the last
group ends one turn after the start of the first. -/
def nxtFin (num1 : Nat) (dirgroup : Nat → Nat) (num2 g : Nat) : Nat :=
  if g + 1 < num2 then dirgroup (g + 1) else dirgroup 0 + num1

/-- Invariant of the aggregation loop while a group is in progress. -/
structure AggRun (src : Path F) (xbase ybase : F) (dir : Nat → Int) (num1 : Nat)
    (i : Nat) (s : AggState F) (ist : Nat) : Prop where
  lt_i : ist < i
  lt_num1 : ist < num1
  dirprev_eq : s.dirprev = dir ist
  run : ∀ j, ist ≤ j → j < i → dir (j % num1) = dir ist
  count : s.num2 ≤ ist
  below : ∀ g, g < s.num2 → s.dirgroup g < ist
  sorted : ∀ g, g < s.num2 → s.dirgroup g < nxtRun s.num2 s.dirgroup ist g
  same : ∀ g, g < s.num2 → ∀ e, s.dirgroup g ≤ e → e < nxtRun s.num2 s.dirgroup ist g →
    dir e = dir (s.dirgroup g)
  alt : ∀ g, g < s.num2 → dir (nxtRun s.num2 s.dirgroup ist g) ≠ dir (s.dirgroup g)
  before : ∀ e, e < firstStart s.num2 s.dirgroup ist → dir e = dir (num1 - 1)
  first_ne : dir (firstStart s.num2 s.dirgroup ist) ≠ dir (num1 - 1)
  bound : i ≤ firstStart s.num2 s.dirgroup ist + num1
  slots : (∀ e, e < num1 → dir e = 0 ∨ dir e = 1) → ∀ g, g < s.num2 →
    slotAt (dir (s.dirgroup g)) s.dest g =
        groupC src xbase ybase num1 (dir (s.dirgroup g)) (s.dirgroup g) (nxtRun s.num2 s.dirgroup ist g) ∧
      slotAt (dir (s.dirgroup g)) s.dest (g + 1) =
        groupC src xbase ybase num1 (dir (s.dirgroup g)) (s.dirgroup g) (nxtRun s.num2 s.dirgroup ist g)

/-- Invariant of the aggregation loop before iteration `i`. -/
def AggInv (src : Path F) (xbase ybase : F) (dir : Nat → Int) (num1 : Nat)
    (dest0 : Path F) (dg0 : Nat → Nat) (i : Nat) (s : AggState F) : Prop :=
  match s.istart with
  | none =>
    s.num2 = 0 ∧ s.dirprev = dir (num1 - 1) ∧ (∀ j, j < i → dir (j % num1) = dir (num1 - 1)) ∧
      s.dest = dest0 ∧ s.dirgroup = dg0
  | some ist => AggRun src xbase ybase dir num1 i s ist

/-- What the aggregation loop has established when it is left by `break`. -/
structure AggPost (src : Path F) (xbase ybase : F) (dir : Nat → Int) (num1 : Nat)
    (s : AggState F) : Prop where
  two_le : 2 ≤ s.num2
  le : s.num2 ≤ num1
  lt_num1 : ∀ g, g < s.num2 → s.dirgroup g < num1
  sorted : ∀ g, g + 1 < s.num2 → s.dirgroup g < s.dirgroup (g + 1)
  same : ∀ g, g < s.num2 → ∀ j, s.dirgroup g ≤ j → j < nxtFin num1 s.dirgroup s.num2 g →
    dir (j % num1) = dir (s.dirgroup g)
  alt : ∀ g, g < s.num2 → dir (nxtFin num1 s.dirgroup s.num2 g % num1) ≠ dir (s.dirgroup g)
  slots : (∀ e, e < num1 → dir e = 0 ∨ dir e = 1) → ∀ g, g < s.num2 →
    slotAt (dir (s.dirgroup g)) s.dest g =
        groupC src xbase ybase num1 (dir (s.dirgroup g)) (s.dirgroup g)
          (nxtFin num1 s.dirgroup s.num2 g) ∧
      slotAt (dir (s.dirgroup g)) s.dest (if g + 1 < s.num2 then g + 1 else 0) =
        groupC src xbase ybase num1 (dir (s.dirgroup g)) (s.dirgroup g)
          (nxtFin num1 s.dirgroup s.num2 g)

/-! ## Inputs of the examples -/

/-- Newton iteration for the integer square root of `n`. -/
def sqrtIter (n : Nat) : Nat → Nat → Nat
  | 0, x => x
  | k + 1, x => if (x + n / x) / 2 < x then sqrtIter n k ((x + n / x) / 2) else x

/-- Integer square root. -/
def natSqrt (n : Nat) : Nat :=
  if n = 0 then 0 else sqrtIter n n n

/-- A square root on the rationals from the integer square roots of
numerator and denominator; it is used on squares of rationals. -/
def ratSqrt (q : ℚ) : ℚ :=
  (natSqrt q.num.toNat : ℚ) / (natSqrt q.den : ℚ)

/-- The path with the given nodes. -/
def mkPath (l : List (F × F)) : Path F :=
  { x := fun i => (l.getD i (0, 0)).1
    y := fun i => (l.getD i (0, 0)).2
    num := l.length
    alloc := l.length }

/-- Fresh arrays that happen to hold zeros. -/
def zeroMem : Fresh ℚ :=
  { x := fun _ => 0, y := fun _ => 0, dir := fun _ => 0, dirgroup := fun _ => 0 }

/-- The path of Scenario 1 of the specification. -/
def squarePath : Path F :=
  mkPath [(0, 0), (10, 1 / 10), (101 / 10, 10), (0, 99 / 10), (0, 0)]

/-- A rectilinear hexagon in the frame of the vectors `(4,3)` and `(-3,4)`,
with sides 100, 100, 50, 5, 50, 105: the side of length 5 is the fourth
vector. -/
def stepPath : Path ℚ :=
  mkPath [(0, 0), (80, 60), (20, 140), (-20, 110), (-23, 114), (-63, 84), (0, 0)]

/-- The hexagon `stepPath` started at another corner, so that the side of
length 5 is the last vector. -/
def loopPath : Path ℚ :=
  mkPath [(-23, 114), (-63, 84), (0, 0), (80, 60), (20, 140), (-20, 110), (-23, 114)]

/-- The flags of `loopPath` in fresh arrays that hold zeros. -/
def loopDir : Nat → Int :=
  fillDir loopPath (baseVector ratSqrt loopPath).1 (baseVector ratSqrt loopPath).2 zeroMem.dir

/-- The collapse loop of the first pass on `loopPath` with `collapseLen = 10`,
in fresh arrays that hold zeros. -/
def loopPass : (Nat → Int) × Int :=
  collapsePass loopPath
    (reconstruct (baseVector ratSqrt loopPath).1 (baseVector ratSqrt loopPath).2
      (aggregate loopPath (baseVector ratSqrt loopPath).1 (baseVector ratSqrt loopPath).2
        loopDir loopPath zeroMem.dirgroup).dest
      (aggregate loopPath (baseVector ratSqrt loopPath).1 (baseVector ratSqrt loopPath).2
        loopDir loopPath zeroMem.dirgroup).num2)
    (aggregate loopPath (baseVector ratSqrt loopPath).1 (baseVector ratSqrt loopPath).2
      loopDir loopPath zeroMem.dirgroup).dirgroup 10 loopDir

/-- A closed path with 5 nodes that runs from `(0,0)` to `(2,0)` and back. -/
def flatPath : Path ℚ :=
  mkPath [(0, 0), (1, 0), (2, 0), (1, 0), (0, 0)]

/-- The aggregation of `flatPath` in the first pass of `OrthogonalizePath`. -/
def flatAgg : AggState ℚ :=
  aggregate flatPath (baseVector ratSqrt flatPath).1 (baseVector ratSqrt flatPath).2
    (fillDir flatPath (baseVector ratSqrt flatPath).1 (baseVector ratSqrt flatPath).2
      zeroMem.dir)
    (flatPath.Alloc flatPath.num zeroMem.x zeroMem.y) zeroMem.dirgroup

/-- The flags 0, 1, 0, 1, ... -/
def altDir (e : Nat) : Int :=
  (e : Int) % 2

/-- An aggregation for the flags `altDir` over the square of Scenario 1. -/
def altAgg : AggState ℚ :=
  aggregate squarePath 1 0 altDir squarePath (fun _ => 0)

/-! ## Candidates, offsets, first pass, shifted paths and array accesses -/

/-- Lines 188-190: the normalised base vector of Variant A. -/
def candA (sqrt : F → F) (src : Path F) : F × F :=
  normalize sqrt ((baseSums src).xbase, (baseSums src).ybase)

/-- Lines 192-194: the normalised base vector of Variant B. -/
def candB (sqrt : F → F) (src : Path F) : F × F :=
  normalize sqrt ((baseSums src).xbase2, (baseSums src).ybase2)

/-- The residual of a candidate base vector in the words of the
specification: the sum over all edges of the smaller of the squares of the
components of the edge along the candidate and perpendicular to it. -/
def residual (src : Path F) (b : F × F) : F :=
  ((List.range' 1 (src.num - 1)).map (fun i =>
    min (((edgeVec src i).1 * b.1 + (edgeVec src i).2 * b.2) ^ 2)
      (((edgeVec src i).1 * b.2 - (edgeVec src i).2 * b.1) ^ 2))).sum

/-- A path with an edge at about -27 degrees and an edge at 45 degrees. -/
def foldPath : Path ℚ :=
  mkPath [(0, 0), (2, -1), (3, 0)]

/-- The line constant C of the source point `j` for a group with the label
`lab`, in the words of the specification: `x*ybase - y*xbase` for an along
group (label 0), `x*xbase + y*ybase` for a perpendicular group. -/
def lineC (src : Path F) (xbase ybase : F) (lab : Int) (j : Nat) : F :=
  if lab = 0 then src.x j * ybase - src.y j * xbase else src.x j * xbase + src.y j * ybase

/-- The arithmetic mean of the line constant over the `e - s + 1` source
points with the indices `s..e` modulo `num1`, in the words of the
specification. -/
def meanC (src : Path F) (xbase ybase : F) (num1 : Nat) (lab : Int) (s e : Nat) : F :=
  ((List.range' s (e - s + 1)).map (fun j => lineC src xbase ybase lab (j % num1))).sum /
    ((e - s + 1 : Nat) : F)

/-- The path of the first pass of `OrthogonalizePath` before the collapse
loop (lines 326-337). -/
def firstOut (sqrt : F → F) (mem : Fresh F) (dest src : Path F) : Path F :=
  reconstruct (baseVector sqrt src).1 (baseVector sqrt src).2 (firstAgg sqrt mem dest src).dest
    (firstAgg sqrt mem dest src).num2

/-- The collapse loop of the first pass of `OrthogonalizePath` (lines
342-377): the flags and the variable `flag` after it. -/
def firstPass (sqrt : F → F) (mem : Fresh F) (dest src : Path F) (collapseLen : F) :
    (Nat → Int) × Int :=
  collapsePass src (firstOut sqrt mem dest src) (firstAgg sqrt mem dest src).dirgroup collapseLen
    (initDir sqrt mem src)

/-- Whether a vector is short can be decided. -/
instance Undersized.decidable (dest : Path F) (collapseLen : F) (i : Nat) :
    Decidable (Undersized dest collapseLen i) := by
  unfold Undersized
  infer_instance

/-- A staircase in the frame of the vectors `(4,3)` and `(-3,4)` with the
sides 100, 5, 5, 100, 105, 105: the second and the third vector are short. -/
def stairPath : Path ℚ :=
  mkPath [(0, 0), (80, 60), (77, 64), (81, 67), (21, 147), (-63, 84), (0, 0)]

/-- The path with every point shifted by `(tx, ty)`. -/
def shiftPath (tx ty : F) (p : Path F) : Path F :=
  { x := fun i => p.x i + tx, y := fun i => p.y i + ty, num := p.num, alloc := p.alloc }

/-- What a shift by `(tx, ty)` adds to the line constant of a point. -/
def shiftC (tx ty xbase ybase : F) (lab : Int) : F :=
  if lab = 0 then tx * ybase - ty * xbase else tx * xbase + ty * ybase

/-- The index of the read `dir[i]` of line 314 in iteration `i` of the
aggregation loop, when the iteration comes to this line: the flag has
changed and the loop is not left by `break`. -/
def aggDirRead (dir : Nat → Int) (num1 i : Nat) (s : AggState F) : Option Nat :=
  if dir (i % num1) ≠ s.dirprev then
    match s.istart with
    | some _ => if i ≥ num1 then none else some i
    | none => some i
  else none

/-- The indices of the cells of `dest->x` or `dest->y` that iteration `i` of
the aggregation loop writes (lines 289-298 and 306-309). -/
def aggDestWrites (dir : Nat → Int) (num1 i : Nat) (s : AggState F) : List Nat :=
  if dir (i % num1) ≠ s.dirprev then
    match s.istart with
    | some _ => if i ≥ num1 then [s.num2, s.num2 + 1, 0] else [s.num2, s.num2 + 1]
    | none => []
  else []

/-- The iterations of the loop `for(i=0;i<num*2;i++)`: the counter `i` and
the variables at the start of every iteration that is run, from `i` with `n`
iterations left. -/
def aggTrace (src : Path F) (xbase ybase : F) (dir : Nat → Int) (num1 : Nat) :
    Nat → Nat → AggState F → List (Nat × AggState F)
  | 0, _, _ => []
  | n + 1, i, s =>
    (i, s) :: (if (aggBody src xbase ybase dir num1 i s).2 then []
      else aggTrace src xbase ybase dir num1 n (i + 1) (aggBody src xbase ybase dir num1 i s).1)

/-- The iterations of the aggregation loop of a pass (lines 261-317). -/
def aggStates (src : Path F) (xbase ybase : F) (dir : Nat → Int)
    (dest : Path F) (dirgroup : Nat → Nat) : List (Nat × AggState F) :=
  let num1 := src.num - 1
  aggTrace src xbase ybase dir num1 (src.num * 2) 0
    { istart := none, num2 := 0, dirprev := dir (num1 - 1), dest := dest,
      dirgroup := dirgroup }

/-- The indices `j` of the writes `dir[j]` of lines 373-374 in iteration `i`
of the collapse loop. -/
def collapseWrites (dest : Path F) (dirgroup : Nat → Nat) (clen2 : F) (i : Nat) : List Nat :=
  if edgeLen2 dest i < clen2 then
    let istart := dirgroup (i - 1)
    let iend := if i = dest.num - 1 then dirgroup 0 else dirgroup i
    List.range' istart (iend + 1 - istart)
  else []

/-! ## The aggregation loop -/

omit [LinearOrderedField F] in
theorem slotAt_storeC (lab lab2 : Int) (p : Path F) (k j : Nat) (c : F) :
    slotAt lab (storeC lab2 p k c) j =
      if (lab = 0 ↔ lab2 = 0) ∧ j = k then c else slotAt lab p j := by
  unfold slotAt storeC
  by_cases h1 : lab = 0 <;> by_cases h2 : lab2 = 0 <;> by_cases h3 : j = k <;>
    simp [h1, h2, h3, Function.update]

theorem aggBody_same (src : Path F) (xbase ybase : F) (dir : Nat → Int) (num1 i : Nat)
    (s : AggState F) (h : dir (i % num1) = s.dirprev) :
    aggBody src xbase ybase dir num1 i s = (s, false) := by
  simp [aggBody, h]

theorem aggBody_none (src : Path F) (xbase ybase : F) (dir : Nat → Int) (num1 i : Nat)
    (s : AggState F) (h : dir (i % num1) ≠ s.dirprev) (hs : s.istart = none) :
    aggBody src xbase ybase dir num1 i s =
      ({ s with dirprev := dir i, istart := some i }, false) := by
  simp [aggBody, h, hs]

theorem aggBody_next (src : Path F) (xbase ybase : F) (dir : Nat → Int) (num1 i : Nat)
    (s : AggState F) (ist : Nat) (h : dir (i % num1) ≠ s.dirprev) (hs : s.istart = some ist)
    (hi : i < num1) :
    aggBody src xbase ybase dir num1 i s =
      ({ istart := some i, num2 := s.num2 + 1, dirprev := dir i,
         dest := storeC s.dirprev (storeC s.dirprev s.dest s.num2
            (groupC src xbase ybase num1 s.dirprev ist i)) (s.num2 + 1)
            (groupC src xbase ybase num1 s.dirprev ist i),
         dirgroup := Function.update s.dirgroup s.num2 ist }, false) := by
  simp [aggBody, h, hs, Nat.not_le.mpr hi]

theorem aggBody_break (src : Path F) (xbase ybase : F) (dir : Nat → Int) (num1 i : Nat)
    (s : AggState F) (ist : Nat) (h : dir (i % num1) ≠ s.dirprev) (hs : s.istart = some ist)
    (hi : num1 ≤ i) :
    aggBody src xbase ybase dir num1 i s =
      ({ istart := some ist, num2 := s.num2 + 1, dirprev := s.dirprev,
         dest := storeC s.dirprev (storeC s.dirprev (storeC s.dirprev s.dest s.num2
            (groupC src xbase ybase num1 s.dirprev ist i)) (s.num2 + 1)
            (groupC src xbase ybase num1 s.dirprev ist i)) 0
            (groupC src xbase ybase num1 s.dirprev ist i),
         dirgroup := Function.update s.dirgroup s.num2 ist }, true) := by
  simp [aggBody, h, hs, hi]

theorem AggRun.first_le {src : Path F} {xbase ybase : F} {dir : Nat → Int} {num1 i : Nat}
    {s : AggState F} {ist : Nat} (h : AggRun src xbase ybase dir num1 i s ist) :
    firstStart s.num2 s.dirgroup ist ≤ ist := by
  unfold firstStart
  split
  · exact le_rfl
  · exact (h.below 0 (by omega)).le

theorem AggRun.nxt_le {src : Path F} {xbase ybase : F} {dir : Nat → Int} {num1 i : Nat}
    {s : AggState F} {ist : Nat} (h : AggRun src xbase ybase dir num1 i s ist) (g : Nat) :
    nxtRun s.num2 s.dirgroup ist g ≤ ist := by
  unfold nxtRun
  split
  · exact (h.below _ (by assumption)).le
  · exact le_rfl

/-- The flag of the group in progress is the flag of the last vector once the
loop index has passed it. -/
theorem AggRun.dir_last {src : Path F} {xbase ybase : F} {dir : Nat → Int} {num1 i : Nat}
    {s : AggState F} {ist : Nat} (h : AggRun src xbase ybase dir num1 i s ist)
    (hi : num1 ≤ i) : dir ist = dir (num1 - 1) := by
  have h1 := h.lt_num1
  have := h.run (num1 - 1) (by omega) (by omega)
  rw [Nat.mod_eq_of_lt (by omega)] at this
  exact this.symm

theorem AggInv.keep {src : Path F} {xbase ybase : F} {dir : Nat → Int} {num1 i : Nat}
    {dest0 : Path F} {dg0 : Nat → Nat} {s : AggState F}
    (h : AggInv src xbase ybase dir num1 dest0 dg0 i s)
    (hsame : dir (i % num1) = s.dirprev) :
    AggInv src xbase ybase dir num1 dest0 dg0 (i + 1) s := by
  unfold AggInv at h ⊢
  cases hs : s.istart with
  | none =>
    rw [hs] at h
    obtain ⟨h1, h2, h3, h4, h5⟩ := h
    refine ⟨h1, h2, ?_, h4, h5⟩
    intro j hj
    rcases Nat.lt_succ_iff_lt_or_eq.mp hj with hj | rfl
    · exact h3 j hj
    · rw [hsame, h2]
  | some ist =>
    rw [hs] at h
    have hfl := h.first_le
    have hl := h.lt_num1
    refine { h with lt_i := Nat.lt_succ_of_lt h.lt_i, run := ?_, bound := ?_ }
    · intro j hj1 hj2
      rcases Nat.lt_succ_iff_lt_or_eq.mp hj2 with hj | rfl
      · exact h.run j hj1 hj
      · rw [hsame, h.dirprev_eq]
    · by_contra hcon
      have hi : i = firstStart s.num2 s.dirgroup ist + num1 := le_antisymm h.bound (by omega)
      have hmod : i % num1 = firstStart s.num2 s.dirgroup ist := by
        rw [hi, Nat.add_mod_right, Nat.mod_eq_of_lt (by omega)]
      have h1 := h.dir_last (by omega)
      have h2 := h.first_ne
      rw [hmod, h.dirprev_eq, h1] at hsame
      exact h2 hsame

theorem AggInv.start {src : Path F} {xbase ybase : F} {dir : Nat → Int} {num1 i : Nat}
    {dest0 : Path F} {dg0 : Nat → Nat} {s : AggState F} (hnum1 : 0 < num1)
    (h : AggInv src xbase ybase dir num1 dest0 dg0 i s)
    (hch : dir (i % num1) ≠ s.dirprev) (hs : s.istart = none) :
    AggInv src xbase ybase dir num1 dest0 dg0 (i + 1)
      { s with dirprev := dir i, istart := some i } := by
  unfold AggInv at h ⊢
  rw [hs] at h
  obtain ⟨h1, h2, h3, -, -⟩ := h
  have hi : i < num1 := by
    by_contra hcon
    have := h3 (i % num1) (lt_of_lt_of_le (Nat.mod_lt _ hnum1) (by omega))
    rw [Nat.mod_mod] at this
    exact hch (by rw [this, h2])
  have hmod : i % num1 = i := Nat.mod_eq_of_lt hi
  rw [hmod, h2] at hch
  simp only
  refine
    { lt_i := Nat.lt_succ_self i, lt_num1 := hi, dirprev_eq := rfl, run := ?_,
      count := by simp [h1], below := by simp [h1], sorted := by simp [h1],
      same := by simp [h1], alt := by simp [h1], before := ?_, first_ne := ?_,
      bound := ?_, slots := by simp [h1] }
  · intro j hj1 hj2
    have : j = i := by omega
    rw [this, hmod]
  · intro e he
    simp only [firstStart, h1, if_true] at he
    have := h3 e he
    rwa [Nat.mod_eq_of_lt (by omega)] at this
  · simpa [firstStart, h1] using hch
  · simp only [firstStart, h1, if_true]
    omega

/-- Two different flags, both 0 or 1: exactly one of them is 0. -/
theorem flag_iff_of_ne {a b : Int} (ha : a = 0 ∨ a = 1) (hb : b = 0 ∨ b = 1) (h : a ≠ b) :
    ¬ (a = 0 ↔ b = 0) := by
  omega

theorem nxtRun_update_lt (num2 : Nat) (dirgroup : Nat → Nat) (ist i g : Nat) (hg : g < num2) :
    nxtRun (num2 + 1) (Function.update dirgroup num2 ist) i g = nxtRun num2 dirgroup ist g := by
  unfold nxtRun
  by_cases h1 : g + 1 < num2
  · rw [if_pos h1, if_pos (Nat.lt_succ_of_lt h1), Function.update_noteq (Nat.ne_of_lt h1)]
  · have h2 : g + 1 = num2 := by omega
    rw [if_neg h1, if_pos (by omega), h2, Function.update_same]

theorem nxtRun_update_self (num2 : Nat) (dirgroup : Nat → Nat) (ist i : Nat) :
    nxtRun (num2 + 1) (Function.update dirgroup num2 ist) i num2 = i := by
  simp [nxtRun]

theorem firstStart_update (num2 : Nat) (dirgroup : Nat → Nat) (ist i : Nat) :
    firstStart (num2 + 1) (Function.update dirgroup num2 ist) i = firstStart num2 dirgroup ist := by
  unfold firstStart
  by_cases hk : num2 = 0
  · subst hk
    simp
  · rw [if_neg (by omega), if_neg hk, Function.update_noteq (Ne.symm hk)]

theorem AggRun.next {src : Path F} {xbase ybase : F} {dir : Nat → Int} {num1 i : Nat}
    {s : AggState F} {ist : Nat} (h : AggRun src xbase ybase dir num1 i s ist)
    (hch : dir (i % num1) ≠ s.dirprev) (hi : i < num1) :
    AggRun src xbase ybase dir num1 (i + 1)
      { istart := some i, num2 := s.num2 + 1, dirprev := dir i,
        dest := storeC s.dirprev (storeC s.dirprev s.dest s.num2
            (groupC src xbase ybase num1 s.dirprev ist i)) (s.num2 + 1)
            (groupC src xbase ybase num1 s.dirprev ist i),
        dirgroup := Function.update s.dirgroup s.num2 ist } i := by
  have hmod : i % num1 = i := Nat.mod_eq_of_lt hi
  have hlt := h.lt_i
  have hcount := h.count
  have hl := h.lt_num1
  rw [hmod, h.dirprev_eq] at hch
  have hdg : ∀ g, g < s.num2 → Function.update s.dirgroup s.num2 ist g = s.dirgroup g :=
    fun g hg => Function.update_noteq (Nat.ne_of_lt hg) _ _
  have hdgk : Function.update s.dirgroup s.num2 ist s.num2 = ist := Function.update_same _ _ _
  refine
    { lt_i := Nat.lt_succ_self i, lt_num1 := hi, dirprev_eq := rfl, run := ?_,
      count := ?_, below := ?_, sorted := ?_, same := ?_, alt := ?_, before := ?_,
      first_ne := ?_, bound := ?_, slots := ?_ }
  · intro j hj1 hj2
    have : j = i := by omega
    rw [this, hmod]
  · show s.num2 + 1 ≤ i
    omega
  · intro g hg
    dsimp only at hg ⊢
    rcases Nat.lt_succ_iff_lt_or_eq.mp hg with hg | rfl
    · rw [hdg g hg]; exact lt_trans (h.below g hg) hlt
    · rw [hdgk]; exact hlt
  · intro g hg
    dsimp only at hg ⊢
    rcases Nat.lt_succ_iff_lt_or_eq.mp hg with hg | rfl
    · rw [hdg g hg, nxtRun_update_lt _ _ _ _ _ hg]; exact h.sorted g hg
    · rw [hdgk, nxtRun_update_self]; exact hlt
  · intro g hg e he1 he2
    dsimp only at hg he1 he2 ⊢
    rcases Nat.lt_succ_iff_lt_or_eq.mp hg with hg | rfl
    · rw [hdg g hg] at he1 ⊢
      rw [nxtRun_update_lt _ _ _ _ _ hg] at he2
      exact h.same g hg e he1 he2
    · rw [hdgk] at he1 ⊢
      rw [nxtRun_update_self] at he2
      have := h.run e he1 he2
      rwa [Nat.mod_eq_of_lt (by omega)] at this
  · intro g hg
    dsimp only at hg ⊢
    rcases Nat.lt_succ_iff_lt_or_eq.mp hg with hg | rfl
    · rw [hdg g hg, nxtRun_update_lt _ _ _ _ _ hg]; exact h.alt g hg
    · rw [hdgk, nxtRun_update_self]; exact hch
  · intro e he
    dsimp only at he
    rw [firstStart_update] at he
    exact h.before e he
  · dsimp only
    rw [firstStart_update]; exact h.first_ne
  · dsimp only
    rw [firstStart_update]
    omega
  · intro hbin g hg
    dsimp only at hg ⊢
    rcases Nat.lt_succ_iff_lt_or_eq.mp hg with hg | rfl
    · rw [hdg g hg, nxtRun_update_lt _ _ _ _ _ hg]
      obtain ⟨h1, h2⟩ := h.slots hbin g hg
      refine ⟨?_, ?_⟩
      · rw [← h1]
        simp only [slotAt_storeC]
        rw [if_neg (by omega), if_neg (by omega)]
      · rw [← h2]
        simp only [slotAt_storeC]
        rw [if_neg (by omega)]
        by_cases hgk : g + 1 = s.num2
        · have ha := h.alt g hg
          have hn : nxtRun s.num2 s.dirgroup ist g = ist := by simp [nxtRun, hgk]
          rw [hn] at ha
          have hb := h.below g hg
          have := flag_iff_of_ne (hbin _ (by omega)) (hbin _ hl) ha.symm
          rw [if_neg]
          rw [h.dirprev_eq]
          tauto
        · rw [if_neg (by omega)]
    · rw [hdgk, nxtRun_update_self, h.dirprev_eq]
      simp [slotAt_storeC]

theorem nxtFin_update_lt (num1 num2 : Nat) (dirgroup : Nat → Nat) (ist g : Nat) (hg : g < num2) :
    nxtFin num1 (Function.update dirgroup num2 ist) (num2 + 1) g = nxtRun num2 dirgroup ist g := by
  unfold nxtFin nxtRun
  by_cases h1 : g + 1 < num2
  · rw [if_pos h1, if_pos (Nat.lt_succ_of_lt h1), Function.update_noteq (Nat.ne_of_lt h1)]
  · have h2 : g + 1 = num2 := by omega
    rw [if_neg h1, if_pos (by omega), h2, Function.update_same]

theorem nxtFin_update_self (num1 num2 : Nat) (dirgroup : Nat → Nat) (ist : Nat)
    (hk : 0 < num2) :
    nxtFin num1 (Function.update dirgroup num2 ist) (num2 + 1) num2 = dirgroup 0 + num1 := by
  unfold nxtFin
  rw [if_neg (lt_irrefl _), Function.update_noteq (by omega)]

theorem AggRun.finish {src : Path F} {xbase ybase : F} {dir : Nat → Int} {num1 i : Nat}
    {s : AggState F} {ist : Nat} (h : AggRun src xbase ybase dir num1 i s ist)
    (hch : dir (i % num1) ≠ s.dirprev) (hi : num1 ≤ i) :
    AggPost src xbase ybase dir num1
      { istart := some ist, num2 := s.num2 + 1, dirprev := s.dirprev,
        dest := storeC s.dirprev (storeC s.dirprev (storeC s.dirprev s.dest s.num2
            (groupC src xbase ybase num1 s.dirprev ist i)) (s.num2 + 1)
            (groupC src xbase ybase num1 s.dirprev ist i)) 0
            (groupC src xbase ybase num1 s.dirprev ist i),
        dirgroup := Function.update s.dirgroup s.num2 ist } := by
  have hlt := h.lt_i
  have hcount := h.count
  have hl := h.lt_num1
  have hlast := h.dir_last hi
  rw [h.dirprev_eq] at hch
  have hk : 0 < s.num2 := by
    by_contra hcon
    have h0 : s.num2 = 0 := by omega
    have := h.first_ne
    simp only [firstStart, h0, if_true] at this
    exact this hlast
  have hfirst : firstStart s.num2 s.dirgroup ist = s.dirgroup 0 := by
    simp [firstStart, Nat.ne_of_gt hk]
  have hb0 := h.below 0 hk
  have hne0 : dir (s.dirgroup 0) ≠ dir ist := by
    have := h.first_ne
    rwa [hfirst, ← hlast] at this
  have hieq : i = s.dirgroup 0 + num1 := by
    have hb := h.bound
    rw [hfirst] at hb
    refine le_antisymm hb ?_
    by_contra hcon
    have he : i - num1 < firstStart s.num2 s.dirgroup ist := by rw [hfirst]; omega
    have h1 := h.before _ he
    have h2 : i % num1 = i - num1 := by
      conv_lhs => rw [show i = (i - num1) + num1 by omega]
      rw [Nat.add_mod_right, Nat.mod_eq_of_lt (by omega)]
    rw [h2, h1, ← hlast] at hch
    exact hch rfl
  have hdg : ∀ g, g < s.num2 → Function.update s.dirgroup s.num2 ist g = s.dirgroup g :=
    fun g hg => Function.update_noteq (Nat.ne_of_lt hg) _ _
  have hdgk : Function.update s.dirgroup s.num2 ist s.num2 = ist := Function.update_same _ _ _
  refine
    { two_le := ?_, le := ?_, lt_num1 := ?_, sorted := ?_, same := ?_, alt := ?_, slots := ?_ }
  · show 2 ≤ s.num2 + 1
    omega
  · show s.num2 + 1 ≤ num1
    omega
  · intro g hg
    dsimp only at hg ⊢
    rcases Nat.lt_succ_iff_lt_or_eq.mp hg with hg | rfl
    · rw [hdg g hg]; exact lt_trans (h.below g hg) hl
    · rw [hdgk]; exact hl
  · intro g hg
    dsimp only at hg ⊢
    have hg1 : g < s.num2 := by omega
    have := h.sorted g hg1
    rw [hdg g hg1]
    unfold nxtRun at this
    by_cases h1 : g + 1 < s.num2
    · rw [if_pos h1] at this
      rw [hdg _ h1]; exact this
    · rw [if_neg h1] at this
      have h2 : g + 1 = s.num2 := by omega
      rw [h2, hdgk]; exact this
  · intro g hg j hj1 hj2
    dsimp only at hg hj1 hj2 ⊢
    rcases Nat.lt_succ_iff_lt_or_eq.mp hg with hg | rfl
    · rw [hdg g hg] at hj1 ⊢
      rw [nxtFin_update_lt _ _ _ _ _ hg] at hj2
      have := h.nxt_le g
      rw [Nat.mod_eq_of_lt (by omega)]
      exact h.same g hg j hj1 hj2
    · rw [hdgk] at hj1 ⊢
      rw [nxtFin_update_self _ _ _ _ hk, ← hieq] at hj2
      exact h.run j hj1 hj2
  · intro g hg
    dsimp only at hg ⊢
    rcases Nat.lt_succ_iff_lt_or_eq.mp hg with hg | rfl
    · rw [hdg g hg, nxtFin_update_lt _ _ _ _ _ hg]
      have := h.nxt_le g
      rw [Nat.mod_eq_of_lt (by omega)]
      exact h.alt g hg
    · rw [hdgk, nxtFin_update_self _ _ _ _ hk, ← hieq]
      exact hch
  · intro hbin g hg
    dsimp only at hg ⊢
    rcases Nat.lt_succ_iff_lt_or_eq.mp hg with hg | rfl
    · rw [hdg g hg, nxtFin_update_lt _ _ _ _ _ hg, if_pos (by omega)]
      obtain ⟨h1, h2⟩ := h.slots hbin g hg
      have hbg := h.below g hg
      refine ⟨?_, ?_⟩
      · rw [← h1]
        simp only [slotAt_storeC]
        rw [if_neg, if_neg (by omega), if_neg (by omega)]
        rintro ⟨hiff, rfl⟩
        have := flag_iff_of_ne (hbin _ (by omega)) (hbin _ hl) hne0
        rw [h.dirprev_eq] at hiff
        exact this hiff
      · rw [← h2]
        simp only [slotAt_storeC]
        rw [if_neg (by omega), if_neg (by omega)]
        by_cases hgk : g + 1 = s.num2
        · have ha := h.alt g hg
          have hn : nxtRun s.num2 s.dirgroup ist g = ist := by simp [nxtRun, hgk]
          rw [hn] at ha
          have := flag_iff_of_ne (hbin _ (by omega)) (hbin _ hl) ha.symm
          rw [if_neg]
          rw [h.dirprev_eq]
          tauto
        · rw [if_neg (by omega)]
    · rw [hdgk, nxtFin_update_self _ _ _ _ hk, ← hieq, h.dirprev_eq, if_neg (lt_irrefl _)]
      refine ⟨?_, ?_⟩
      · rw [slotAt_storeC, if_neg (by omega), slotAt_storeC, if_neg (by omega), slotAt_storeC,
          if_pos ⟨Iff.rfl, rfl⟩]
      · rw [slotAt_storeC, if_pos ⟨Iff.rfl, rfl⟩]

/-- Induction over the aggregation loop. -/
theorem aggLoop_induct (src : Path F) (xbase ybase : F) (dir : Nat → Int) (num1 : Nat)
    (P : Nat → AggState F → Prop) (Q : AggState F → Prop)
    (hstep : ∀ i s, P i s → (aggBody src xbase ybase dir num1 i s).2 = false →
      P (i + 1) (aggBody src xbase ybase dir num1 i s).1)
    (hbrk : ∀ i s, P i s → (aggBody src xbase ybase dir num1 i s).2 = true →
      Q (aggBody src xbase ybase dir num1 i s).1)
    (N : Nat) (hend : ∀ s, P N s → Q s) :
    ∀ n i s, i + n = N → P i s → Q (aggLoop src xbase ybase dir num1 n i s) := by
  intro n
  induction n with
  | zero =>
    intro i s hi hP
    rw [Nat.add_zero] at hi
    subst hi
    exact hend s hP
  | succ n ih =>
    intro i s hi hP
    unfold aggLoop
    by_cases hb : (aggBody src xbase ybase dir num1 i s).2 = true
    · rw [if_pos hb]
      exact hbrk i s hP hb
    · rw [if_neg hb]
      exact ih (i + 1) _ (by omega) (hstep i s hP (by simpa using hb))

/-- Result of the aggregation: either all vectors have the same flag and no
group is made, or the groups are the maximal runs of vectors with equal
flags. -/
theorem aggregate_spec (src : Path F) (xbase ybase : F) (dir : Nat → Int)
    (dest : Path F) (dirgroup : Nat → Nat) (hnum : 2 ≤ src.num) :
    ((aggregate src xbase ybase dir dest dirgroup).num2 = 0 ∧
      (aggregate src xbase ybase dir dest dirgroup).dest = dest ∧
      (aggregate src xbase ybase dir dest dirgroup).dirgroup = dirgroup ∧
      ∀ e, e < src.num - 1 → dir e = dir (src.num - 1 - 1)) ∨
    AggPost src xbase ybase dir (src.num - 1) (aggregate src xbase ybase dir dest dirgroup) := by
  have hnum1 : 0 < src.num - 1 := by omega
  unfold aggregate
  refine aggLoop_induct src xbase ybase dir (src.num - 1)
    (AggInv src xbase ybase dir (src.num - 1) dest dirgroup)
    (fun s => (s.num2 = 0 ∧ s.dest = dest ∧ s.dirgroup = dirgroup ∧
      ∀ e, e < src.num - 1 → dir e = dir (src.num - 1 - 1)) ∨
      AggPost src xbase ybase dir (src.num - 1) s) ?_ ?_ (src.num * 2) ?_
    (src.num * 2) 0 _ (by omega) ?_
  · intro i s hP hb
    by_cases hch : dir (i % (src.num - 1)) = s.dirprev
    · rw [aggBody_same _ _ _ _ _ _ _ hch]
      exact hP.keep hch
    · cases hs : s.istart with
      | none =>
        rw [aggBody_none _ _ _ _ _ _ _ hch hs]
        exact hP.start hnum1 hch hs
      | some ist =>
        by_cases hi : i < src.num - 1
        · rw [aggBody_next _ _ _ _ _ _ _ ist hch hs hi]
          have hR : AggRun src xbase ybase dir (src.num - 1) i s ist := by
            unfold AggInv at hP; rw [hs] at hP; exact hP
          have := hR.next hch hi
          unfold AggInv
          exact this
        · rw [aggBody_break _ _ _ _ _ _ _ ist hch hs (by omega)] at hb
          simp at hb
  · intro i s hP hb
    by_cases hch : dir (i % (src.num - 1)) = s.dirprev
    · rw [aggBody_same _ _ _ _ _ _ _ hch] at hb
      simp at hb
    · cases hs : s.istart with
      | none =>
        rw [aggBody_none _ _ _ _ _ _ _ hch hs] at hb
        simp at hb
      | some ist =>
        by_cases hi : i < src.num - 1
        · rw [aggBody_next _ _ _ _ _ _ _ ist hch hs hi] at hb
          simp at hb
        · rw [aggBody_break _ _ _ _ _ _ _ ist hch hs (by omega)]
          have hR : AggRun src xbase ybase dir (src.num - 1) i s ist := by
            unfold AggInv at hP; rw [hs] at hP; exact hP
          exact Or.inr (hR.finish hch (by omega))
  · intro s hP
    unfold AggInv at hP
    cases hs : s.istart with
    | none =>
      rw [hs] at hP
      obtain ⟨h1, h2, h3, h4, h5⟩ := hP
      refine Or.inl ⟨h1, h4, h5, ?_⟩
      intro e he
      have := h3 e (by omega)
      rwa [Nat.mod_eq_of_lt he] at this
    | some ist =>
      rw [hs] at hP
      have h1 := hP.bound
      have h2 := hP.first_le
      have h3 := hP.lt_num1
      omega
  · unfold AggInv
    exact ⟨rfl, rfl, fun j hj => absurd hj (Nat.not_lt_zero j), rfl, rfl⟩

/-- The starts of the groups lie among the vectors of the source. -/
theorem aggregate_dirgroup_lt (src : Path F) (xbase ybase : F) (dir : Nat → Int)
    (dest : Path F) (dirgroup : Nat → Nat) (hnum : 2 ≤ src.num) (g : Nat)
    (hg : g < (aggregate src xbase ybase dir dest dirgroup).num2) :
    (aggregate src xbase ybase dir dest dirgroup).dirgroup g < src.num - 1 := by
  rcases aggregate_spec src xbase ybase dir dest dirgroup hnum with h | h
  · omega
  · exact h.lt_num1 g hg

/-- When the flags are not all equal the aggregation leaves the loop by
`break`. -/
theorem aggregate_post (src : Path F) (xbase ybase : F) (dir : Nat → Int)
    (dest : Path F) (dirgroup : Nat → Nat) (hnum : 2 ≤ src.num)
    (hvar : ∃ e1 e2, e1 < src.num - 1 ∧ e2 < src.num - 1 ∧ dir e1 ≠ dir e2) :
    AggPost src xbase ybase dir (src.num - 1) (aggregate src xbase ybase dir dest dirgroup) := by
  rcases aggregate_spec src xbase ybase dir dest dirgroup hnum with ⟨-, -, -, hc⟩ | hp
  · obtain ⟨e1, e2, h1, h2, hne⟩ := hvar
    exact absurd (by rw [hc e1 h1, hc e2 h2]) hne
  · exact hp

/-! ## The groups -/

theorem AggPost.mono {src : Path F} {xbase ybase : F} {dir : Nat → Int} {num1 : Nat}
    {s : AggState F} (hp : AggPost src xbase ybase dir num1 s) :
    ∀ g2 g1, g1 < g2 → g2 < s.num2 → s.dirgroup g1 < s.dirgroup g2 := by
  intro g2
  induction g2 with
  | zero => intro g1 h; omega
  | succ n ih =>
    intro g1 h1 h2
    have hs := hp.sorted n h2
    rcases Nat.lt_succ_iff_lt_or_eq.mp h1 with h | rfl
    · exact lt_trans (ih g1 h (by omega)) hs
    · exact hs

theorem AggPost.inGroup_dir {src : Path F} {xbase ybase : F} {dir : Nat → Int} {num1 : Nat}
    {s : AggState F} (hp : AggPost src xbase ybase dir num1 s) (g e : Nat) (hg : g < s.num2)
    (he : e < num1) (hin : InGroup s.dirgroup s.num2 g e) : dir e = dir (s.dirgroup g) := by
  unfold InGroup at hin
  by_cases h1 : g + 1 < s.num2
  · rw [if_pos h1] at hin
    have := hp.same g hg e hin.1 (by unfold nxtFin; rw [if_pos h1]; exact hin.2)
    rwa [Nat.mod_eq_of_lt he] at this
  · rw [if_neg h1] at hin
    have hlt := hp.lt_num1 g hg
    rcases hin with hin | hin
    · have := hp.same g hg e hin (by unfold nxtFin; rw [if_neg h1]; omega)
      rwa [Nat.mod_eq_of_lt he] at this
    · have := hp.same g hg (e + num1) (by omega) (by unfold nxtFin; rw [if_neg h1]; omega)
      rwa [Nat.add_mod_right, Nat.mod_eq_of_lt he] at this

/-- The flag changes at the end of a group: the next group (the first one
after the last) has another flag. -/
theorem AggPost.next_ne {src : Path F} {xbase ybase : F} {dir : Nat → Int} {num1 : Nat}
    {s : AggState F} (hp : AggPost src xbase ybase dir num1 s) (g : Nat) (hg : g < s.num2) :
    dir (s.dirgroup (if g + 1 < s.num2 then g + 1 else 0)) ≠ dir (s.dirgroup g) := by
  have := hp.alt g hg
  unfold nxtFin at this
  by_cases h1 : g + 1 < s.num2
  · rw [if_pos h1] at this ⊢
    rwa [Nat.mod_eq_of_lt (hp.lt_num1 _ h1)] at this
  · rw [if_neg h1] at this ⊢
    have h0 := hp.lt_num1 0 (by have := hp.two_le; omega)
    rwa [Nat.add_mod_right, Nat.mod_eq_of_lt h0] at this

/-- The flag changes at the start of a group. -/
theorem AggPost.start_ne {src : Path F} {xbase ybase : F} {dir : Nat → Int} {num1 : Nat}
    {s : AggState F} (hp : AggPost src xbase ybase dir num1 s) (g : Nat) (hg : g < s.num2) :
    dir (cpred num1 (s.dirgroup g)) ≠ dir (s.dirgroup g) := by
  have h2 := hp.two_le
  have hle := hp.le
  rcases Nat.eq_zero_or_pos g with rfl | hpos
  · -- the vector before the first group is in the last group
    have hlast : s.num2 - 1 < s.num2 := by omega
    have hn := hp.next_ne (s.num2 - 1) hlast
    rw [if_neg (by omega)] at hn
    have h0 := hp.lt_num1 0 hg
    have hl := hp.lt_num1 _ hlast
    have hin : InGroup s.dirgroup s.num2 (s.num2 - 1) (cpred num1 (s.dirgroup 0)) := by
      unfold InGroup cpred
      rw [if_neg (by omega)]
      by_cases hz : s.dirgroup 0 = 0
      · rw [if_pos hz]; left; omega
      · rw [if_neg hz]; right; omega
    have hc : cpred num1 (s.dirgroup 0) < num1 := by
      unfold cpred; split <;> omega
    rw [hp.inGroup_dir _ _ hlast hc hin]
    exact hn.symm
  · have hprev : g - 1 < s.num2 := by omega
    have hn := hp.next_ne (g - 1) hprev
    have hg1 : g - 1 + 1 = g := by omega
    rw [hg1, if_pos hg] at hn
    have hm := hp.mono g (g - 1) (by omega) hg
    have hlt := hp.lt_num1 g hg
    have hin : InGroup s.dirgroup s.num2 (g - 1) (cpred num1 (s.dirgroup g)) := by
      unfold InGroup cpred
      rw [hg1, if_pos hg, if_neg (by omega)]
      omega
    have hc : cpred num1 (s.dirgroup g) < num1 := by
      unfold cpred; split <;> omega
    rw [hp.inGroup_dir _ _ hprev hc hin]
    exact hn.symm

theorem AggPost.exists_group {src : Path F} {xbase ybase : F} {dir : Nat → Int} {num1 : Nat}
    {s : AggState F} (hp : AggPost src xbase ybase dir num1 s) (e : Nat) :
    ∃ g, g < s.num2 ∧ InGroup s.dirgroup s.num2 g e := by
  have h2 := hp.two_le
  by_cases h0 : e < s.dirgroup 0
  · refine ⟨s.num2 - 1, by omega, ?_⟩
    unfold InGroup
    rw [if_neg (by omega)]
    exact Or.inr h0
  · have key : ∀ n g, g + n + 1 = s.num2 → s.dirgroup g ≤ e →
        ∃ g2, g2 < s.num2 ∧ InGroup s.dirgroup s.num2 g2 e := by
      intro n
      induction n with
      | zero =>
        intro g hg hle
        refine ⟨g, by omega, ?_⟩
        unfold InGroup
        rw [if_neg (by omega)]
        exact Or.inl hle
      | succ n ih =>
        intro g hg hle
        by_cases hlt : e < s.dirgroup (g + 1)
        · refine ⟨g, by omega, ?_⟩
          unfold InGroup
          rw [if_pos (by omega)]
          exact ⟨hle, hlt⟩
        · exact ih (g + 1) (by omega) (by omega)
    exact key (s.num2 - 1) 0 (by omega) (by omega)

theorem AggPost.group_unique {src : Path F} {xbase ybase : F} {dir : Nat → Int} {num1 : Nat}
    {s : AggState F} (hp : AggPost src xbase ybase dir num1 s) (e g1 g2 : Nat)
    (h1 : g1 < s.num2) (h2 : g2 < s.num2) (hin1 : InGroup s.dirgroup s.num2 g1 e)
    (hin2 : InGroup s.dirgroup s.num2 g2 e) : g1 = g2 := by
  have key : ∀ a b, a < b → b < s.num2 → InGroup s.dirgroup s.num2 a e →
      InGroup s.dirgroup s.num2 b e → False := by
    intro a b hab hb ha hbin
    unfold InGroup at ha hbin
    rw [if_pos (by omega)] at ha
    have hm1 : s.dirgroup (a + 1) ≤ s.dirgroup b := by
      rcases Nat.lt_or_ge (a + 1) b with h | h
      · exact (hp.mono b (a + 1) h hb).le
      · have : a + 1 = b := by omega
        rw [this]
    have hm0 : s.dirgroup 0 ≤ s.dirgroup a := by
      rcases Nat.eq_zero_or_pos a with rfl | h
      · exact le_rfl
      · exact (hp.mono a 0 h (by omega)).le
    by_cases hb1 : b + 1 < s.num2
    · rw [if_pos hb1] at hbin
      omega
    · rw [if_neg hb1] at hbin
      omega
  rcases Nat.lt_trichotomy g1 g2 with h | h | h
  · exact absurd (key g1 g2 h h2 hin1 hin2) id
  · exact h
  · exact absurd (key g2 g1 h h1 hin2 hin1) id

/-- A vector at which the flag changes is the start of a group. -/
theorem AggPost.start_is_dirgroup {src : Path F} {xbase ybase : F} {dir : Nat → Int}
    {num1 : Nat} {s : AggState F} (hp : AggPost src xbase ybase dir num1 s) (e : Nat)
    (he : e < num1) (hs : dir e ≠ dir (cpred num1 e)) :
    ∃ g, g < s.num2 ∧ s.dirgroup g = e := by
  obtain ⟨g, hg, hin⟩ := hp.exists_group e
  refine ⟨g, hg, ?_⟩
  by_contra hne
  apply hs
  have hc : cpred num1 e < num1 := by
    unfold cpred; split <;> omega
  have hl := hp.lt_num1 g hg
  have hin2 : InGroup s.dirgroup s.num2 g (cpred num1 e) := by
    unfold InGroup cpred at *
    by_cases h1 : g + 1 < s.num2
    · rw [if_pos h1] at hin ⊢
      rw [if_neg (by omega)]
      omega
    · rw [if_neg h1] at hin ⊢
      by_cases hz : e = 0
      · rw [if_pos hz]; left; omega
      · rw [if_neg hz]
        rcases hin with hin | hin
        · left; omega
        · right; omega
  rw [hp.inGroup_dir g e hg he hin, hp.inGroup_dir g _ hg hc hin2]

theorem cpred_lt (num1 e : Nat) (h : 0 < num1) (he : e < num1) : cpred num1 e < num1 := by
  unfold cpred
  split <;> omega

theorem mem_groupStarts (dir : Nat → Int) (num1 e : Nat) :
    e ∈ groupStarts dir num1 ↔ e < num1 ∧ dir e ≠ dir (cpred num1 e) := by
  unfold groupStarts isStart
  rw [List.mem_filter, List.mem_range, decide_eq_true_eq]

theorem groupStarts_sorted (dir : Nat → Int) (num1 : Nat) :
    List.Sorted (fun a b => a < b) (groupStarts dir num1) := by
  unfold groupStarts
  exact List.Pairwise.filter _ (List.pairwise_lt_range num1)

theorem groupStarts_nodup (dir : Nat → Int) (num1 : Nat) : (groupStarts dir num1).Nodup :=
  (groupStarts_sorted dir num1).nodup

/-- The starts recorded in `dirgroup` are the vectors at which the flag
changes, in increasing order. -/
theorem AggPost.starts_eq {src : Path F} {xbase ybase : F} {dir : Nat → Int} {num1 : Nat}
    {s : AggState F} (hp : AggPost src xbase ybase dir num1 s) :
    (List.range s.num2).map s.dirgroup = groupStarts dir num1 := by
  have hs1 : List.Sorted (fun a b => a < b) ((List.range s.num2).map s.dirgroup) := by
    unfold List.Sorted
    rw [List.pairwise_map]
    refine List.Pairwise.imp_of_mem ?_ (List.pairwise_lt_range s.num2)
    intro a b ha hb hab
    exact hp.mono b a hab (List.mem_range.mp hb)
  have hs2 := groupStarts_sorted dir num1
  apply List.eq_of_perm_of_sorted _ hs1 hs2
  rw [List.perm_ext_iff_of_nodup hs1.nodup hs2.nodup]
  intro e
  rw [mem_groupStarts, List.mem_map]
  constructor
  · rintro ⟨g, hg, rfl⟩
    rw [List.mem_range] at hg
    exact ⟨hp.lt_num1 g hg, (hp.start_ne g hg).symm⟩
  · rintro ⟨he, hs⟩
    obtain ⟨g, hg, hge⟩ := hp.start_is_dirgroup e he hs
    exact ⟨g, List.mem_range.mpr hg, hge⟩

theorem groupStarts_const (dir : Nat → Int) (num1 : Nat)
    (h : ∀ e, e < num1 → dir e = dir (num1 - 1)) : groupStarts dir num1 = [] := by
  rw [List.eq_nil_iff_forall_not_mem]
  intro e he
  rw [mem_groupStarts] at he
  apply he.2
  have hc : cpred num1 e < num1 := by
    unfold cpred; split <;> omega
  rw [h e he.1, h _ hc]

/-- The aggregation records the vectors at which the flag changes. -/
theorem aggregate_starts (src : Path F) (xbase ybase : F) (dir : Nat → Int)
    (dest : Path F) (dirgroup : Nat → Nat) (hnum : 2 ≤ src.num) :
    (List.range (aggregate src xbase ybase dir dest dirgroup).num2).map
        (aggregate src xbase ybase dir dest dirgroup).dirgroup =
      groupStarts dir (src.num - 1) := by
  rcases aggregate_spec src xbase ybase dir dest dirgroup hnum with ⟨h0, -, -, hc⟩ | hp
  · rw [h0, groupStarts_const dir _ hc]
    rfl
  · exact hp.starts_eq

/-- The number of groups is the number of changes of the flag round the
path. -/
theorem aggregate_num2 (src : Path F) (xbase ybase : F) (dir : Nat → Int)
    (dest : Path F) (dirgroup : Nat → Nat) (hnum : 2 ≤ src.num) :
    (aggregate src xbase ybase dir dest dirgroup).num2 = groupCount dir (src.num - 1) := by
  unfold groupCount
  rw [← aggregate_starts src xbase ybase dir dest dirgroup hnum, List.length_map,
    List.length_range]

theorem aggregate_dirgroup (src : Path F) (xbase ybase : F) (dir : Nat → Int)
    (dest : Path F) (dirgroup : Nat → Nat) (hnum : 2 ≤ src.num) (g : Nat)
    (hg : g < (aggregate src xbase ybase dir dest dirgroup).num2) :
    (aggregate src xbase ybase dir dest dirgroup).dirgroup g =
      (groupStarts dir (src.num - 1)).getD g 0 := by
  rw [← aggregate_starts src xbase ybase dir dest dirgroup hnum]
  rw [List.getD_eq_getElem _ _ (by rw [List.length_map, List.length_range]; exact hg)]
  simp

theorem aggregate_num2_le (src : Path F) (xbase ybase : F) (dir : Nat → Int)
    (dest : Path F) (dirgroup : Nat → Nat) (hnum : 2 ≤ src.num) :
    (aggregate src xbase ybase dir dest dirgroup).num2 + 1 ≤ src.num := by
  rcases aggregate_spec src xbase ybase dir dest dirgroup hnum with ⟨h0, -, -, -⟩ | hp
  · omega
  · have := hp.le
    omega

/-- The starts of the groups depend on the flags of the vectors only. -/
theorem groupStarts_congr (dir1 dir2 : Nat → Int) (num1 : Nat)
    (h : ∀ e, e < num1 → dir1 e = dir2 e) : groupStarts dir1 num1 = groupStarts dir2 num1 := by
  unfold groupStarts
  apply List.filter_congr
  intro e he
  rw [List.mem_range] at he
  unfold isStart
  rw [h e he, h _ (cpred_lt num1 e (by omega) he)]

theorem groupCount_congr (dir1 dir2 : Nat → Int) (num1 : Nat)
    (h : ∀ e, e < num1 → dir1 e = dir2 e) : groupCount dir1 num1 = groupCount dir2 num1 := by
  unfold groupCount
  rw [groupStarts_congr dir1 dir2 num1 h]

theorem length_filter_ne_two (l : List Nat) (a b : Nat) (hl : l.Nodup) (ha : a ∈ l) (hb : b ∈ l)
    (hab : a ≠ b) : (l.filter (fun e => e != a && e != b)).length + 2 = l.length := by
  have h1 : l.filter (fun e => e != a && e != b) = (l.erase b).erase a := by
    rw [(hl.erase b).erase_eq_filter a, hl.erase_eq_filter b, List.filter_filter]
  have h2 : a ∈ l.erase b := (List.mem_erase_of_ne hab).mpr ha
  have h3 := List.length_erase_of_mem h2
  have h4 := List.length_erase_of_mem hb
  have h5 : 0 < (l.erase b).length := List.length_pos_of_mem h2
  have h6 : 0 < l.length := List.length_pos_of_mem hb
  rw [h1, h3, h4]
  omega

/-- When the vectors of one group, from its start `a` up to the start `b` of
the next group, take the flag of the vector before `a`, the group and its two
neighbours become one group: two groups fewer. -/
theorem groupCount_relabel (dir0 dir1 : Nat → Int) (num1 a b : Nat) (hab : a < b)
    (hb : b < num1) (hbin : BinaryDir dir0 num1)
    (hrun : ∀ e, a ≤ e → e < b → dir0 e = dir0 a)
    (hsa : dir0 (cpred num1 a) ≠ dir0 a) (hsb : dir0 b ≠ dir0 a)
    (h1 : ∀ e, e < num1 →
      dir1 e = if a ≤ e ∧ e < b then dir0 (cpred num1 a) else dir0 e) :
    groupCount dir1 num1 + 2 = groupCount dir0 num1 := by
  have hpos : 0 < num1 := by omega
  have hca := cpred_lt num1 a hpos (by omega)
  have hPb : dir0 b = dir0 (cpred num1 a) := by
    have x1 := hbin b hb
    have x2 := hbin a (by omega)
    have x3 := hbin _ hca
    omega
  have hstart : ∀ e, e < num1 →
      (isStart dir1 num1 e = (isStart dir0 num1 e && (e != a && e != b))) := by
    intro e he
    have hc := cpred_lt num1 e hpos he
    have hce : (e = 0 → cpred num1 e = num1 - 1) ∧ (e ≠ 0 → cpred num1 e = e - 1) := by
      unfold cpred
      constructor
      · intro h; rw [if_pos h]
      · intro h; rw [if_neg h]
    have hcin : (a ≤ cpred num1 e ∧ cpred num1 e < b) ↔ (a < e ∧ e ≤ b) := by
      by_cases h0 : e = 0
      · rw [hce.1 h0]; omega
      · rw [hce.2 h0]; omega
    unfold isStart
    rw [h1 e he, h1 _ hc, Bool.eq_iff_iff]
    simp only [decide_eq_true_eq, Bool.and_eq_true, bne_iff_ne, ne_eq]
    by_cases h2 : a ≤ e ∧ e < b
    · rw [if_pos h2]
      by_cases h3 : a < e ∧ e ≤ b
      · rw [if_pos (hcin.mpr h3)]
        constructor
        · intro h; exact absurd rfl h
        · rintro ⟨h, -, -⟩
          exact absurd (by rw [hrun e h2.1 h2.2, hrun _ (hcin.mpr h3).1 (hcin.mpr h3).2]) h
      · rw [if_neg (fun h => h3 (hcin.mp h))]
        have hea : e = a := by omega
        subst hea
        constructor
        · intro h; exact absurd rfl h
        · rintro ⟨-, h, -⟩; exact absurd rfl h
    · rw [if_neg h2]
      by_cases h3 : a < e ∧ e ≤ b
      · rw [if_pos (hcin.mpr h3)]
        have heb : e = b := by omega
        subst heb
        constructor
        · intro h; exact absurd hPb h
        · rintro ⟨-, -, h⟩; exact absurd rfl h
      · rw [if_neg (fun h => h3 (hcin.mp h))]
        constructor
        · intro h
          exact ⟨h, by omega, by omega⟩
        · rintro ⟨h, -, -⟩
          exact h
  have hfilter : groupStarts dir1 num1 =
      (groupStarts dir0 num1).filter (fun e => e != a && e != b) := by
    unfold groupStarts
    rw [List.filter_filter]
    apply List.filter_congr
    intro e he
    rw [List.mem_range] at he
    rw [hstart e he, Bool.and_comm]
  unfold groupCount
  rw [hfilter]
  apply length_filter_ne_two _ _ _ (groupStarts_nodup dir0 num1)
  · rw [mem_groupStarts]
    exact ⟨by omega, hsa.symm⟩
  · rw [mem_groupStarts]
    refine ⟨hb, ?_⟩
    have hcb : cpred num1 b = b - 1 := by
      unfold cpred; rw [if_neg (by omega)]
    rw [hcb, hrun (b - 1) (by omega) (by omega)]
    exact hsb
  · omega

/-! ## The loops over the vectors and the nodes -/

theorem fillDir_loop (src : Path F) (xbase ybase : F) (dir : Nat → Int) (n e : Nat) :
    (List.range' 1 n).foldl
        (fun d i => Function.update d (i - 1) (edgeDir src xbase ybase i)) dir e =
      if e < n then edgeDir src xbase ybase (e + 1) else dir e := by
  induction n with
  | zero => simp
  | succ n ih =>
    rw [List.range'_concat, List.foldl_append, List.foldl_cons, List.foldl_nil]
    have hidx : 1 + 1 * n - 1 = n := by omega
    have hsucc : 1 + 1 * n = n + 1 := by omega
    rw [hidx, hsucc]
    by_cases h : e = n
    · subst h
      rw [Function.update_same, if_pos (Nat.lt_succ_self e)]
    · rw [Function.update_noteq h, ih]
      by_cases h2 : e < n
      · rw [if_pos h2, if_pos (by omega)]
      · rw [if_neg h2, if_neg (by omega)]

theorem fillDir_apply (src : Path F) (xbase ybase : F) (dir : Nat → Int) (e : Nat) :
    fillDir src xbase ybase dir e =
      if e < src.num - 1 then edgeDir src xbase ybase (e + 1) else dir e :=
  fillDir_loop src xbase ybase dir (src.num - 1) e

theorem fillDir_binary (src : Path F) (xbase ybase : F) (dir : Nat → Int) :
    BinaryDir (fillDir src xbase ybase dir) (src.num - 1) := by
  intro e he
  rw [fillDir_apply, if_pos he]
  unfold edgeDir
  dsimp only
  split
  · exact Or.inl rfl
  · exact Or.inr rfl

theorem fillDir_sameDir (src : Path F) (xbase ybase : F) (dir1 dir2 : Nat → Int) :
    SameDir (fillDir src xbase ybase dir1) (fillDir src xbase ybase dir2) (src.num - 1) := by
  intro e he
  rw [fillDir_apply, fillDir_apply, if_pos he, if_pos he]

theorem rotStep_x (xbase ybase : F) (dest : Path F) (i : Nat) :
    (rotStep xbase ybase dest i).x =
      Function.update dest.x i (xbase * dest.y i + ybase * dest.x i) := rfl

theorem rotStep_y (xbase ybase : F) (dest : Path F) (i : Nat) :
    (rotStep xbase ybase dest i).y =
      Function.update dest.y i (-xbase * dest.x i + ybase * dest.y i) := rfl

theorem rot_loop (xbase ybase : F) (dest : Path F) (n : Nat) :
    ∀ i, ((List.range n).foldl (rotStep xbase ybase) dest).x i =
        (if i < n then xbase * dest.y i + ybase * dest.x i else dest.x i) ∧
      ((List.range n).foldl (rotStep xbase ybase) dest).y i =
        (if i < n then -xbase * dest.x i + ybase * dest.y i else dest.y i) := by
  induction n with
  | zero => simp
  | succ n ih =>
    intro i
    rw [List.range_succ, List.foldl_append, List.foldl_cons, List.foldl_nil]
    obtain ⟨ihx, ihy⟩ := ih i
    obtain ⟨ihnx, ihny⟩ := ih n
    rw [if_neg (lt_irrefl n)] at ihnx ihny
    rw [rotStep_x, rotStep_y]
    by_cases h : i = n
    · subst h
      rw [Function.update_same, Function.update_same, ihnx, ihny, if_pos (Nat.lt_succ_self i),
        if_pos (Nat.lt_succ_self i)]
      exact ⟨rfl, rfl⟩
    · rw [Function.update_noteq h, Function.update_noteq h, ihx, ihy]
      by_cases h2 : i < n
      · rw [if_pos h2, if_pos h2, if_pos (by omega), if_pos (by omega)]
        exact ⟨rfl, rfl⟩
      · rw [if_neg h2, if_neg h2, if_neg (by omega), if_neg (by omega)]
        exact ⟨rfl, rfl⟩

/-- Coordinates of the nodes after lines 326-337. -/
theorem reconstruct_node (xbase ybase : F) (dest : Path F) (num2 i : Nat) (hi : i < num2) :
    (reconstruct xbase ybase dest num2).x i = xbase * dest.y i + ybase * dest.x i ∧
      (reconstruct xbase ybase dest num2).y i = -xbase * dest.x i + ybase * dest.y i := by
  unfold reconstruct
  dsimp only
  rw [Function.update_noteq (by omega), Function.update_noteq (by omega)]
  have := rot_loop xbase ybase dest num2 i
  rw [if_pos hi, if_pos hi] at this
  exact this

/-- The last node repeats the first (lines 335-336). -/
theorem reconstruct_last (xbase ybase : F) (dest : Path F) (num2 : Nat) :
    (reconstruct xbase ybase dest num2).x num2 = (reconstruct xbase ybase dest num2).x 0 ∧
      (reconstruct xbase ybase dest num2).y num2 = (reconstruct xbase ybase dest num2).y 0 := by
  unfold reconstruct
  dsimp only
  by_cases h : num2 = 0
  · rw [h]
    exact ⟨rfl, rfl⟩
  · rw [Function.update_same, Function.update_same, Function.update_noteq (Ne.symm h),
      Function.update_noteq (Ne.symm h)]
    exact ⟨rfl, rfl⟩

/-- After the reconstruction the vector from node `g` to the next node (the
first node after the last group) is along the base vector or perpendicular
to it. -/
theorem reconstruct_rect (src : Path F) (xbase ybase : F) (dir : Nat → Int)
    (s : AggState F) (hd : BinaryDir dir (src.num - 1))
    (hp : AggPost src xbase ybase dir (src.num - 1) s) (g : Nat) (hg : g < s.num2) :
    ((reconstruct xbase ybase s.dest s.num2).x (g + 1) -
          (reconstruct xbase ybase s.dest s.num2).x g) * ybase -
        ((reconstruct xbase ybase s.dest s.num2).y (g + 1) -
          (reconstruct xbase ybase s.dest s.num2).y g) * xbase = 0 ∨
    ((reconstruct xbase ybase s.dest s.num2).x (g + 1) -
          (reconstruct xbase ybase s.dest s.num2).x g) * xbase +
        ((reconstruct xbase ybase s.dest s.num2).y (g + 1) -
          (reconstruct xbase ybase s.dest s.num2).y g) * ybase = 0 := by
  obtain ⟨h1, h2⟩ := hp.slots hd g hg
  have hpos : 0 < s.num2 := by omega
  obtain ⟨hgx, hgy⟩ := reconstruct_node xbase ybase s.dest s.num2 g hg
  have hnext : (reconstruct xbase ybase s.dest s.num2).x (g + 1) =
        xbase * s.dest.y (if g + 1 < s.num2 then g + 1 else 0) +
          ybase * s.dest.x (if g + 1 < s.num2 then g + 1 else 0) ∧
      (reconstruct xbase ybase s.dest s.num2).y (g + 1) =
        -xbase * s.dest.x (if g + 1 < s.num2 then g + 1 else 0) +
          ybase * s.dest.y (if g + 1 < s.num2 then g + 1 else 0) := by
    by_cases hlt : g + 1 < s.num2
    · rw [if_pos hlt]
      exact reconstruct_node xbase ybase s.dest s.num2 (g + 1) hlt
    · rw [if_neg hlt]
      have hgl : g + 1 = s.num2 := by omega
      rw [hgl, (reconstruct_last xbase ybase s.dest s.num2).1,
        (reconstruct_last xbase ybase s.dest s.num2).2]
      exact reconstruct_node xbase ybase s.dest s.num2 0 hpos
  rw [hnext.1, hnext.2, hgx, hgy]
  rw [← h1] at h2
  unfold slotAt at h2
  by_cases hl : dir (s.dirgroup g) = 0
  · rw [if_pos hl, if_pos hl] at h2
    left
    rw [h2]
    ring
  · rw [if_neg hl, if_neg hl] at h2
    right
    rw [h2]
    ring

theorem relabel_apply (dir : Nat → Int) (a b : Nat) (v : Int) (j : Nat) :
    relabel dir a b v j = if a ≤ j ∧ j ≤ b then v else dir j := by
  unfold relabel
  generalize hn : b + 1 - a = n
  induction n generalizing b with
  | zero =>
    rw [List.range'_zero, List.foldl_nil, if_neg (by omega)]
  | succ n ih =>
    rw [List.range'_concat, List.foldl_append, List.foldl_cons, List.foldl_nil]
    have hb : b = a + n := by omega
    have h1 : a + 1 * n = b := by omega
    rw [h1]
    by_cases hj : j = b
    · subst hj
      rw [Function.update_same, if_pos (by omega)]
    · rw [Function.update_noteq hj]
      by_cases hn0 : n = 0
      · subst hn0
        rw [List.range'_zero, List.foldl_nil, if_neg (by omega)]
      · have := ih (b - 1) (by omega)
        rw [this]
        by_cases h2 : a ≤ j ∧ j ≤ b - 1
        · rw [if_pos h2, if_pos (by omega)]
        · rw [if_neg h2, if_neg (by omega)]

theorem relabel_binary (dir : Nat → Int) (num1 a b : Nat) (v : Int) (hd : BinaryDir dir num1)
    (hv : v = 0 ∨ v = 1) : BinaryDir (relabel dir a b v) num1 := by
  intro e he
  rw [relabel_apply]
  split
  · exact hv
  · exact hd e he

/-! ## The collapse loop and the passes -/

theorem collapseStep_flag_pos (src dest : Path F) (dirgroup : Nat → Nat) (clen2 : F)
    (st : (Nat → Int) × Int) (i : Nat) (h : 0 < st.2) :
    0 < (collapseStep src dest dirgroup clen2 st i).2 := by
  unfold collapseStep
  split
  · exact Int.one_pos
  · exact h

theorem collapse_flag_pos (src dest : Path F) (dirgroup : Nat → Nat) (clen2 : F) :
    ∀ (l : List Nat) (st : (Nat → Int) × Int), 0 < st.2 →
      0 < (l.foldl (collapseStep src dest dirgroup clen2) st).2 := by
  intro l
  induction l with
  | nil => intro st h; exact h
  | cons i t ih =>
    intro st h
    rw [List.foldl_cons]
    exact ih _ (collapseStep_flag_pos src dest dirgroup clen2 st i h)

/-- A pass that does not raise the flag has met no short vector and has left
`dir` as it was. -/
theorem collapse_no_flag (src dest : Path F) (dirgroup : Nat → Nat) (clen2 : F) :
    ∀ (l : List Nat) (st : (Nat → Int) × Int),
      ¬ 0 < (l.foldl (collapseStep src dest dirgroup clen2) st).2 →
      (∀ i, i ∈ l → ¬ edgeLen2 dest i < clen2) ∧
        l.foldl (collapseStep src dest dirgroup clen2) st = st := by
  intro l
  induction l with
  | nil => intro st _; exact ⟨fun i hi => absurd hi (List.not_mem_nil i), rfl⟩
  | cons i t ih =>
    intro st h
    rw [List.foldl_cons] at h ⊢
    have hi : ¬ edgeLen2 dest i < clen2 := by
      intro hlt
      apply h
      apply collapse_flag_pos
      unfold collapseStep
      rw [if_pos hlt]
      exact Int.one_pos
    have hst : collapseStep src dest dirgroup clen2 st i = st := by
      unfold collapseStep
      rw [if_neg hi]
    rw [hst] at h ⊢
    obtain ⟨h1, h2⟩ := ih st h
    refine ⟨?_, h2⟩
    intro j hj
    rcases List.mem_cons.mp hj with rfl | hj
    · exact hi
    · exact h1 j hj

theorem collapse_skip (src dest : Path F) (dirgroup : Nat → Nat) (clen2 : F) :
    ∀ (l : List Nat) (st : (Nat → Int) × Int), (∀ i, i ∈ l → ¬ edgeLen2 dest i < clen2) →
      l.foldl (collapseStep src dest dirgroup clen2) st = st := by
  intro l
  induction l with
  | nil => intro st _; rfl
  | cons i t ih =>
    intro st h
    rw [List.foldl_cons]
    have hst : collapseStep src dest dirgroup clen2 st i = st := by
      unfold collapseStep
      rw [if_neg (h i (List.mem_cons_self i t))]
    rw [hst]
    exact ih st (fun j hj => h j (List.mem_cons_of_mem i hj))

/-- A pass that meets exactly one short vector is the body of the loop for
this vector. -/
theorem collapse_single (src dest : Path F) (dirgroup : Nat → Nat) (clen2 : F) (n i : Nat)
    (st : (Nat → Int) × Int) (hi1 : 1 ≤ i) (hi2 : i ≤ n)
    (honly : ∀ j, 1 ≤ j → j ≤ n → edgeLen2 dest j < clen2 → j = i) :
    (List.range' 1 n).foldl (collapseStep src dest dirgroup clen2) st =
      collapseStep src dest dirgroup clen2 st i := by
  have hsplit : List.range' 1 n = List.range' 1 (i - 1) ++ (i :: List.range' (i + 1) (n - i)) := by
    have h1 := List.range'_append 1 (i - 1) (n - i + 1) 1
    have h2 : 1 + 1 * (i - 1) = i := by omega
    have h3 : n - i + 1 + (i - 1) = n := by omega
    rw [h2, h3] at h1
    rw [← h1, List.range'_succ]
  rw [hsplit, List.foldl_append, List.foldl_cons]
  rw [collapse_skip src dest dirgroup clen2 (List.range' 1 (i - 1)) st]
  · apply collapse_skip
    intro j hj hlt
    rw [List.mem_range'_1] at hj
    have := honly j (by omega) (by omega) hlt
    omega
  · intro j hj hlt
    rw [List.mem_range'_1] at hj
    have := honly j (by omega) (by omega) hlt
    omega

theorem collapseStep_binary (src dest : Path F) (dirgroup : Nat → Nat) (clen2 : F)
    (st : (Nat → Int) × Int) (i : Nat) (hnum : 2 ≤ src.num)
    (hd : BinaryDir st.1 (src.num - 1)) (hg : dirgroup (i - 1) < src.num - 1) :
    BinaryDir (collapseStep src dest dirgroup clen2 st i).1 (src.num - 1) := by
  unfold collapseStep
  split
  · dsimp only
    apply relabel_binary _ _ _ _ _ hd
    split
    · exact hd _ (by omega)
    · exact hd _ (by omega)
  · exact hd

theorem collapse_binary (src dest : Path F) (dirgroup : Nat → Nat) (clen2 : F)
    (hnum : 2 ≤ src.num) :
    ∀ (l : List Nat) (st : (Nat → Int) × Int), BinaryDir st.1 (src.num - 1) →
      (∀ i, i ∈ l → dirgroup (i - 1) < src.num - 1) →
      BinaryDir (l.foldl (collapseStep src dest dirgroup clen2) st).1 (src.num - 1) := by
  intro l
  induction l with
  | nil => intro st h _; exact h
  | cons i t ih =>
    intro st h hl
    rw [List.foldl_cons]
    apply ih
    · exact collapseStep_binary src dest dirgroup clen2 st i hnum h
        (hl i (List.mem_cons_self i t))
    · intro j hj
      exact hl j (List.mem_cons_of_mem i hj)

/-- The pass of the collapse block keeps the flags in 0, 1. -/
theorem collapsePass_binary (src : Path F) (xbase ybase collapseLen : F) (dir : Nat → Int)
    (dest : Path F) (dirgroup : Nat → Nat) (hnum : 2 ≤ src.num)
    (hd : BinaryDir dir (src.num - 1)) :
    BinaryDir
      (collapsePass src
        (reconstruct xbase ybase (aggregate src xbase ybase dir dest dirgroup).dest
          (aggregate src xbase ybase dir dest dirgroup).num2)
        (aggregate src xbase ybase dir dest dirgroup).dirgroup collapseLen dir).1
      (src.num - 1) := by
  unfold collapsePass
  apply collapse_binary _ _ _ _ hnum _ _ hd
  intro i hi
  rw [List.mem_range'_1] at hi
  apply aggregate_dirgroup_lt _ _ _ _ _ _ hnum
  have : (reconstruct xbase ybase (aggregate src xbase ybase dir dest dirgroup).dest
          (aggregate src xbase ybase dir dest dirgroup).num2).num =
      (aggregate src xbase ybase dir dest dirgroup).num2 + 1 := rfl
  omega

/-- The pass in which `recalcOrtho` returns: its flags are 0 or 1, it is the
aggregation and the reconstruction for these flags, and with a positive
`collapseLen` it has met no short vector. -/
theorem recalcOrtho_final (src : Path F) (xbase ybase collapseLen : F) (hnum : 2 ≤ src.num) :
    ∀ (fuel : Nat) (dir : Nat → Int) (dirgroup : Nat → Nat) (dest : Path F)
      (st : OrthoState F), BinaryDir dir (src.num - 1) →
      recalcOrtho src xbase ybase collapseLen fuel dir dirgroup dest = some st →
      ∃ dir1 dg1 dest1, BinaryDir dir1 (src.num - 1) ∧ st.dir = dir1 ∧
        st.num2 = (aggregate src xbase ybase dir1 dest1 dg1).num2 ∧
        st.dirgroup = (aggregate src xbase ybase dir1 dest1 dg1).dirgroup ∧
        st.dest = reconstruct xbase ybase (aggregate src xbase ybase dir1 dest1 dg1).dest
          (aggregate src xbase ybase dir1 dest1 dg1).num2 ∧
        (0 < collapseLen → ∀ i, 1 ≤ i → i < st.dest.num → ¬ Undersized st.dest collapseLen i) := by
  intro fuel
  induction fuel with
  | zero =>
    intro dir dirgroup dest st _ h
    simp [recalcOrtho] at h
  | succ fuel ih =>
    intro dir dirgroup dest st hd h
    unfold recalcOrtho at h
    dsimp only at h
    by_cases hc : collapseLen > 0
    · rw [if_pos hc] at h
      split at h
      · exact ih _ _ _ st (collapsePass_binary src xbase ybase collapseLen dir dest dirgroup hnum hd) h
      · rename_i hflag
        injection h with h
        subst h
        unfold collapsePass at hflag
        obtain ⟨h1, h2⟩ := collapse_no_flag _ _ _ _ _ _ hflag
        refine ⟨dir, dirgroup, dest, hd, ?_, rfl, rfl, rfl, ?_⟩
        · show (collapsePass _ _ _ _ _).1 = dir
          unfold collapsePass
          rw [h2]
        · intro _ i hi1 hi2
          apply h1
          rw [List.mem_range'_1]
          dsimp only at hi2
          omega
    · rw [if_neg hc] at h
      injection h with h
      subst h
      exact ⟨dir, dirgroup, dest, hd, rfl, rfl, rfl, rfl, fun h => absurd h hc⟩

/-- The pass with `collapseLen = 0`. -/
theorem recalcOrtho_zero (src : Path F) (xbase ybase : F) (fuel : Nat) (dir : Nat → Int)
    (dirgroup : Nat → Nat) (dest : Path F) :
    recalcOrtho src xbase ybase 0 (fuel + 1) dir dirgroup dest =
      some { dest := reconstruct xbase ybase (aggregate src xbase ybase dir dest dirgroup).dest
                (aggregate src xbase ybase dir dest dirgroup).num2,
             dir := dir,
             dirgroup := (aggregate src xbase ybase dir dest dirgroup).dirgroup,
             num2 := (aggregate src xbase ybase dir dest dirgroup).num2 } := by
  unfold recalcOrtho
  dsimp only
  rw [if_neg (lt_irrefl 0)]

/-- The path that a call allowed a single pass returns. -/
theorem recalcOrtho_one (src : Path F) (xbase ybase collapseLen : F) (dir : Nat → Int)
    (dirgroup : Nat → Nat) (dest : Path F) (st : OrthoState F)
    (h : recalcOrtho src xbase ybase collapseLen 1 dir dirgroup dest = some st) :
    st.dest = reconstruct xbase ybase (aggregate src xbase ybase dir dest dirgroup).dest
      (aggregate src xbase ybase dir dest dirgroup).num2 := by
  unfold recalcOrtho at h
  dsimp only at h
  split at h
  · split at h
    · simp [recalcOrtho] at h
    · injection h with h
      rw [← h]
  · injection h with h
    rw [← h]

/-- A successful call is a call on a closed source with at least 5 nodes
whose passes come to an end. -/
theorem OrthogonalizePath_ok (sqrt : F → F) (fuel : Nat) (mem : Fresh F) (dest src : Path F)
    (collapseLen : F) (d : Path F) :
    OrthogonalizePath sqrt fuel mem dest src collapseLen = some (0, d) ↔
      5 ≤ src.num ∧ (src.x 0 = src.x (src.num - 1) ∧ src.y 0 = src.y (src.num - 1)) ∧
        ∃ st, orthoMain sqrt fuel mem dest src collapseLen = some st ∧ st.dest = d := by
  unfold OrthogonalizePath
  by_cases h1 : src.num < 5
  · rw [if_pos h1]
    constructor
    · intro h
      injection h with h
      injection h with h
      exact absurd h (by decide)
    · intro h
      omega
  · rw [if_neg h1]
    by_cases h2 : src.x 0 ≠ src.x (src.num - 1) ∨ src.y 0 ≠ src.y (src.num - 1)
    · rw [if_pos h2]
      constructor
      · intro h
        injection h with h
        injection h with h
        exact absurd h (by decide)
      · rintro ⟨-, ⟨hx, hy⟩, -⟩
        rcases h2 with h2 | h2
        · exact absurd hx h2
        · exact absurd hy h2
    · rw [if_neg h2]
      have h3 : src.x 0 = src.x (src.num - 1) ∧ src.y 0 = src.y (src.num - 1) := by
        constructor
        · by_contra hc; exact h2 (Or.inl hc)
        · by_contra hc; exact h2 (Or.inr hc)
      constructor
      · intro h
        rcases hm : orthoMain sqrt fuel mem dest src collapseLen with _ | st
        · rw [hm] at h; simp at h
        · rw [hm] at h
          simp only [Option.map_some', Option.some.injEq, Prod.mk.injEq, true_and] at h
          exact ⟨by omega, h3, st, rfl, h⟩
      · rintro ⟨-, -, st, hst, hd⟩
        rw [hst, ← hd]
        rfl

/-- The state in which a successful call ends is the result of a pass over
flags that are 0 or 1. -/
theorem orthoMain_final (sqrt : F → F) (fuel : Nat) (mem : Fresh F) (dest src : Path F)
    (collapseLen : F) (st : OrthoState F) (hnum : 2 ≤ src.num)
    (h : orthoMain sqrt fuel mem dest src collapseLen = some st) :
    ∃ dir1 dg1 dest1, BinaryDir dir1 (src.num - 1) ∧ st.dir = dir1 ∧
      st.num2 = (aggregate src (baseVector sqrt src).1 (baseVector sqrt src).2 dir1 dest1 dg1).num2 ∧
      st.dirgroup =
        (aggregate src (baseVector sqrt src).1 (baseVector sqrt src).2 dir1 dest1 dg1).dirgroup ∧
      st.dest = reconstruct (baseVector sqrt src).1 (baseVector sqrt src).2
        (aggregate src (baseVector sqrt src).1 (baseVector sqrt src).2 dir1 dest1 dg1).dest
        (aggregate src (baseVector sqrt src).1 (baseVector sqrt src).2 dir1 dest1 dg1).num2 ∧
      (0 < collapseLen → ∀ i, 1 ≤ i → i < st.dest.num → ¬ Undersized st.dest collapseLen i) := by
  unfold orthoMain at h
  exact recalcOrtho_final src _ _ collapseLen hnum fuel _ _ _ st
    (fillDir_binary src _ _ mem.dir) h

/-- The path that a successful call returns ends in its first point. -/
theorem result_closed (sqrt : F → F) (fuel : Nat) (mem : Fresh F) (dest src : Path F)
    (collapseLen : F) (d : Path F)
    (h : OrthogonalizePath sqrt fuel mem dest src collapseLen = some (0, d)) :
    d.x 0 = d.x (d.num - 1) ∧ d.y 0 = d.y (d.num - 1) := by
  obtain ⟨hnum, -, st, hst, hd⟩ := (OrthogonalizePath_ok sqrt fuel mem dest src collapseLen d).mp h
  obtain ⟨dir1, dg1, dest1, -, -, -, -, hdest, -⟩ :=
    orthoMain_final sqrt fuel mem dest src collapseLen st (by omega) hst
  rw [← hd, hdest]
  have := reconstruct_last (baseVector sqrt src).1 (baseVector sqrt src).2
    (aggregate src (baseVector sqrt src).1 (baseVector sqrt src).2 dir1 dest1 dg1).dest
    (aggregate src (baseVector sqrt src).1 (baseVector sqrt src).2 dir1 dest1 dg1).num2
  exact ⟨this.1.symm, this.2.symm⟩

/-- The path that the call with `collapseLen = 0` returns is the path of the
first pass. -/
theorem uncollapsed_eq (sqrt : F → F) (fuel : Nat) (mem : Fresh F) (dest src du : Path F)
    (hu : OrthogonalizePath sqrt (fuel + 1) mem dest src 0 = some (0, du)) :
    du = reconstruct (baseVector sqrt src).1 (baseVector sqrt src).2
      (firstAgg sqrt mem dest src).dest (firstAgg sqrt mem dest src).num2 := by
  obtain ⟨-, -, st, hst, hd⟩ := (OrthogonalizePath_ok sqrt (fuel + 1) mem dest src 0 du).mp hu
  unfold orthoMain at hst
  dsimp only at hst
  rw [recalcOrtho_zero] at hst
  injection hst with hst
  rw [← hd, ← hst]
  rfl

/-! ## A pass does not depend on what the arrays held before -/

theorem SameDir.binary {dir1 dir2 : Nat → Int} {num1 : Nat} (h : SameDir dir1 dir2 num1)
    (hb : BinaryDir dir1 num1) : BinaryDir dir2 num1 := by
  intro e he
  rw [← h e he]
  exact hb e he

/-- The two slots of node `g` after the aggregation: the C-parameter of
group `g` and that of the group before it, whose flags differ. -/
theorem AggPost.node_slots {src : Path F} {xbase ybase : F} {dir : Nat → Int} {num1 : Nat}
    {s : AggState F} (hp : AggPost src xbase ybase dir num1 s) (hb : BinaryDir dir num1)
    (g : Nat) (hg : g < s.num2) :
    slotAt (dir (s.dirgroup g)) s.dest g =
        groupC src xbase ybase num1 (dir (s.dirgroup g)) (s.dirgroup g)
          (nxtFin num1 s.dirgroup s.num2 g) ∧
      slotAt (dir (s.dirgroup (prevGroup s.num2 g))) s.dest g =
        groupC src xbase ybase num1 (dir (s.dirgroup (prevGroup s.num2 g)))
          (s.dirgroup (prevGroup s.num2 g)) (nxtFin num1 s.dirgroup s.num2 (prevGroup s.num2 g)) ∧
      ¬ (dir (s.dirgroup g) = 0 ↔ dir (s.dirgroup (prevGroup s.num2 g)) = 0) := by
  have h2 := hp.two_le
  have hpg : prevGroup s.num2 g < s.num2 := by
    unfold prevGroup; split <;> omega
  have hnext : (if prevGroup s.num2 g + 1 < s.num2 then prevGroup s.num2 g + 1 else 0) = g := by
    unfold prevGroup
    by_cases h0 : g = 0
    · rw [if_pos h0, if_neg (by omega), h0]
    · rw [if_neg h0, if_pos (by omega)]
      omega
  refine ⟨(hp.slots hb g hg).1, ?_, ?_⟩
  · have := (hp.slots hb _ hpg).2
    rwa [hnext] at this
  · have := hp.next_ne _ hpg
    rw [hnext] at this
    exact flag_iff_of_ne (hb _ (hp.lt_num1 g hg)) (hb _ (hp.lt_num1 _ hpg)) this

theorem AggPost.cells_congr {src : Path F} {xbase ybase : F} {dir1 dir2 : Nat → Int}
    {num1 : Nat} {s1 s2 : AggState F} (hp1 : AggPost src xbase ybase dir1 num1 s1)
    (hp2 : AggPost src xbase ybase dir2 num1 s2) (hb : BinaryDir dir1 num1)
    (hd : SameDir dir1 dir2 num1) (hn : s1.num2 = s2.num2)
    (hdg : ∀ g, g < s1.num2 → s1.dirgroup g = s2.dirgroup g) (g : Nat) (hg : g < s1.num2) :
    s1.dest.x g = s2.dest.x g ∧ s1.dest.y g = s2.dest.y g := by
  have hg2 : g < s2.num2 := by rw [← hn]; exact hg
  obtain ⟨a1, a2, a3⟩ := hp1.node_slots hb g hg
  obtain ⟨b1, b2, -⟩ := hp2.node_slots (hd.binary hb) g hg2
  have h2 := hp1.two_le
  have hpg : prevGroup s1.num2 g < s1.num2 := by
    unfold prevGroup; split <;> omega
  have hnx : ∀ k, k < s1.num2 →
      nxtFin num1 s2.dirgroup s2.num2 k = nxtFin num1 s1.dirgroup s1.num2 k := by
    intro k hk
    unfold nxtFin
    rw [← hn]
    by_cases hk1 : k + 1 < s1.num2
    · rw [if_pos hk1, if_pos hk1, hdg _ hk1]
    · rw [if_neg hk1, if_neg hk1, hdg 0 (by omega)]
  rw [hnx g hg, ← hdg g hg, ← hd _ (hp1.lt_num1 g hg)] at b1
  have hpn : prevGroup s2.num2 g = prevGroup s1.num2 g := by rw [hn]
  rw [hpn, hnx _ hpg, ← hdg _ hpg, ← hd _ (hp1.lt_num1 _ hpg)] at b2
  rw [← b1] at a1
  rw [← b2] at a2
  unfold slotAt at a1 a2
  by_cases hl : dir1 (s1.dirgroup g) = 0
  · have hl2 : ¬ dir1 (s1.dirgroup (prevGroup s1.num2 g)) = 0 := by tauto
    rw [if_pos hl, if_pos hl] at a1
    rw [if_neg hl2, if_neg hl2] at a2
    exact ⟨a1, a2⟩
  · have hl2 : dir1 (s1.dirgroup (prevGroup s1.num2 g)) = 0 := by tauto
    rw [if_neg hl, if_neg hl] at a1
    rw [if_pos hl2, if_pos hl2] at a2
    exact ⟨a2, a1⟩

/-- The cells of `dest` that the aggregation leaves for the nodes
`0..num2-1` depend on the flags of the vectors only, not on what the arrays
held before. -/
theorem aggregate_congr (src : Path F) (xbase ybase : F) (dir1 dir2 : Nat → Int)
    (dest1 dest2 : Path F) (dg1 dg2 : Nat → Nat) (hnum : 2 ≤ src.num)
    (hb : BinaryDir dir1 (src.num - 1)) (hd : SameDir dir1 dir2 (src.num - 1)) :
    (aggregate src xbase ybase dir1 dest1 dg1).num2 =
        (aggregate src xbase ybase dir2 dest2 dg2).num2 ∧
      ∀ g, g < (aggregate src xbase ybase dir1 dest1 dg1).num2 →
        (aggregate src xbase ybase dir1 dest1 dg1).dirgroup g =
            (aggregate src xbase ybase dir2 dest2 dg2).dirgroup g ∧
          (aggregate src xbase ybase dir1 dest1 dg1).dest.x g =
            (aggregate src xbase ybase dir2 dest2 dg2).dest.x g ∧
          (aggregate src xbase ybase dir1 dest1 dg1).dest.y g =
            (aggregate src xbase ybase dir2 dest2 dg2).dest.y g := by
  have hn : (aggregate src xbase ybase dir1 dest1 dg1).num2 =
      (aggregate src xbase ybase dir2 dest2 dg2).num2 := by
    rw [aggregate_num2 _ _ _ _ _ _ hnum, aggregate_num2 _ _ _ _ _ _ hnum,
      groupCount_congr dir1 dir2 _ hd]
  have hdg : ∀ g, g < (aggregate src xbase ybase dir1 dest1 dg1).num2 →
      (aggregate src xbase ybase dir1 dest1 dg1).dirgroup g =
        (aggregate src xbase ybase dir2 dest2 dg2).dirgroup g := by
    intro g hg
    rw [aggregate_dirgroup _ _ _ _ _ _ hnum g hg,
      aggregate_dirgroup _ _ _ _ _ _ hnum g (by rw [← hn]; exact hg),
      groupStarts_congr dir1 dir2 _ hd]
  refine ⟨hn, ?_⟩
  intro g hg
  refine ⟨hdg g hg, ?_⟩
  rcases aggregate_spec src xbase ybase dir1 dest1 dg1 hnum with ⟨h0, -, -, -⟩ | hp1
  · omega
  rcases aggregate_spec src xbase ybase dir2 dest2 dg2 hnum with ⟨h0, -, -, -⟩ | hp2
  · omega
  exact hp1.cells_congr hp2 hb hd hn hdg g hg

theorem collapseStep_congr (src destA destB : Path F) (dgA dgB : Nat → Nat) (clen2 : F)
    (stA stB : (Nat → Int) × Int) (i : Nat) (hnum : 2 ≤ src.num)
    (hlen : edgeLen2 destA i = edgeLen2 destB i) (hst : dgA (i - 1) = dgB (i - 1))
    (hend : (if i = destA.num - 1 then dgA 0 else dgA i) =
      (if i = destB.num - 1 then dgB 0 else dgB i))
    (hlt : dgA (i - 1) < src.num - 1)
    (hd : SameDir stA.1 stB.1 (src.num - 1)) (hf : stA.2 = stB.2) :
    SameDir (collapseStep src destA dgA clen2 stA i).1 (collapseStep src destB dgB clen2 stB i).1
        (src.num - 1) ∧
      (collapseStep src destA dgA clen2 stA i).2 = (collapseStep src destB dgB clen2 stB i).2 := by
  unfold collapseStep
  rw [hlen]
  by_cases h : edgeLen2 destB i < clen2
  · rw [if_pos h, if_pos h]
    dsimp only
    refine ⟨?_, rfl⟩
    intro e he
    rw [relabel_apply, relabel_apply, hend, hst]
    have hprev : (if dgB (i - 1) = 0 then stA.1 (src.num - 2) else stA.1 (dgB (i - 1) - 1)) =
        (if dgB (i - 1) = 0 then stB.1 (src.num - 2) else stB.1 (dgB (i - 1) - 1)) := by
      rw [hst] at hlt
      split
      · exact hd _ (by omega)
      · exact hd _ (by omega)
    rw [hprev, hd e he]
  · rw [if_neg h, if_neg h]
    exact ⟨hd, hf⟩

theorem collapse_congr (src destA destB : Path F) (dgA dgB : Nat → Nat) (clen2 : F)
    (hnum : 2 ≤ src.num) :
    ∀ (l : List Nat) (stA stB : (Nat → Int) × Int),
      (∀ i, i ∈ l → edgeLen2 destA i = edgeLen2 destB i ∧ dgA (i - 1) = dgB (i - 1) ∧
        (if i = destA.num - 1 then dgA 0 else dgA i) =
          (if i = destB.num - 1 then dgB 0 else dgB i) ∧
        dgA (i - 1) < src.num - 1) →
      SameDir stA.1 stB.1 (src.num - 1) → stA.2 = stB.2 →
      SameDir (l.foldl (collapseStep src destA dgA clen2) stA).1
          (l.foldl (collapseStep src destB dgB clen2) stB).1 (src.num - 1) ∧
        (l.foldl (collapseStep src destA dgA clen2) stA).2 =
          (l.foldl (collapseStep src destB dgB clen2) stB).2 := by
  intro l
  induction l with
  | nil => intro stA stB _ hd hf; exact ⟨hd, hf⟩
  | cons i t ih =>
    intro stA stB hl hd hf
    rw [List.foldl_cons, List.foldl_cons]
    obtain ⟨h1, h2, h3, h4⟩ := hl i (List.mem_cons_self i t)
    obtain ⟨hd2, hf2⟩ := collapseStep_congr src destA destB dgA dgB clen2 stA stB i hnum
      h1 h2 h3 h4 hd hf
    exact ih _ _ (fun j hj => hl j (List.mem_cons_of_mem i hj)) hd2 hf2

/-- The nodes `0..num2` after the reconstruction do not depend on what the
arrays held before the pass. -/
theorem reconstruct_congr (xbase ybase : F) (d1 d2 : Path F) (num2 : Nat) (hpos : 0 < num2)
    (h : ∀ g, g < num2 → d1.x g = d2.x g ∧ d1.y g = d2.y g) (g : Nat) (hg : g ≤ num2) :
    (reconstruct xbase ybase d1 num2).x g = (reconstruct xbase ybase d2 num2).x g ∧
      (reconstruct xbase ybase d1 num2).y g = (reconstruct xbase ybase d2 num2).y g := by
  have key : ∀ k, k < num2 →
      (reconstruct xbase ybase d1 num2).x k = (reconstruct xbase ybase d2 num2).x k ∧
      (reconstruct xbase ybase d1 num2).y k = (reconstruct xbase ybase d2 num2).y k := by
    intro k hk
    rw [(reconstruct_node xbase ybase d1 num2 k hk).1, (reconstruct_node xbase ybase d1 num2 k hk).2,
      (reconstruct_node xbase ybase d2 num2 k hk).1, (reconstruct_node xbase ybase d2 num2 k hk).2,
      (h k hk).1, (h k hk).2]
    exact ⟨rfl, rfl⟩
  rcases Nat.lt_or_eq_of_le hg with hlt | rfl
  · exact key g hlt
  · rw [(reconstruct_last xbase ybase d1 g).1, (reconstruct_last xbase ybase d1 g).2,
      (reconstruct_last xbase ybase d2 g).1, (reconstruct_last xbase ybase d2 g).2]
    exact key 0 hpos

/-- One pass, from the label `RecalcOrtho` to the test of `flag`: the flag
and the new flags of the vectors depend on the flags of the vectors only,
not on what `dest`, `dirgroup` and the rest of `dir` held before. -/
theorem pass_congr (src : Path F) (xbase ybase collapseLen : F) (dir1 dir2 : Nat → Int)
    (dest1 dest2 : Path F) (dg1 dg2 : Nat → Nat) (hnum : 2 ≤ src.num)
    (hb : BinaryDir dir1 (src.num - 1)) (hd : SameDir dir1 dir2 (src.num - 1)) :
    SameDir
        (collapsePass src
          (reconstruct xbase ybase (aggregate src xbase ybase dir1 dest1 dg1).dest
            (aggregate src xbase ybase dir1 dest1 dg1).num2)
          (aggregate src xbase ybase dir1 dest1 dg1).dirgroup collapseLen dir1).1
        (collapsePass src
          (reconstruct xbase ybase (aggregate src xbase ybase dir2 dest2 dg2).dest
            (aggregate src xbase ybase dir2 dest2 dg2).num2)
          (aggregate src xbase ybase dir2 dest2 dg2).dirgroup collapseLen dir2).1
        (src.num - 1) ∧
      (collapsePass src
          (reconstruct xbase ybase (aggregate src xbase ybase dir1 dest1 dg1).dest
            (aggregate src xbase ybase dir1 dest1 dg1).num2)
          (aggregate src xbase ybase dir1 dest1 dg1).dirgroup collapseLen dir1).2 =
        (collapsePass src
          (reconstruct xbase ybase (aggregate src xbase ybase dir2 dest2 dg2).dest
            (aggregate src xbase ybase dir2 dest2 dg2).num2)
          (aggregate src xbase ybase dir2 dest2 dg2).dirgroup collapseLen dir2).2 := by
  obtain ⟨hn, hc⟩ := aggregate_congr src xbase ybase dir1 dir2 dest1 dest2 dg1 dg2 hnum hb hd
  unfold collapsePass
  have hnumA : (reconstruct xbase ybase (aggregate src xbase ybase dir1 dest1 dg1).dest
      (aggregate src xbase ybase dir1 dest1 dg1).num2).num =
      (aggregate src xbase ybase dir1 dest1 dg1).num2 + 1 := rfl
  have hnumB : (reconstruct xbase ybase (aggregate src xbase ybase dir2 dest2 dg2).dest
      (aggregate src xbase ybase dir2 dest2 dg2).num2).num =
      (aggregate src xbase ybase dir2 dest2 dg2).num2 + 1 := rfl
  have hl2 : List.range' 1
      ((reconstruct xbase ybase (aggregate src xbase ybase dir2 dest2 dg2).dest
        (aggregate src xbase ybase dir2 dest2 dg2).num2).num - 1) =
      List.range' 1
        ((reconstruct xbase ybase (aggregate src xbase ybase dir1 dest1 dg1).dest
          (aggregate src xbase ybase dir1 dest1 dg1).num2).num - 1) := by
    rw [hnumA, hnumB, hn]
  rw [hl2]
  apply collapse_congr src _ _ _ _ _ hnum _ (dir1, 0) (dir2, 0) _ hd rfl
  intro i hi
  rw [List.mem_range'_1, hnumA] at hi
  have hpos : 0 < (aggregate src xbase ybase dir1 dest1 dg1).num2 := by omega
  have hrec := reconstruct_congr xbase ybase (aggregate src xbase ybase dir1 dest1 dg1).dest
    (aggregate src xbase ybase dir2 dest2 dg2).dest (aggregate src xbase ybase dir1 dest1 dg1).num2
    hpos (fun g hg => (hc g hg).2)
  refine ⟨?_, (hc (i - 1) (by omega)).1, ?_, ?_⟩
  · unfold edgeLen2
    dsimp only
    rw [← hn, (hrec i (by omega)).1, (hrec i (by omega)).2, (hrec (i - 1) (by omega)).1,
      (hrec (i - 1) (by omega)).2]
  · rw [hnumA, hnumB, ← hn]
    by_cases hl : i = (aggregate src xbase ybase dir1 dest1 dg1).num2 + 1 - 1
    · rw [if_pos hl, if_pos hl]
      exact (hc 0 hpos).1
    · rw [if_neg hl, if_neg hl]
      exact (hc i (by omega)).1
  · exact aggregate_dirgroup_lt src xbase ybase dir1 dest1 dg1 hnum (i - 1) (by omega)

/-- A pass that raises the flag and leaves the flags of the vectors as they
were is repeated for ever: no number of passes is enough. -/
theorem recalcOrtho_diverges (src : Path F) (xbase ybase collapseLen : F) (dir0 : Nat → Int)
    (dest0 : Path F) (dg0 : Nat → Nat) (hnum : 2 ≤ src.num) (hc : 0 < collapseLen)
    (hb : BinaryDir dir0 (src.num - 1))
    (hflag : 0 < (collapsePass src
      (reconstruct xbase ybase (aggregate src xbase ybase dir0 dest0 dg0).dest
        (aggregate src xbase ybase dir0 dest0 dg0).num2)
      (aggregate src xbase ybase dir0 dest0 dg0).dirgroup collapseLen dir0).2)
    (hsame : SameDir
      (collapsePass src
        (reconstruct xbase ybase (aggregate src xbase ybase dir0 dest0 dg0).dest
          (aggregate src xbase ybase dir0 dest0 dg0).num2)
        (aggregate src xbase ybase dir0 dest0 dg0).dirgroup collapseLen dir0).1
      dir0 (src.num - 1)) :
    ∀ (fuel : Nat) (dir : Nat → Int) (dg : Nat → Nat) (dest : Path F),
      SameDir dir0 dir (src.num - 1) →
      recalcOrtho src xbase ybase collapseLen fuel dir dg dest = none := by
  intro fuel
  induction fuel with
  | zero => intro dir dg dest _; rfl
  | succ n ih =>
    intro dir dg dest hd
    obtain ⟨h1, h2⟩ := pass_congr src xbase ybase collapseLen dir0 dir dest0 dest dg0 dg hnum hb hd
    unfold recalcOrtho
    dsimp only
    rw [if_pos hc, if_pos (by rw [← h2]; exact hflag)]
    apply ih
    intro e he
    rw [← h1 e he, hsame e he]

/-- A pass whose only short vector is vector `i` of `dest`, not the closing
one: the flag is raised, the vectors of group `i-1` take the flag of the
vector before the group, which is the flag of the next group, and two groups
fewer are left. -/
theorem pass_single (src : Path F) (xbase ybase collapseLen : F) (dir0 : Nat → Int)
    (dest : Path F) (dg : Nat → Nat) (i : Nat) (hnum : 2 ≤ src.num)
    (hb : BinaryDir dir0 (src.num - 1)) (hi1 : 1 ≤ i)
    (hi2 : i < (aggregate src xbase ybase dir0 dest dg).num2)
    (hshort : Undersized (reconstruct xbase ybase (aggregate src xbase ybase dir0 dest dg).dest
      (aggregate src xbase ybase dir0 dest dg).num2) collapseLen i)
    (honly : ∀ j, 1 ≤ j → j ≤ (aggregate src xbase ybase dir0 dest dg).num2 →
      Undersized (reconstruct xbase ybase (aggregate src xbase ybase dir0 dest dg).dest
        (aggregate src xbase ybase dir0 dest dg).num2) collapseLen j → j = i) :
    (collapsePass src (reconstruct xbase ybase (aggregate src xbase ybase dir0 dest dg).dest
        (aggregate src xbase ybase dir0 dest dg).num2)
      (aggregate src xbase ybase dir0 dest dg).dirgroup collapseLen dir0).2 = 1 ∧
    (∀ e, e < src.num - 1 →
      (collapsePass src (reconstruct xbase ybase (aggregate src xbase ybase dir0 dest dg).dest
          (aggregate src xbase ybase dir0 dest dg).num2)
        (aggregate src xbase ybase dir0 dest dg).dirgroup collapseLen dir0).1 e =
      if InGroup (aggregate src xbase ybase dir0 dest dg).dirgroup
          (aggregate src xbase ybase dir0 dest dg).num2 (i - 1) e
      then dir0 (cpred (src.num - 1) ((aggregate src xbase ybase dir0 dest dg).dirgroup (i - 1)))
      else dir0 e) ∧
    dir0 (cpred (src.num - 1) ((aggregate src xbase ybase dir0 dest dg).dirgroup (i - 1))) =
      dir0 ((aggregate src xbase ybase dir0 dest dg).dirgroup i) ∧
    groupCount
        (collapsePass src (reconstruct xbase ybase (aggregate src xbase ybase dir0 dest dg).dest
            (aggregate src xbase ybase dir0 dest dg).num2)
          (aggregate src xbase ybase dir0 dest dg).dirgroup collapseLen dir0).1 (src.num - 1) + 2 =
      groupCount dir0 (src.num - 1) := by
  rcases aggregate_spec src xbase ybase dir0 dest dg hnum with ⟨h0, -, -, -⟩ | hp
  · omega
  generalize aggregate src xbase ybase dir0 dest dg = s at *
  have hg1 : i - 1 < s.num2 := by omega
  have hii : i - 1 + 1 = i := by omega
  have hab : s.dirgroup (i - 1) < s.dirgroup i := by
    have := hp.sorted (i - 1) (by omega)
    rwa [hii] at this
  have hbl := hp.lt_num1 i hi2
  have hrun : ∀ e, s.dirgroup (i - 1) ≤ e → e < s.dirgroup i →
      dir0 e = dir0 (s.dirgroup (i - 1)) := by
    intro e he1 he2
    have := hp.same (i - 1) hg1 e he1 (by unfold nxtFin; rw [hii, if_pos hi2]; exact he2)
    rwa [Nat.mod_eq_of_lt (by omega)] at this
  have hsa := hp.start_ne (i - 1) hg1
  have hsb : dir0 (s.dirgroup i) ≠ dir0 (s.dirgroup (i - 1)) := by
    have := hp.next_ne (i - 1) hg1
    rwa [hii, if_pos hi2] at this
  have hca := cpred_lt (src.num - 1) (s.dirgroup (i - 1)) (by omega) (by omega)
  have hPb : dir0 (cpred (src.num - 1) (s.dirgroup (i - 1))) = dir0 (s.dirgroup i) := by
    have x1 := hb _ hbl
    have x2 := hb (s.dirgroup (i - 1)) (by omega)
    have x3 := hb _ hca
    omega
  have hstep : collapsePass src (reconstruct xbase ybase s.dest s.num2) s.dirgroup collapseLen dir0 =
      (relabel dir0 (s.dirgroup (i - 1)) (s.dirgroup i)
        (dir0 (cpred (src.num - 1) (s.dirgroup (i - 1)))), 1) := by
    unfold collapsePass
    have hn : (reconstruct xbase ybase s.dest s.num2).num - 1 = s.num2 := rfl
    rw [hn, collapse_single src _ _ _ s.num2 i (dir0, 0) hi1 hi2.le honly]
    have hshort2 : edgeLen2 (reconstruct xbase ybase s.dest s.num2) i <
        collapseLen * collapseLen := hshort
    unfold collapseStep
    rw [if_pos hshort2]
    dsimp only
    rw [hn, if_neg (by omega)]
    have hprev : (if s.dirgroup (i - 1) = 0 then dir0 (src.num - 2)
        else dir0 (s.dirgroup (i - 1) - 1)) =
        dir0 (cpred (src.num - 1) (s.dirgroup (i - 1))) := by
      unfold cpred
      by_cases hz : s.dirgroup (i - 1) = 0
      · rw [if_pos hz, if_pos hz]
        rfl
      · rw [if_neg hz, if_neg hz]
    rw [hprev]
  have hval : ∀ e, e < src.num - 1 →
      relabel dir0 (s.dirgroup (i - 1)) (s.dirgroup i)
          (dir0 (cpred (src.num - 1) (s.dirgroup (i - 1)))) e =
        if s.dirgroup (i - 1) ≤ e ∧ e < s.dirgroup i
        then dir0 (cpred (src.num - 1) (s.dirgroup (i - 1))) else dir0 e := by
    intro e _
    rw [relabel_apply]
    by_cases h1 : s.dirgroup (i - 1) ≤ e ∧ e < s.dirgroup i
    · rw [if_pos h1, if_pos ⟨h1.1, h1.2.le⟩]
    · rw [if_neg h1]
      by_cases h2 : e = s.dirgroup i
      · rw [if_pos (by omega), h2, hPb]
      · rw [if_neg (by omega)]
  rw [hstep]
  refine ⟨rfl, ?_, hPb, ?_⟩
  · intro e he
    dsimp only
    rw [hval e he]
    have hin : InGroup s.dirgroup s.num2 (i - 1) e ↔
        (s.dirgroup (i - 1) ≤ e ∧ e < s.dirgroup i) := by
      unfold InGroup
      rw [if_pos (by omega), hii]
    by_cases h : InGroup s.dirgroup s.num2 (i - 1) e
    · rw [if_pos h, if_pos (hin.mp h)]
    · rw [if_neg h, if_neg (fun hc => h (hin.mpr hc))]
  · exact groupCount_relabel dir0 _ (src.num - 1) (s.dirgroup (i - 1)) (s.dirgroup i) hab hbl hb
      hrun hsa hsb hval

/-! ## The base vector -/

theorem pair_ne_zero_iff (v : F × F) : v ≠ (0, 0) ↔ v.1 ≠ 0 ∨ v.2 ≠ 0 := by
  rw [Ne, Prod.ext_iff]
  simp only [not_and_or]

theorem sq_sum_pos (v : F × F) (h : v ≠ (0, 0)) : 0 < v.1 * v.1 + v.2 * v.2 := by
  rcases (pair_ne_zero_iff v).mp h with h1 | h2
  · have := mul_self_pos.mpr h1
    have := mul_self_nonneg v.2
    linarith
  · have := mul_self_pos.mpr h2
    have := mul_self_nonneg v.1
    linarith

theorem weightEdge_ne_zero (v : F × F) (h : v ≠ (0, 0)) : weightEdge v ≠ (0, 0) := by
  have hd := sq_sum_pos v h
  rw [pair_ne_zero_iff] at h ⊢
  unfold weightEdge
  dsimp only
  rcases h with h | h
  · exact Or.inl (mul_ne_zero h hd.ne')
  · exact Or.inr (mul_ne_zero h hd.ne')

theorem signNorm_fst_nonneg (v : F × F) : 0 ≤ (signNorm v).1 := by
  unfold signNorm
  split
  · dsimp only; linarith
  · linarith

theorem signNorm_ne_zero (v : F × F) (h : v ≠ (0, 0)) : signNorm v ≠ (0, 0) := by
  unfold signNorm
  split
  · rw [pair_ne_zero_iff] at h ⊢
    dsimp only
    rcases h with h | h
    · exact Or.inl (neg_ne_zero.mpr h)
    · exact Or.inr (neg_ne_zero.mpr h)
  · exact h

theorem foldA_nonneg (w : F × F) (hw : 0 ≤ w.1) : 0 ≤ (foldA w).1 ∧ 0 ≤ (foldA w).2 := by
  unfold foldA
  split
  · dsimp only
    constructor <;> linarith
  · dsimp only
    constructor <;> linarith

theorem foldA_pos (w : F × F) (hw : 0 ≤ w.1) (hne : w ≠ (0, 0)) :
    0 < (foldA w).1 + (foldA w).2 := by
  unfold foldA
  split
  · dsimp only
    linarith
  · dsimp only
    rename_i h2
    rcases (pair_ne_zero_iff w).mp hne with h | h
    · have := lt_of_le_of_ne hw (Ne.symm h)
      linarith
    · have := lt_of_le_of_ne (not_lt.mp h2) (Ne.symm h)
      linarith

theorem foldB_nonneg (w : F × F) (hw : 0 ≤ w.1) : 0 ≤ (foldB w).1 := by
  unfold foldB
  split
  · exact hw
  · split
    · dsimp only; linarith
    · dsimp only; linarith

theorem foldB_pos (w : F × F) (hw : 0 ≤ w.1) (hne : w ≠ (0, 0)) : 0 < (foldB w).1 := by
  unfold foldB
  split
  · rename_i h1
    exact lt_of_le_of_lt (abs_nonneg _) h1
  · rename_i h1
    split
    · dsimp only; linarith
    · rename_i h2
      dsimp only
      have h3 : 0 ≤ w.2 := not_lt.mp h2
      rcases (pair_ne_zero_iff w).mp hne with h | h
      · have hp := lt_of_le_of_ne hw (Ne.symm h)
        have : w.1 ≤ |w.2| := not_lt.mp h1
        rw [abs_of_nonneg h3] at this
        linarith
      · exact lt_of_le_of_ne h3 (Ne.symm h)

/-- The sums of the first loop grow with every vector, and strictly with a
vector of non-zero length. -/
theorem baseSums_loop (src : Path F) :
    ∀ (l : List Nat) (b : BaseSums F),
      (b.xbase ≤ (l.foldl (baseStep src) b).xbase ∧
        b.ybase ≤ (l.foldl (baseStep src) b).ybase ∧
        b.xbase2 ≤ (l.foldl (baseStep src) b).xbase2) ∧
      ((∃ i, i ∈ l ∧ edgeVec src i ≠ (0, 0)) →
        b.xbase + b.ybase < (l.foldl (baseStep src) b).xbase + (l.foldl (baseStep src) b).ybase ∧
        b.xbase2 < (l.foldl (baseStep src) b).xbase2) := by
  intro l
  induction l with
  | nil =>
    intro b
    refine ⟨⟨le_rfl, le_rfl, le_rfl⟩, ?_⟩
    rintro ⟨i, hi, -⟩
    exact absurd hi (List.not_mem_nil i)
  | cons j t ih =>
    intro b
    rw [List.foldl_cons]
    obtain ⟨⟨h1, h2, h3⟩, h4⟩ := ih (baseStep src b j)
    have hs := signNorm_fst_nonneg (weightEdge (edgeVec src j))
    have hA := foldA_nonneg _ hs
    have hB := foldB_nonneg _ hs
    have e1 : (baseStep src b j).xbase =
        b.xbase + (foldA (signNorm (weightEdge (edgeVec src j)))).1 := rfl
    have e2 : (baseStep src b j).ybase =
        b.ybase + (foldA (signNorm (weightEdge (edgeVec src j)))).2 := rfl
    have e3 : (baseStep src b j).xbase2 =
        b.xbase2 + (foldB (signNorm (weightEdge (edgeVec src j)))).1 := rfl
    rw [e1] at h1
    rw [e2] at h2
    rw [e3] at h3
    refine ⟨⟨by linarith [hA.1], by linarith [hA.2], by linarith⟩, ?_⟩
    rintro ⟨i, hi, hne⟩
    rcases List.mem_cons.mp hi with rfl | hi
    · have hne2 := signNorm_ne_zero _ (weightEdge_ne_zero _ hne)
      have hAp := foldA_pos _ hs hne2
      have hBp := foldB_pos _ hs hne2
      constructor <;> linarith
    · obtain ⟨h5, h6⟩ := h4 ⟨i, hi, hne⟩
      rw [e1, e2] at h5
      rw [e3] at h6
      constructor
      · linarith [hA.1, hA.2]
      · linarith

/-- A vector scaled by `1/sqrt` of its squared length has length 1 when the
square root is exact and the vector is not zero. -/
theorem normalize_unit (sqrt : F → F) (v : F × F) (hv : 0 < v.1 * v.1 + v.2 * v.2)
    (hs : sqrt (v.1 * v.1 + v.2 * v.2) * sqrt (v.1 * v.1 + v.2 * v.2) = v.1 * v.1 + v.2 * v.2) :
    (normalize sqrt v).1 * (normalize sqrt v).1 + (normalize sqrt v).2 * (normalize sqrt v).2 =
      1 := by
  unfold normalize
  dsimp only
  have hne : sqrt (v.1 * v.1 + v.2 * v.2) ≠ 0 := by
    intro h0
    rw [h0, mul_zero] at hs
    exact hv.ne hs
  have : v.1 * (1 / sqrt (v.1 * v.1 + v.2 * v.2)) * (v.1 * (1 / sqrt (v.1 * v.1 + v.2 * v.2))) +
      v.2 * (1 / sqrt (v.1 * v.1 + v.2 * v.2)) * (v.2 * (1 / sqrt (v.1 * v.1 + v.2 * v.2))) =
      (v.1 * v.1 + v.2 * v.2) /
        (sqrt (v.1 * v.1 + v.2 * v.2) * sqrt (v.1 * v.1 + v.2 * v.2)) := by
    field_simp
  rw [this, hs, div_self hv.ne']

theorem edgeDir_scale (src : Path F) (a b t : F) (ht : 0 < t) (i : Nat) :
    edgeDir src (a * t) (b * t) i = edgeDir src a b i := by
  unfold edgeDir
  dsimp only
  have h1 : (edgeVec src i).1 * (a * t) + (edgeVec src i).2 * (b * t) =
      ((edgeVec src i).1 * a + (edgeVec src i).2 * b) * t := by ring
  have h2 : (edgeVec src i).1 * (b * t) - (edgeVec src i).2 * (a * t) =
      ((edgeVec src i).1 * b - (edgeVec src i).2 * a) * t := by ring
  rw [h1, h2, abs_mul, abs_mul, abs_of_pos ht]
  by_cases h : |(edgeVec src i).1 * a + (edgeVec src i).2 * b| >
      |(edgeVec src i).1 * b - (edgeVec src i).2 * a|
  · rw [if_pos h, if_pos (mul_lt_mul_of_pos_right h ht)]
  · rw [if_neg h, if_neg (fun hc => h (lt_of_mul_lt_mul_right hc ht.le))]

/-- The base vector is one of the two sums, scaled by `1/sqrt` of its squared
length. -/
theorem baseVector_cases (sqrt : F → F) (src : Path F) :
    baseVector sqrt src =
        ((baseSums src).xbase *
            (1 / sqrt ((baseSums src).xbase * (baseSums src).xbase +
              (baseSums src).ybase * (baseSums src).ybase)),
          (baseSums src).ybase *
            (1 / sqrt ((baseSums src).xbase * (baseSums src).xbase +
              (baseSums src).ybase * (baseSums src).ybase))) ∨
      baseVector sqrt src =
        ((baseSums src).xbase2 *
            (1 / sqrt ((baseSums src).xbase2 * (baseSums src).xbase2 +
              (baseSums src).ybase2 * (baseSums src).ybase2)),
          (baseSums src).ybase2 *
            (1 / sqrt ((baseSums src).xbase2 * (baseSums src).xbase2 +
              (baseSums src).ybase2 * (baseSums src).ybase2))) := by
  unfold baseVector normalize
  dsimp only
  split
  · exact Or.inr rfl
  · exact Or.inl rfl

/-! ## The examples -/

theorem baseSums_squarePath :
    baseSums (squarePath : Path F) =
      { xbase := 3010603 / 1000, ybase := 990601 / 1000,
        xbase2 := 3971199 / 1000, ybase2 := 10401 / 1000 } := by
  simp [baseSums, squarePath, mkPath, List.range', baseStep, edgeVec, weightEdge, signNorm,
    foldA, foldB]
  norm_num [abs_of_pos]

theorem edgeDir_squarePath_A (i : Nat) (hi : i < 4) :
    edgeDir (squarePath : Path F) (3010603 / 1000) (990601 / 1000) (i + 1) =
      [0, 1, 0, 1].getD i 0 := by
  interval_cases i <;>
    simp [edgeDir, squarePath, mkPath, edgeVec] <;> norm_num [abs_of_pos, abs_of_neg]

theorem edgeDir_squarePath_B (i : Nat) (hi : i < 4) :
    edgeDir (squarePath : Path F) (3971199 / 1000) (10401 / 1000) (i + 1) =
      [0, 1, 0, 1].getD i 0 := by
  interval_cases i <;>
    simp [edgeDir, squarePath, mkPath, edgeVec] <;> norm_num [abs_of_pos, abs_of_neg]

/-- With a square root that is positive on positive numbers, the vectors of
the path of Scenario 1 are labelled along, perpendicular, along,
perpendicular, whichever of the two base vectors is taken. -/
theorem squarePath_dir (sqrt : F → F) (hs : ∀ a, 0 < a → 0 < sqrt a) (dir0 : Nat → Int)
    (i : Nat) (hi : i < 4) :
    fillDir (squarePath : Path F) (baseVector sqrt squarePath).1 (baseVector sqrt squarePath).2
      dir0 i = [0, 1, 0, 1].getD i 0 := by
  rw [fillDir_apply, if_pos (by simpa [squarePath, mkPath] using hi)]
  rcases baseVector_cases sqrt (squarePath : Path F) with h | h
  · rw [h, baseSums_squarePath]
    dsimp only
    rw [edgeDir_scale _ _ _ _ (one_div_pos.mpr (hs _ (by norm_num)))]
    exact edgeDir_squarePath_A i hi
  · rw [h, baseSums_squarePath]
    dsimp only
    rw [edgeDir_scale _ _ _ _ (one_div_pos.mpr (hs _ (by norm_num)))]
    exact edgeDir_squarePath_B i hi

/-- Scenario 1: 4 groups and 5 output points. -/
theorem squarePath_result (sqrt : F → F) (hs : ∀ a, 0 < a → 0 < sqrt a) (fuel : Nat)
    (mem : Fresh F) (dest : Path F) :
    ∃ st, orthoMain sqrt (fuel + 1) mem dest squarePath 0 = some st ∧
      OrthogonalizePath sqrt (fuel + 1) mem dest squarePath 0 = some (0, st.dest) ∧
      st.num2 = 4 ∧ st.dest.num = 5 := by
  have hnum : (squarePath : Path F).num = 5 := rfl
  have hm : orthoMain sqrt (fuel + 1) mem dest squarePath 0 = some _ :=
    recalcOrtho_zero _ _ _ fuel _ _ _
  refine ⟨_, hm, ?_, ?_, ?_⟩
  · rw [OrthogonalizePath_ok]
    refine ⟨by rw [hnum], ?_, _, hm, rfl⟩
    simp [squarePath, mkPath]
  · dsimp only
    rw [aggregate_num2 _ _ _ _ _ _ (by rw [hnum]; omega), hnum]
    rw [groupCount_congr _ (fun e => [0, 1, 0, 1].getD e 0) _
      (fun e he => squarePath_dir sqrt hs mem.dir e he)]
    decide
  · show (aggregate _ _ _ _ _ _).num2 + 1 = 5
    rw [aggregate_num2 _ _ _ _ _ _ (by rw [hnum]; omega), hnum]
    rw [groupCount_congr _ (fun e => [0, 1, 0, 1].getD e 0) _
      (fun e he => squarePath_dir sqrt hs mem.dir e he)]
    decide

/-- The uncollapsed output for `stepPath` has 7 points; its fourth vector is
the only one shorter than 10. -/
theorem stepPath_uncollapsed :
    ∃ du, OrthogonalizePath ratSqrt 1 zeroMem stepPath stepPath 0 = some (0, du) ∧
      du.num = 7 ∧ Undersized du 10 4 ∧
      ∀ j, 1 ≤ j → j < du.num → Undersized du 10 j → j = 4 := by
  have hf : (OrthogonalizePath ratSqrt 1 zeroMem stepPath stepPath 0).map
      (fun r => (r.1, r.2.num, (List.range' 1 (r.2.num - 1)).filter
        (fun j => decide (edgeLen2 r.2 j < 10 * 10)))) = some (0, 7, [4]) := by
    decide!
  rcases h : OrthogonalizePath ratSqrt 1 zeroMem stepPath stepPath 0 with _ | ⟨c, d⟩
  · rw [h] at hf
    simp at hf
  · rw [h] at hf
    simp only [Option.map_some', Option.some.injEq, Prod.mk.injEq] at hf
    obtain ⟨hc, hn, hl⟩ := hf
    subst hc
    have hmem : ∀ j, (1 ≤ j ∧ j < d.num ∧ Undersized d 10 j) ↔ j = 4 := by
      intro j
      have : j ∈ (List.range' 1 (d.num - 1)).filter
          (fun j => decide (edgeLen2 d j < 10 * 10)) ↔ j = 4 := by
        rw [hl]
        simp
      rw [← this, List.mem_filter, List.mem_range'_1, decide_eq_true_eq]
      unfold Undersized
      constructor
      · rintro ⟨h1, h2, h3⟩
        exact ⟨⟨h1, by omega⟩, h3⟩
      · rintro ⟨⟨h1, h2⟩, h3⟩
        exact ⟨h1, by omega, h3⟩
    refine ⟨d, rfl, hn, ((hmem 4).mpr rfl).2.2, ?_⟩
    intro j h1 h2 h3
    exact (hmem j).mp ⟨h1, h2, h3⟩

/-- The output for `stepPath` with `collapseLen = 10` has 5 points. -/
theorem stepPath_collapsed (fuel : Nat) (hf : fuel = 2 ∨ fuel = 3) :
    ∃ dc, OrthogonalizePath ratSqrt fuel zeroMem stepPath stepPath 10 = some (0, dc) ∧
      dc.num = 5 := by
  have h2 : (OrthogonalizePath ratSqrt 2 zeroMem stepPath stepPath 10).map
      (fun r => (r.1, r.2.num)) = some (0, 5) := by
    decide!
  have h3 : (OrthogonalizePath ratSqrt 3 zeroMem stepPath stepPath 10).map
      (fun r => (r.1, r.2.num)) = some (0, 5) := by
    decide!
  have hfu : (OrthogonalizePath ratSqrt fuel zeroMem stepPath stepPath 10).map
      (fun r => (r.1, r.2.num)) = some (0, 5) := by
    rcases hf with rfl | rfl
    · exact h2
    · exact h3
  rcases h : OrthogonalizePath ratSqrt fuel zeroMem stepPath stepPath 10 with _ | ⟨c, d⟩
  · rw [h] at hfu
    simp at hfu
  · rw [h] at hfu
    simp only [Option.map_some', Option.some.injEq, Prod.mk.injEq] at hfu
    obtain ⟨hc, hn⟩ := hfu
    subst hc
    exact ⟨d, rfl, hn⟩

omit [LinearOrderedField F] in
/-- The usual format, a comma followed by a space, is parsed as promised. -/
theorem parse_usual_format (atof : List Char → F) (fx fy : Nat → F) (x0 y0 : F)
    (dest : Path F) :
    (ParsePath atof fx fy x0 y0 dest ['1', ' ', '2', ',', ' ', '3', ' ', '4']).2.nodes =
      [(atof ['1'], atof ['2']), (atof ['3'], atof ['4'])] ∧
    parseDoc atof ['1', ' ', '2', ',', ' ', '3', ' ', '4'] =
      [(atof ['1'], atof ['2']), (atof ['3'], atof ['4'])] := by
  constructor
  · rfl
  · rfl

/-- A pass whose only short vector is the closing vector of `dest`: the flag
is raised and no flag of a vector is changed, because the loop of lines
373-374 runs from the start of the last group to the start of the first
group, which lies before it. -/
theorem pass_closing (src : Path F) (xbase ybase collapseLen : F) (dir0 : Nat → Int)
    (dest : Path F) (dg : Nat → Nat) (hnum : 2 ≤ src.num)
    (hpos : 0 < (aggregate src xbase ybase dir0 dest dg).num2)
    (hshort : Undersized (reconstruct xbase ybase (aggregate src xbase ybase dir0 dest dg).dest
      (aggregate src xbase ybase dir0 dest dg).num2) collapseLen
      (aggregate src xbase ybase dir0 dest dg).num2)
    (honly : ∀ j, 1 ≤ j → j ≤ (aggregate src xbase ybase dir0 dest dg).num2 →
      Undersized (reconstruct xbase ybase (aggregate src xbase ybase dir0 dest dg).dest
        (aggregate src xbase ybase dir0 dest dg).num2) collapseLen j →
      j = (aggregate src xbase ybase dir0 dest dg).num2) :
    collapsePass src (reconstruct xbase ybase (aggregate src xbase ybase dir0 dest dg).dest
        (aggregate src xbase ybase dir0 dest dg).num2)
      (aggregate src xbase ybase dir0 dest dg).dirgroup collapseLen dir0 = (dir0, 1) := by
  rcases aggregate_spec src xbase ybase dir0 dest dg hnum with ⟨h0, -, -, -⟩ | hp
  · omega
  generalize aggregate src xbase ybase dir0 dest dg = s at *
  have h2 := hp.two_le
  have hm := hp.mono (s.num2 - 1) 0 (by omega) (by omega)
  unfold collapsePass
  have hn : (reconstruct xbase ybase s.dest s.num2).num - 1 = s.num2 := rfl
  rw [hn, collapse_single src _ _ _ s.num2 s.num2 (dir0, 0) hpos le_rfl honly]
  have hshort2 : edgeLen2 (reconstruct xbase ybase s.dest s.num2) s.num2 <
      collapseLen * collapseLen := hshort
  unfold collapseStep
  rw [if_pos hshort2]
  dsimp only
  rw [hn, if_pos rfl]
  congr 1
  funext e
  rw [relabel_apply, if_neg (by omega)]

/-- When the closing vector of `dest` is the only short vector of a pass, the
same pass is repeated for ever. -/
theorem closing_short_diverges (src : Path F) (xbase ybase collapseLen : F)
    (dir0 : Nat → Int) (dest0 : Path F) (dg0 : Nat → Nat) (hnum : 2 ≤ src.num)
    (hc : 0 < collapseLen) (hb : BinaryDir dir0 (src.num - 1))
    (hpos : 0 < (aggregate src xbase ybase dir0 dest0 dg0).num2)
    (hshort : Undersized (reconstruct xbase ybase (aggregate src xbase ybase dir0 dest0 dg0).dest
      (aggregate src xbase ybase dir0 dest0 dg0).num2) collapseLen
      (aggregate src xbase ybase dir0 dest0 dg0).num2)
    (honly : ∀ j, 1 ≤ j → j ≤ (aggregate src xbase ybase dir0 dest0 dg0).num2 →
      Undersized (reconstruct xbase ybase (aggregate src xbase ybase dir0 dest0 dg0).dest
        (aggregate src xbase ybase dir0 dest0 dg0).num2) collapseLen j →
      j = (aggregate src xbase ybase dir0 dest0 dg0).num2) :
    ∀ (fuel : Nat) (dir : Nat → Int) (dg : Nat → Nat) (dest : Path F),
      SameDir dir0 dir (src.num - 1) →
      recalcOrtho src xbase ybase collapseLen fuel dir dg dest = none := by
  have hp := pass_closing src xbase ybase collapseLen dir0 dest0 dg0 hnum hpos hshort honly
  apply recalcOrtho_diverges src xbase ybase collapseLen dir0 dest0 dg0 hnum hc hb
  · rw [hp]
    exact Int.one_pos
  · rw [hp]
    intro e _
    rfl

/-- The uncollapsed output for `loopPath` has 7 points; its closing vector
is the only one shorter than 10. -/
theorem loopPath_uncollapsed :
    ∃ du, OrthogonalizePath ratSqrt 1 zeroMem loopPath loopPath 0 = some (0, du) ∧
      du.num = 7 ∧ ∀ j, 1 ≤ j → j < du.num → (Undersized du 10 j ↔ j = 6) := by
  have hf : (OrthogonalizePath ratSqrt 1 zeroMem loopPath loopPath 0).map
      (fun r => (r.1, r.2.num, (List.range' 1 (r.2.num - 1)).filter
        (fun j => decide (edgeLen2 r.2 j < 10 * 10)))) = some (0, 7, [6]) := by
    decide!
  rcases h : OrthogonalizePath ratSqrt 1 zeroMem loopPath loopPath 0 with _ | ⟨c, d⟩
  · rw [h] at hf
    simp at hf
  · rw [h] at hf
    simp only [Option.map_some', Option.some.injEq, Prod.mk.injEq] at hf
    obtain ⟨hc, hn, hl⟩ := hf
    subst hc
    refine ⟨d, rfl, hn, ?_⟩
    intro j h1 h2
    have : j ∈ (List.range' 1 (d.num - 1)).filter
        (fun j => decide (edgeLen2 d j < 10 * 10)) ↔ j = 6 := by
      rw [hl]
      simp
    rw [← this, List.mem_filter, List.mem_range'_1, decide_eq_true_eq]
    unfold Undersized
    constructor
    · intro h3
      exact ⟨⟨h1, by omega⟩, h3⟩
    · rintro ⟨-, h3⟩
      exact h3

theorem errTerm_eq_min (src : Path F) (b : F × F) (i : Nat) :
    errTerm src b i =
      min (((edgeVec src i).1 * b.1 + (edgeVec src i).2 * b.2) ^ 2)
        (((edgeVec src i).1 * b.2 - (edgeVec src i).2 * b.1) ^ 2) := by
  unfold errTerm
  dsimp only
  rw [← pow_two, ← pow_two]
  split
  · next h => exact (min_eq_right h.le).symm
  · next h => exact (min_eq_left (not_lt.mp h)).symm

theorem foldl_pair_sum (f g : Nat → F) (l : List Nat) (a b : F) :
    l.foldl (fun s i => (s.1 + f i, s.2 + g i)) (a, b) =
      (a + (l.map f).sum, b + (l.map g).sum) := by
  induction l generalizing a b with
  | nil => simp
  | cons i l ih =>
    rw [List.foldl_cons, ih]
    simp only [List.map_cons, List.sum_cons, add_assoc]

theorem sqErrors_eq_residual (src : Path F) (b1 b2 : F × F) :
    sqErrors src b1 b2 = (residual src b1, residual src b2) := by
  unfold sqErrors residual
  rw [foldl_pair_sum, zero_add, zero_add]
  have h : ∀ b : F × F, errTerm src b = fun i =>
      min (((edgeVec src i).1 * b.1 + (edgeVec src i).2 * b.2) ^ 2)
        (((edgeVec src i).1 * b.2 - (edgeVec src i).2 * b.1) ^ 2) :=
    fun b => funext (errTerm_eq_min src b)
  rw [h b1, h b2]

/-- The folded vector of Variant B outside the branch that takes `y2`: it is
a rotation of the vector by a multiple of 90 degrees into the closed sector
from -45 to 45 degrees. -/
theorem foldB_sector (w : F × F) (hw : 0 ≤ w.1) (hns : ¬ (w.1 > |w.2| ∧ w.2 < 0)) :
    (foldB w = w ∨ foldB w = (-w.2, w.1) ∨ foldB w = (w.2, -w.1)) ∧
    -(foldB w).1 ≤ (foldB w).2 ∧ (foldB w).2 ≤ (foldB w).1 ∧
    ((foldB w).2 = -(foldB w).1 ↔ w.1 = w.2) := by
  unfold foldB foldA
  by_cases h1 : w.1 > |w.2|
  · have h2 : ¬ w.2 < 0 := fun h => hns ⟨h1, h⟩
    rw [if_pos h1, if_neg h2]
    have h3 : 0 ≤ w.2 := not_lt.mp h2
    rw [abs_of_nonneg h3] at h1
    refine ⟨Or.inl rfl, ?_, ?_, ?_⟩
    · dsimp only; linarith
    · dsimp only; linarith
    · dsimp only
      constructor
      · intro h; linarith
      · intro h; linarith
  · rw [if_neg h1]
    have h1b : w.1 ≤ |w.2| := not_lt.mp h1
    by_cases h2 : w.2 < 0
    · rw [if_pos h2]
      rw [abs_of_neg h2] at h1b
      refine ⟨Or.inr (Or.inl rfl), ?_, ?_, ?_⟩
      · dsimp only; linarith
      · dsimp only; linarith
      · dsimp only
        constructor
        · intro h; linarith
        · intro h; linarith
    · rw [if_neg h2]
      have h3 : 0 ≤ w.2 := not_lt.mp h2
      rw [abs_of_nonneg h3] at h1b
      refine ⟨Or.inr (Or.inr rfl), ?_, ?_, ?_⟩
      · dsimp only; linarith
      · dsimp only; linarith
      · dsimp only
        constructor
        · intro h; linarith
        · intro h; linarith

theorem foldl_add_sum (f : Nat → F) (l : List Nat) (a : F) :
    l.foldl (fun c j => c + f j) a = a + (l.map f).sum := by
  induction l generalizing a with
  | nil => simp
  | cons i l ih =>
    rw [List.foldl_cons, ih]
    simp only [List.map_cons, List.sum_cons, add_assoc]

/-- The average that the aggregation loop computes is the arithmetic mean of
the line constant. -/
theorem groupC_eq_meanC (src : Path F) (xbase ybase : F) (num1 : Nat) (lab : Int)
    (s e : Nat) (h : s ≤ e) :
    groupC src xbase ybase num1 lab s e = meanC src xbase ybase num1 lab s e := by
  unfold groupC cSum meanC
  have hn : e + 1 - s = e - s + 1 := by omega
  have hd : (1 : F) + (e : F) - (s : F) = ((e - s + 1 : Nat) : F) := by
    push_cast [Nat.cast_sub h]
    ring
  rw [hd, hn]
  congr 1
  by_cases hl : lab = 0
  · rw [if_pos hl, foldl_add_sum, zero_add]
    congr 1
    apply List.map_congr_left
    intro j _
    unfold lineC
    rw [if_pos hl]
  · rw [if_neg hl, foldl_add_sum, zero_add]
    congr 1
    apply List.map_congr_left
    intro j _
    unfold lineC
    rw [if_neg hl]

theorem AggPost.start_lt_fin {src : Path F} {xbase ybase : F} {dir : Nat → Int} {num1 : Nat}
    {s : AggState F} (hp : AggPost src xbase ybase dir num1 s) (g : Nat) (hg : g < s.num2) :
    s.dirgroup g < nxtFin num1 s.dirgroup s.num2 g := by
  unfold nxtFin
  by_cases h1 : g + 1 < s.num2
  · rw [if_pos h1]
    exact hp.sorted g h1
  · rw [if_neg h1]
    have := hp.lt_num1 g hg
    omega

/-- With flags 0 and 1 the groups alternate, so their number is even. -/
theorem AggPost.even {src : Path F} {xbase ybase : F} {dir : Nat → Int} {num1 : Nat}
    {s : AggState F} (hp : AggPost src xbase ybase dir num1 s) (hb : BinaryDir dir num1) :
    Even s.num2 := by
  have h2 := hp.two_le
  have key : ∀ g, g < s.num2 → (dir (s.dirgroup g) = dir (s.dirgroup 0) ↔ Even g) := by
    intro g
    induction g with
    | zero => intro _; simp
    | succ n ih =>
      intro hn
      have hne := hp.next_ne n (by omega)
      rw [if_pos hn] at hne
      have ih2 := ih (by omega)
      rw [Nat.even_add_one, ← ih2]
      rcases hb _ (hp.lt_num1 (n + 1) hn) with a | a <;>
        rcases hb _ (hp.lt_num1 n (by omega)) with b | b <;>
        rcases hb _ (hp.lt_num1 0 (by omega)) with c | c <;>
        rw [a, b] at hne <;> rw [a, b, c] <;> simp at hne ⊢
  have hlast := hp.next_ne (s.num2 - 1) (by omega)
  rw [if_neg (by omega)] at hlast
  have hk := key (s.num2 - 1) (by omega)
  have hodd : ¬ Even (s.num2 - 1) := fun he => hlast (hk.mpr he).symm
  have : s.num2 = s.num2 - 1 + 1 := by omega
  rw [this, Nat.even_add_one]
  exact hodd

theorem altDir_binary (num1 : Nat) : BinaryDir altDir num1 := by
  intro e _
  unfold altDir
  exact Int.emod_two_eq_zero_or_one _

/-- The collapse loop leaves the flag of a vector that lies in none of the
ranges that it relabels. -/
theorem collapse_keep (src dest : Path F) (dirgroup : Nat → Nat) (clen2 : F) (e : Nat) :
    ∀ (l : List Nat) (st : (Nat → Int) × Int),
      (∀ j, j ∈ l → edgeLen2 dest j < clen2 →
        ¬ (dirgroup (j - 1) ≤ e ∧ e ≤ (if j = dest.num - 1 then dirgroup 0 else dirgroup j))) →
      (l.foldl (collapseStep src dest dirgroup clen2) st).1 e = st.1 e := by
  intro l
  induction l with
  | nil => intro st _; rfl
  | cons j t ih =>
    intro st h
    rw [List.foldl_cons, ih _ (fun k hk => h k (List.mem_cons_of_mem j hk))]
    unfold collapseStep
    by_cases hs : edgeLen2 dest j < clen2
    · rw [if_pos hs]
      dsimp only
      rw [relabel_apply, if_neg (h j (List.mem_cons_self j t) hs)]
    · rw [if_neg hs]

/-- A vector whose flag a collapse loop changes lies between the start of a
group with a short vector of `dest`, which is not the closing vector, and the
start of the next group, the latter included. -/
theorem pass_changes_only (src : Path F) (xbase ybase collapseLen : F) (dir : Nat → Int)
    (dest : Path F) (dg : Nat → Nat) (hnum : 2 ≤ src.num) (e : Nat)
    (hch : (collapsePass src (reconstruct xbase ybase (aggregate src xbase ybase dir dest dg).dest
        (aggregate src xbase ybase dir dest dg).num2)
      (aggregate src xbase ybase dir dest dg).dirgroup collapseLen dir).1 e ≠ dir e) :
    ∃ i, 1 ≤ i ∧ i < (aggregate src xbase ybase dir dest dg).num2 ∧
      Undersized (reconstruct xbase ybase (aggregate src xbase ybase dir dest dg).dest
        (aggregate src xbase ybase dir dest dg).num2) collapseLen i ∧
      (aggregate src xbase ybase dir dest dg).dirgroup (i - 1) ≤ e ∧
      e ≤ (aggregate src xbase ybase dir dest dg).dirgroup i := by
  by_contra hno
  apply hch
  have hmono : (aggregate src xbase ybase dir dest dg).num2 ≠ 1 ∧
      ∀ g2 g1, g1 < g2 → g2 < (aggregate src xbase ybase dir dest dg).num2 →
      (aggregate src xbase ybase dir dest dg).dirgroup g1 <
        (aggregate src xbase ybase dir dest dg).dirgroup g2 := by
    rcases aggregate_spec src xbase ybase dir dest dg hnum with ⟨h0, -⟩ | hp
    · refine ⟨by omega, ?_⟩
      intro g2 g1 _ h
      omega
    · exact ⟨by have := hp.two_le; omega, hp.mono⟩
  generalize aggregate src xbase ybase dir dest dg = s at *
  unfold collapsePass
  have hn : (reconstruct xbase ybase s.dest s.num2).num - 1 = s.num2 := rfl
  rw [hn]
  apply collapse_keep
  intro j hj hs
  rw [List.mem_range'_1] at hj
  rw [hn]
  rintro ⟨h1, h2⟩
  by_cases hlast : j = s.num2
  · rw [if_pos hlast] at h2
    have h3 := hmono.1
    have := hmono.2 (j - 1) 0 (by omega) (by omega)
    omega
  · rw [if_neg hlast] at h2
    exact hno ⟨j, hj.1, by omega, hs, h1, h2⟩

/-- The vectors of a group whose vector of `dest` is short, and is not the
closing vector, have after the collapse loop the flag that the vector
cyclically before the start of the group had when the loop came to the
group. -/
theorem pass_relabel_group (src : Path F) (xbase ybase collapseLen : F) (dir : Nat → Int)
    (dest : Path F) (dg : Nat → Nat) (hnum : 2 ≤ src.num) (i : Nat) (hi1 : 1 ≤ i)
    (hi2 : i < (aggregate src xbase ybase dir dest dg).num2)
    (hshort : Undersized (reconstruct xbase ybase (aggregate src xbase ybase dir dest dg).dest
      (aggregate src xbase ybase dir dest dg).num2) collapseLen i)
    (e : Nat) (he1 : (aggregate src xbase ybase dir dest dg).dirgroup (i - 1) ≤ e)
    (he2 : e < (aggregate src xbase ybase dir dest dg).dirgroup i) :
    (collapsePass src (reconstruct xbase ybase (aggregate src xbase ybase dir dest dg).dest
        (aggregate src xbase ybase dir dest dg).num2)
      (aggregate src xbase ybase dir dest dg).dirgroup collapseLen dir).1 e =
    ((List.range' 1 (i - 1)).foldl
      (collapseStep src (reconstruct xbase ybase (aggregate src xbase ybase dir dest dg).dest
          (aggregate src xbase ybase dir dest dg).num2)
        (aggregate src xbase ybase dir dest dg).dirgroup (collapseLen * collapseLen))
      (dir, 0)).1 (cpred (src.num - 1) ((aggregate src xbase ybase dir dest dg).dirgroup (i - 1))) := by
  rcases aggregate_spec src xbase ybase dir dest dg hnum with ⟨h0, -⟩ | hp
  · omega
  generalize aggregate src xbase ybase dir dest dg = s at *
  unfold collapsePass
  have hn : (reconstruct xbase ybase s.dest s.num2).num - 1 = s.num2 := rfl
  rw [hn]
  have hsplit : List.range' 1 s.num2 =
      List.range' 1 (i - 1) ++ (i :: List.range' (i + 1) (s.num2 - i)) := by
    have h1 := List.range'_append 1 (i - 1) (s.num2 - i + 1) 1
    have h2 : 1 + 1 * (i - 1) = i := by omega
    have h3 : s.num2 - i + 1 + (i - 1) = s.num2 := by omega
    rw [h2, h3] at h1
    rw [← h1, List.range'_succ]
  rw [hsplit, List.foldl_append, List.foldl_cons]
  rw [collapse_keep]
  · have hshort2 : edgeLen2 (reconstruct xbase ybase s.dest s.num2) i <
        collapseLen * collapseLen := hshort
    unfold collapseStep
    rw [if_pos hshort2]
    dsimp only
    rw [hn, if_neg (by omega), relabel_apply, if_pos ⟨he1, he2.le⟩]
    unfold cpred
    have h12 : src.num - 1 - 1 = src.num - 2 := by omega
    rw [h12]
    by_cases h0 : s.dirgroup (i - 1) = 0
    · rw [if_pos h0, if_pos h0]
    · rw [if_neg h0, if_neg h0]
  · intro j hj _
    rw [List.mem_range'_1] at hj
    rintro ⟨h1, -⟩
    have hle : s.dirgroup i ≤ s.dirgroup (j - 1) := by
      rcases Nat.lt_or_ge i (j - 1) with h | h
      · exact (hp.mono (j - 1) i h (by omega)).le
      · have : j - 1 = i := by omega
        rw [this]
    omega

theorem edgeVec_shift (tx ty : F) (src : Path F) (i : Nat) :
    edgeVec (shiftPath tx ty src) i = edgeVec src i := by
  unfold edgeVec shiftPath
  dsimp only
  rw [add_sub_add_right_eq_sub, add_sub_add_right_eq_sub]

theorem baseSums_shift (tx ty : F) (src : Path F) :
    baseSums (shiftPath tx ty src) = baseSums src := by
  unfold baseSums
  have h : baseStep (shiftPath tx ty src) = baseStep src := by
    funext b i
    unfold baseStep
    rw [edgeVec_shift]
  rw [h]
  rfl

theorem baseVector_shift (sqrt : F → F) (tx ty : F) (src : Path F) :
    baseVector sqrt (shiftPath tx ty src) = baseVector sqrt src := by
  have h : ∀ b1 b2 : F × F, sqErrors (shiftPath tx ty src) b1 b2 = sqErrors src b1 b2 := by
    intro b1 b2
    unfold sqErrors
    have he : ∀ b : F × F, errTerm (shiftPath tx ty src) b = errTerm src b := by
      intro b
      funext i
      unfold errTerm
      rw [edgeVec_shift]
    rw [he b1, he b2]
    rfl
  unfold baseVector
  rw [baseSums_shift]
  dsimp only
  rw [h]

theorem fillDir_shift (tx ty : F) (src : Path F) (xbase ybase : F) (dir : Nat → Int) :
    fillDir (shiftPath tx ty src) xbase ybase dir = fillDir src xbase ybase dir := by
  unfold fillDir
  have h : edgeDir (shiftPath tx ty src) xbase ybase = edgeDir src xbase ybase := by
    funext i
    unfold edgeDir
    rw [edgeVec_shift]
  rw [h]
  rfl

theorem sum_map_add_const (f : Nat → F) (c : F) (l : List Nat) :
    (l.map (fun j => f j + c)).sum = (l.map f).sum + (l.length : F) * c := by
  induction l with
  | nil => simp
  | cons i l ih =>
    simp only [List.map_cons, List.sum_cons, List.length_cons, Nat.cast_add, Nat.cast_one]
    rw [ih]
    ring

theorem lineC_shift (tx ty : F) (src : Path F) (xbase ybase : F) (lab : Int) (j : Nat) :
    lineC (shiftPath tx ty src) xbase ybase lab j =
      lineC src xbase ybase lab j + shiftC tx ty xbase ybase lab := by
  unfold lineC shiftC shiftPath
  dsimp only
  split <;> ring

/-- A shift of the source adds the same constant to the average C-parameter
of every group. -/
theorem groupC_shift (tx ty : F) (src : Path F) (xbase ybase : F) (num1 : Nat) (lab : Int)
    (s e : Nat) (h : s ≤ e) :
    groupC (shiftPath tx ty src) xbase ybase num1 lab s e =
      groupC src xbase ybase num1 lab s e + shiftC tx ty xbase ybase lab := by
  rw [groupC_eq_meanC _ _ _ _ _ _ _ h, groupC_eq_meanC _ _ _ _ _ _ _ h]
  unfold meanC
  have hf : (fun j => lineC (shiftPath tx ty src) xbase ybase lab (j % num1)) =
      fun j => lineC src xbase ybase lab (j % num1) + shiftC tx ty xbase ybase lab := by
    funext j
    exact lineC_shift tx ty src xbase ybase lab _
  rw [hf, sum_map_add_const (fun j => lineC src xbase ybase lab (j % num1)), List.length_range']
  have hne : ((e - s + 1 : Nat) : F) ≠ 0 := Nat.cast_ne_zero.mpr (Nat.succ_ne_zero _)
  generalize ((e - s + 1 : Nat) : F) = n at hne ⊢
  rw [add_div, mul_div_cancel_left₀ _ hne]

theorem AggPost.cells_shift {src : Path F} {tx ty xbase ybase : F} {dir1 dir2 : Nat → Int}
    {num1 : Nat} {s1 s2 : AggState F} (hp1 : AggPost src xbase ybase dir1 num1 s1)
    (hp2 : AggPost (shiftPath tx ty src) xbase ybase dir2 num1 s2) (hb : BinaryDir dir1 num1)
    (hd : SameDir dir1 dir2 num1) (hn : s1.num2 = s2.num2)
    (hdg : ∀ g, g < s1.num2 → s1.dirgroup g = s2.dirgroup g) (g : Nat) (hg : g < s1.num2) :
    s2.dest.x g = s1.dest.x g + shiftC tx ty xbase ybase 0 ∧
      s2.dest.y g = s1.dest.y g + shiftC tx ty xbase ybase 1 := by
  have hg2 : g < s2.num2 := by rw [← hn]; exact hg
  obtain ⟨a1, a2, a3⟩ := hp1.node_slots hb g hg
  obtain ⟨b1, b2, -⟩ := hp2.node_slots (hd.binary hb) g hg2
  have h2 := hp1.two_le
  have hpg : prevGroup s1.num2 g < s1.num2 := by
    unfold prevGroup; split <;> omega
  have hnx : ∀ k, k < s1.num2 →
      nxtFin num1 s2.dirgroup s2.num2 k = nxtFin num1 s1.dirgroup s1.num2 k := by
    intro k hk
    unfold nxtFin
    rw [← hn]
    by_cases hk1 : k + 1 < s1.num2
    · rw [if_pos hk1, if_pos hk1, hdg _ hk1]
    · rw [if_neg hk1, if_neg hk1, hdg 0 (by omega)]
  rw [hnx g hg, ← hdg g hg, ← hd _ (hp1.lt_num1 g hg),
    groupC_shift _ _ _ _ _ _ _ _ _ (hp1.start_lt_fin g hg).le, ← a1] at b1
  have hpn : prevGroup s2.num2 g = prevGroup s1.num2 g := by rw [hn]
  rw [hpn, hnx _ hpg, ← hdg _ hpg, ← hd _ (hp1.lt_num1 _ hpg),
    groupC_shift _ _ _ _ _ _ _ _ _ (hp1.start_lt_fin _ hpg).le, ← a2] at b2
  have hs0 : ∀ p : Path F, slotAt 0 p g = p.x g := fun p => rfl
  have hs1 : ∀ p : Path F, slotAt 1 p g = p.y g := fun p => rfl
  rcases hb _ (hp1.lt_num1 g hg) with hl | hl
  · have hl2 : dir1 (s1.dirgroup (prevGroup s1.num2 g)) = 1 := by
      rcases hb _ (hp1.lt_num1 _ hpg) with hc | hc
      · exact absurd ⟨fun _ => hc, fun _ => hl⟩ a3
      · exact hc
    rw [hl, hs0, hs0] at b1
    rw [hl2, hs1, hs1] at b2
    exact ⟨b1, b2⟩
  · have hl2 : dir1 (s1.dirgroup (prevGroup s1.num2 g)) = 0 := by
      rcases hb _ (hp1.lt_num1 _ hpg) with hc | hc
      · exact hc
      · rw [hl, hc] at a3
        exact absurd Iff.rfl a3
    rw [hl, hs1, hs1] at b1
    rw [hl2, hs0, hs0] at b2
    exact ⟨b2, b1⟩

/-- The aggregation of a shifted source makes the same groups; the
C-parameters that it leaves for the nodes `0..num2-1` are shifted by
constants. -/
theorem aggregate_shift (tx ty : F) (src : Path F) (xbase ybase : F) (dir1 dir2 : Nat → Int)
    (dest1 dest2 : Path F) (dg1 dg2 : Nat → Nat) (hnum : 2 ≤ src.num)
    (hb : BinaryDir dir1 (src.num - 1)) (hd : SameDir dir1 dir2 (src.num - 1)) :
    (aggregate src xbase ybase dir1 dest1 dg1).num2 =
        (aggregate (shiftPath tx ty src) xbase ybase dir2 dest2 dg2).num2 ∧
      ∀ g, g < (aggregate src xbase ybase dir1 dest1 dg1).num2 →
        (aggregate src xbase ybase dir1 dest1 dg1).dirgroup g =
            (aggregate (shiftPath tx ty src) xbase ybase dir2 dest2 dg2).dirgroup g ∧
          (aggregate (shiftPath tx ty src) xbase ybase dir2 dest2 dg2).dest.x g =
            (aggregate src xbase ybase dir1 dest1 dg1).dest.x g + shiftC tx ty xbase ybase 0 ∧
          (aggregate (shiftPath tx ty src) xbase ybase dir2 dest2 dg2).dest.y g =
            (aggregate src xbase ybase dir1 dest1 dg1).dest.y g + shiftC tx ty xbase ybase 1 := by
  have hnum2 : 2 ≤ (shiftPath tx ty src).num := hnum
  have hnn : (shiftPath tx ty src).num - 1 = src.num - 1 := rfl
  have hn : (aggregate src xbase ybase dir1 dest1 dg1).num2 =
      (aggregate (shiftPath tx ty src) xbase ybase dir2 dest2 dg2).num2 := by
    rw [aggregate_num2 _ _ _ _ _ _ hnum, aggregate_num2 _ _ _ _ _ _ hnum2, hnn,
      groupCount_congr dir1 dir2 _ hd]
  have hdg : ∀ g, g < (aggregate src xbase ybase dir1 dest1 dg1).num2 →
      (aggregate src xbase ybase dir1 dest1 dg1).dirgroup g =
        (aggregate (shiftPath tx ty src) xbase ybase dir2 dest2 dg2).dirgroup g := by
    intro g hg
    rw [aggregate_dirgroup _ _ _ _ _ _ hnum g hg,
      aggregate_dirgroup _ _ _ _ _ _ hnum2 g (by rw [← hn]; exact hg), hnn,
      groupStarts_congr dir1 dir2 _ hd]
  refine ⟨hn, ?_⟩
  intro g hg
  refine ⟨hdg g hg, ?_⟩
  rcases aggregate_spec src xbase ybase dir1 dest1 dg1 hnum with ⟨h0, -, -, -⟩ | hp1
  · omega
  rcases aggregate_spec (shiftPath tx ty src) xbase ybase dir2 dest2 dg2 hnum2 with
    ⟨h0, -, -, -⟩ | hp2
  · omega
  rw [hnn] at hp2
  exact hp1.cells_shift hp2 hb hd hn hdg g hg

/-- The nodes that the reconstruction makes from C-parameters shifted by the
constants of a shift by `(tx, ty)` are shifted by `(tx, ty)`, when the base
vector is a unit vector. -/
theorem reconstruct_shift (tx ty xbase ybase : F) (d1 d2 : Path F) (num2 : Nat)
    (hunit : xbase * xbase + ybase * ybase = 1) (hpos : 0 < num2)
    (h : ∀ g, g < num2 → d2.x g = d1.x g + shiftC tx ty xbase ybase 0 ∧
      d2.y g = d1.y g + shiftC tx ty xbase ybase 1) (g : Nat) (hg : g ≤ num2) :
    (reconstruct xbase ybase d2 num2).x g = (reconstruct xbase ybase d1 num2).x g + tx ∧
      (reconstruct xbase ybase d2 num2).y g = (reconstruct xbase ybase d1 num2).y g + ty := by
  have key : ∀ k, k < num2 →
      (reconstruct xbase ybase d2 num2).x k = (reconstruct xbase ybase d1 num2).x k + tx ∧
      (reconstruct xbase ybase d2 num2).y k = (reconstruct xbase ybase d1 num2).y k + ty := by
    intro k hk
    rw [(reconstruct_node xbase ybase d1 num2 k hk).1, (reconstruct_node xbase ybase d1 num2 k hk).2,
      (reconstruct_node xbase ybase d2 num2 k hk).1, (reconstruct_node xbase ybase d2 num2 k hk).2,
      (h k hk).1, (h k hk).2]
    unfold shiftC
    rw [if_pos rfl, if_neg (by decide)]
    constructor
    · linear_combination tx * hunit
    · linear_combination ty * hunit
  rcases Nat.lt_or_eq_of_le hg with hlt | rfl
  · exact key g hlt
  · rw [(reconstruct_last xbase ybase d1 g).1, (reconstruct_last xbase ybase d1 g).2,
      (reconstruct_last xbase ybase d2 g).1, (reconstruct_last xbase ybase d2 g).2]
    exact key 0 hpos

/-- A pass over a shifted source with a unit base vector: the path before the
collapse loop is shifted, and the collapse loop gives the same flags. -/
theorem pass_shift (tx ty : F) (src : Path F) (xbase ybase collapseLen : F)
    (dir1 dir2 : Nat → Int) (dest1 dest2 : Path F) (dg1 dg2 : Nat → Nat) (hnum : 2 ≤ src.num)
    (hunit : xbase * xbase + ybase * ybase = 1)
    (hb : BinaryDir dir1 (src.num - 1)) (hd : SameDir dir1 dir2 (src.num - 1)) :
    SameDir
        (collapsePass src
          (reconstruct xbase ybase (aggregate src xbase ybase dir1 dest1 dg1).dest
            (aggregate src xbase ybase dir1 dest1 dg1).num2)
          (aggregate src xbase ybase dir1 dest1 dg1).dirgroup collapseLen dir1).1
        (collapsePass (shiftPath tx ty src)
          (reconstruct xbase ybase (aggregate (shiftPath tx ty src) xbase ybase dir2 dest2 dg2).dest
            (aggregate (shiftPath tx ty src) xbase ybase dir2 dest2 dg2).num2)
          (aggregate (shiftPath tx ty src) xbase ybase dir2 dest2 dg2).dirgroup collapseLen dir2).1
        (src.num - 1) ∧
      (collapsePass src
          (reconstruct xbase ybase (aggregate src xbase ybase dir1 dest1 dg1).dest
            (aggregate src xbase ybase dir1 dest1 dg1).num2)
          (aggregate src xbase ybase dir1 dest1 dg1).dirgroup collapseLen dir1).2 =
        (collapsePass (shiftPath tx ty src)
          (reconstruct xbase ybase (aggregate (shiftPath tx ty src) xbase ybase dir2 dest2 dg2).dest
            (aggregate (shiftPath tx ty src) xbase ybase dir2 dest2 dg2).num2)
          (aggregate (shiftPath tx ty src) xbase ybase dir2 dest2 dg2).dirgroup collapseLen dir2).2 := by
  obtain ⟨hn, hc⟩ := aggregate_shift tx ty src xbase ybase dir1 dir2 dest1 dest2 dg1 dg2 hnum hb hd
  generalize aggregate (shiftPath tx ty src) xbase ybase dir2 dest2 dg2 = s2 at hn hc ⊢
  have hlt := aggregate_dirgroup_lt src xbase ybase dir1 dest1 dg1 hnum
  generalize aggregate src xbase ybase dir1 dest1 dg1 = s1 at hn hc hlt ⊢
  unfold collapsePass
  have hcs : collapseStep (shiftPath tx ty src) = collapseStep src := rfl
  have hnumA : (reconstruct xbase ybase s1.dest s1.num2).num = s1.num2 + 1 := rfl
  have hnumB : (reconstruct xbase ybase s2.dest s2.num2).num = s1.num2 + 1 := by
    rw [hn]
    rfl
  rw [hcs, hnumA, hnumB]
  apply collapse_congr src _ _ _ _ _ hnum _ (dir1, 0) (dir2, 0) _ hd rfl
  intro i hi
  rw [List.mem_range'_1] at hi
  have hpos : 0 < s1.num2 := by omega
  have hrec := reconstruct_shift tx ty xbase ybase s1.dest s2.dest s1.num2 hunit hpos
    (fun g hg => (hc g hg).2)
  refine ⟨?_, (hc (i - 1) (by omega)).1, ?_, hlt (i - 1) (by omega)⟩
  · unfold edgeLen2
    dsimp only
    rw [← hn, (hrec i (by omega)).1, (hrec i (by omega)).2, (hrec (i - 1) (by omega)).1,
      (hrec (i - 1) (by omega)).2, add_sub_add_right_eq_sub, add_sub_add_right_eq_sub]
  · rw [hnumA, hnumB]
    by_cases hl : i = s1.num2 + 1 - 1
    · rw [if_pos hl, if_pos hl]
      exact (hc 0 hpos).1
    · rw [if_neg hl, if_neg hl]
      exact (hc i (by omega)).1

/-- The passes over a shifted source with a unit base vector: they end
together with the passes over the source, with the same number of groups and
the same flags, and with a path that is shifted when it has a group. -/
theorem recalcOrtho_shift (tx ty : F) (src : Path F) (xbase ybase collapseLen : F)
    (hnum : 2 ≤ src.num) (hunit : xbase * xbase + ybase * ybase = 1) :
    ∀ (fuel : Nat) (dir1 dir2 : Nat → Int) (dg1 dg2 : Nat → Nat) (dest1 dest2 : Path F),
      BinaryDir dir1 (src.num - 1) → SameDir dir1 dir2 (src.num - 1) →
      (recalcOrtho src xbase ybase collapseLen fuel dir1 dg1 dest1 = none ↔
        recalcOrtho (shiftPath tx ty src) xbase ybase collapseLen fuel dir2 dg2 dest2 = none) ∧
      ∀ st1 st2, recalcOrtho src xbase ybase collapseLen fuel dir1 dg1 dest1 = some st1 →
        recalcOrtho (shiftPath tx ty src) xbase ybase collapseLen fuel dir2 dg2 dest2 = some st2 →
        st2.num2 = st1.num2 ∧ st1.dest.num = st1.num2 + 1 ∧ st2.dest.num = st1.num2 + 1 ∧
        SameDir st1.dir st2.dir (src.num - 1) ∧
        (0 < st1.num2 → ∀ g, g ≤ st1.num2 →
          st2.dest.x g = st1.dest.x g + tx ∧ st2.dest.y g = st1.dest.y g + ty) := by
  intro fuel
  induction fuel with
  | zero =>
    intro dir1 dir2 dg1 dg2 dest1 dest2 _ _
    refine ⟨⟨fun _ => rfl, fun _ => rfl⟩, ?_⟩
    intro st1 st2 h
    simp [recalcOrtho] at h
  | succ n ih =>
    intro dir1 dir2 dg1 dg2 dest1 dest2 hb hd
    obtain ⟨h1, h2⟩ := pass_shift tx ty src xbase ybase collapseLen dir1 dir2 dest1 dest2 dg1 dg2
      hnum hunit hb hd
    obtain ⟨hn, hc⟩ := aggregate_shift tx ty src xbase ybase dir1 dir2 dest1 dest2 dg1 dg2 hnum
      hb hd
    have hfin : ∀ g, 0 < (aggregate src xbase ybase dir1 dest1 dg1).num2 →
        g ≤ (aggregate src xbase ybase dir1 dest1 dg1).num2 →
        (reconstruct xbase ybase (aggregate (shiftPath tx ty src) xbase ybase dir2 dest2 dg2).dest
            (aggregate (shiftPath tx ty src) xbase ybase dir2 dest2 dg2).num2).x g =
          (reconstruct xbase ybase (aggregate src xbase ybase dir1 dest1 dg1).dest
            (aggregate src xbase ybase dir1 dest1 dg1).num2).x g + tx ∧
        (reconstruct xbase ybase (aggregate (shiftPath tx ty src) xbase ybase dir2 dest2 dg2).dest
            (aggregate (shiftPath tx ty src) xbase ybase dir2 dest2 dg2).num2).y g =
          (reconstruct xbase ybase (aggregate src xbase ybase dir1 dest1 dg1).dest
            (aggregate src xbase ybase dir1 dest1 dg1).num2).y g + ty := by
      intro g hpos hg
      rw [← hn]
      exact reconstruct_shift tx ty xbase ybase _ _ _ hunit hpos (fun k hk => (hc k hk).2) g hg
    unfold recalcOrtho
    dsimp only
    by_cases hcl : collapseLen > 0
    · rw [if_pos hcl, if_pos hcl]
      by_cases hf : (collapsePass src
          (reconstruct xbase ybase (aggregate src xbase ybase dir1 dest1 dg1).dest
            (aggregate src xbase ybase dir1 dest1 dg1).num2)
          (aggregate src xbase ybase dir1 dest1 dg1).dirgroup collapseLen dir1).2 > 0
      · rw [if_pos hf, if_pos (by rw [← h2]; exact hf)]
        exact ih _ _ _ _ _ _
          (collapsePass_binary src xbase ybase collapseLen dir1 dest1 dg1 hnum hb) h1
      · rw [if_neg hf, if_neg (by rw [← h2]; exact hf)]
        refine ⟨⟨fun h => by simp at h, fun h => by simp at h⟩, ?_⟩
        intro st1 st2 e1 e2
        injection e1 with e1
        injection e2 with e2
        subst e1 e2
        exact ⟨hn.symm, rfl, (by rw [← hn]; rfl), h1, fun hpos g hg => hfin g hpos hg⟩
    · rw [if_neg hcl, if_neg hcl]
      refine ⟨⟨fun h => by simp at h, fun h => by simp at h⟩, ?_⟩
      intro st1 st2 e1 e2
      injection e1 with e1
      injection e2 with e2
      subst e1 e2
      exact ⟨hn.symm, rfl, (by rw [← hn]; rfl), hd, fun hpos g hg => hfin g hpos hg⟩

/-- The base vector is a unit vector when a vector of the source has
non-zero length and the square root is exact on the squared lengths of the
two summed vectors. -/
theorem baseVector_unit (sqrt : F → F) (src : Path F)
    (hedge : ∃ i, 1 ≤ i ∧ i < src.num ∧ edgeVec src i ≠ (0, 0))
    (hsA : sqrt ((baseSums src).xbase * (baseSums src).xbase +
        (baseSums src).ybase * (baseSums src).ybase) *
      sqrt ((baseSums src).xbase * (baseSums src).xbase +
        (baseSums src).ybase * (baseSums src).ybase) =
      (baseSums src).xbase * (baseSums src).xbase + (baseSums src).ybase * (baseSums src).ybase)
    (hsB : sqrt ((baseSums src).xbase2 * (baseSums src).xbase2 +
        (baseSums src).ybase2 * (baseSums src).ybase2) *
      sqrt ((baseSums src).xbase2 * (baseSums src).xbase2 +
        (baseSums src).ybase2 * (baseSums src).ybase2) =
      (baseSums src).xbase2 * (baseSums src).xbase2 +
        (baseSums src).ybase2 * (baseSums src).ybase2) :
    (baseVector sqrt src).1 * (baseVector sqrt src).1 +
      (baseVector sqrt src).2 * (baseVector sqrt src).2 = 1 := by
  obtain ⟨i, hi1, hi2, hne⟩ := hedge
  have hmem : i ∈ List.range' 1 (src.num - 1) := by
    rw [List.mem_range'_1]
    omega
  obtain ⟨⟨h1, h2, h3⟩, h4⟩ := baseSums_loop src (List.range' 1 (src.num - 1)) ⟨0, 0, 0, 0⟩
  obtain ⟨h5, h6⟩ := h4 ⟨i, hmem, hne⟩
  change (0 : F) ≤ (baseSums src).xbase at h1
  change (0 : F) ≤ (baseSums src).ybase at h2
  change (0 : F) + 0 < (baseSums src).xbase + (baseSums src).ybase at h5
  change (0 : F) < (baseSums src).xbase2 at h6
  have hA : ((baseSums src).xbase, (baseSums src).ybase) ≠ (0, 0) := by
    intro h
    rw [Prod.ext_iff] at h
    dsimp only at h
    rw [h.1, h.2] at h5
    exact lt_irrefl _ h5
  have hB : ((baseSums src).xbase2, (baseSums src).ybase2) ≠ (0, 0) := by
    intro h
    rw [Prod.ext_iff] at h
    dsimp only at h
    rw [h.1] at h6
    exact lt_irrefl _ h6
  have hNA := sq_sum_pos _ hA
  have hNB := sq_sum_pos _ hB
  dsimp only at hNA hNB
  unfold baseVector
  dsimp only
  split
  · exact normalize_unit sqrt _ hNB hsB
  · exact normalize_unit sqrt _ hNA hsA

/-- The aggregation loop ends in the state that its last iteration leaves. -/
theorem aggLoop_eq_last (src : Path F) (xbase ybase : F) (dir : Nat → Int) (num1 : Nat) :
    ∀ (n i : Nat) (s : AggState F) (p : Nat × AggState F),
      (aggTrace src xbase ybase dir num1 n i s).getLast? = some p →
      aggLoop src xbase ybase dir num1 n i s = (aggBody src xbase ybase dir num1 p.1 p.2).1 := by
  intro n
  induction n with
  | zero =>
    intro i s p h
    simp [aggTrace] at h
  | succ n ih =>
    intro i s p h
    unfold aggTrace at h
    unfold aggLoop
    by_cases hb : (aggBody src xbase ybase dir num1 i s).2 = true
    · rw [if_pos hb] at h ⊢
      simp only [List.getLast?_singleton, Option.some.injEq] at h
      rw [← h]
    · rw [if_neg hb] at h ⊢
      cases n with
      | zero =>
        simp only [aggTrace, List.getLast?_singleton, Option.some.injEq] at h
        rw [← h]
        rfl
      | succ m =>
        obtain ⟨q, l, hl⟩ : ∃ q l, aggTrace src xbase ybase dir num1 (m + 1) (i + 1)
            (aggBody src xbase ybase dir num1 i s).1 = q :: l := by
          unfold aggTrace
          exact ⟨_, _, rfl⟩
        rw [hl, List.getLast?_cons_cons, ← hl] at h
        exact ih _ _ p h

/-- The invariant of the aggregation loop is kept by an iteration that does
not leave the loop. -/
theorem AggInv.step {src : Path F} {xbase ybase : F} {dir : Nat → Int} {num1 : Nat}
    {dest0 : Path F} {dg0 : Nat → Nat} {i : Nat} {s : AggState F} (hnum1 : 0 < num1)
    (hP : AggInv src xbase ybase dir num1 dest0 dg0 i s)
    (hb : (aggBody src xbase ybase dir num1 i s).2 = false) :
    AggInv src xbase ybase dir num1 dest0 dg0 (i + 1) (aggBody src xbase ybase dir num1 i s).1 := by
  by_cases hch : dir (i % num1) = s.dirprev
  · rw [aggBody_same _ _ _ _ _ _ _ hch]
    exact hP.keep hch
  · cases hs : s.istart with
    | none =>
      rw [aggBody_none _ _ _ _ _ _ _ hch hs]
      exact hP.start hnum1 hch hs
    | some ist =>
      by_cases hi : i < num1
      · rw [aggBody_next _ _ _ _ _ _ _ ist hch hs hi]
        have hR : AggRun src xbase ybase dir num1 i s ist := by
          unfold AggInv at hP; rw [hs] at hP; exact hP
        have := hR.next hch hi
        unfold AggInv
        exact this
      · rw [aggBody_break _ _ _ _ _ _ _ ist hch hs (by omega)] at hb
        simp at hb

/-- The invariant holds at the start of every iteration that is run. -/
theorem aggTrace_inv (src : Path F) (xbase ybase : F) (dir : Nat → Int) (num1 : Nat)
    (dest0 : Path F) (dg0 : Nat → Nat) (hnum1 : 0 < num1) :
    ∀ (n i : Nat) (s : AggState F), AggInv src xbase ybase dir num1 dest0 dg0 i s →
      ∀ p, p ∈ aggTrace src xbase ybase dir num1 n i s →
        AggInv src xbase ybase dir num1 dest0 dg0 p.1 p.2 := by
  intro n
  induction n with
  | zero =>
    intro i s _ p hp
    simp [aggTrace] at hp
  | succ n ih =>
    intro i s hP p hp
    unfold aggTrace at hp
    rcases List.mem_cons.mp hp with rfl | hp
    · exact hP
    · by_cases hb : (aggBody src xbase ybase dir num1 i s).2 = true
      · rw [if_pos hb] at hp
        exact absurd hp (List.not_mem_nil p)
      · rw [if_neg hb] at hp
        exact ih _ _ (hP.step hnum1 (by simpa using hb)) p hp

/-- In a state of the aggregation loop the read `dir[i]` of line 314 has an
index below `num1` and the writes to `dest` have indices up to `num1`. -/
theorem AggInv.access {src : Path F} {xbase ybase : F} {dir : Nat → Int} {num1 : Nat}
    {dest0 : Path F} {dg0 : Nat → Nat} {i : Nat} {s : AggState F} (hnum1 : 0 < num1)
    (hP : AggInv src xbase ybase dir num1 dest0 dg0 i s) :
    (∀ k, aggDirRead dir num1 i s = some k → k < num1) ∧
      (∀ k, k ∈ aggDestWrites dir num1 i s → k ≤ num1) := by
  unfold aggDirRead aggDestWrites
  by_cases hch : dir (i % num1) = s.dirprev
  · rw [if_neg (not_not.mpr hch), if_neg (not_not.mpr hch)]
    exact ⟨fun k h => by simp at h, fun k h => by simp at h⟩
  · rw [if_pos hch, if_pos hch]
    unfold AggInv at hP
    cases hs : s.istart with
    | none =>
      rw [hs] at hP
      dsimp only
      obtain ⟨-, h2, h3, -, -⟩ := hP
      refine ⟨?_, fun k h => by simp at h⟩
      intro k hk
      injection hk with hk
      subst hk
      by_contra hge
      have hlt : i % num1 < i := lt_of_lt_of_le (Nat.mod_lt i hnum1) (not_lt.mp hge)
      have := h3 (i % num1) hlt
      rw [Nat.mod_mod, ← h2] at this
      exact hch this
    | some ist =>
      rw [hs] at hP
      dsimp only
      have h1 := hP.count
      have h2 := hP.lt_num1
      constructor
      · intro k hk
        by_cases hi : i ≥ num1
        · rw [if_pos hi] at hk
          simp at hk
        · rw [if_neg hi] at hk
          injection hk with hk
          omega
      · intro k hk
        by_cases hi : i ≥ num1
        · rw [if_pos hi] at hk
          simp only [List.mem_cons, List.mem_singleton, List.not_mem_nil, or_false] at hk
          omega
        · rw [if_neg hi] at hk
          simp only [List.mem_cons, List.mem_singleton, List.not_mem_nil, or_false] at hk
          omega

theorem reconstruct_zero (xbase ybase : F) (d : Path F) :
    (reconstruct xbase ybase d 0).x 0 = d.x 0 ∧ (reconstruct xbase ybase d 0).y 0 = d.y 0 := by
  unfold reconstruct
  dsimp only
  rw [List.range_zero, List.foldl_nil, Function.update_same, Function.update_same]
  exact ⟨rfl, rfl⟩

/-- The passes over a shifted source with a unit base vector return a path
all of whose points are shifted, when the first of the passes makes a group
or starts from arrays whose node 0 is shifted: a pass that makes no group
returns the node 0 that it found. -/
theorem recalcOrtho_shift_nodes (tx ty : F) (src : Path F) (xbase ybase collapseLen : F)
    (hnum : 2 ≤ src.num) (hunit : xbase * xbase + ybase * ybase = 1) :
    ∀ (fuel : Nat) (dir1 dir2 : Nat → Int) (dg1 dg2 : Nat → Nat) (dest1 dest2 : Path F),
      BinaryDir dir1 (src.num - 1) → SameDir dir1 dir2 (src.num - 1) →
      ((dest2.x 0 = dest1.x 0 + tx ∧ dest2.y 0 = dest1.y 0 + ty) ∨
        0 < (aggregate src xbase ybase dir1 dest1 dg1).num2) →
      ∀ st1 st2, recalcOrtho src xbase ybase collapseLen fuel dir1 dg1 dest1 = some st1 →
        recalcOrtho (shiftPath tx ty src) xbase ybase collapseLen fuel dir2 dg2 dest2 = some st2 →
        ∀ g, g ≤ st1.num2 →
          st2.dest.x g = st1.dest.x g + tx ∧ st2.dest.y g = st1.dest.y g + ty := by
  intro fuel
  induction fuel with
  | zero =>
    intro dir1 dir2 dg1 dg2 dest1 dest2 _ _ _ st1 st2 h
    simp [recalcOrtho] at h
  | succ n ih =>
    intro dir1 dir2 dg1 dg2 dest1 dest2 hb hd hstart
    obtain ⟨h1, h2⟩ := pass_shift tx ty src xbase ybase collapseLen dir1 dir2 dest1 dest2 dg1 dg2
      hnum hunit hb hd
    obtain ⟨hn, hc⟩ := aggregate_shift tx ty src xbase ybase dir1 dir2 dest1 dest2 dg1 dg2 hnum
      hb hd
    have hout : ∀ g, g ≤ (aggregate src xbase ybase dir1 dest1 dg1).num2 →
        (reconstruct xbase ybase (aggregate (shiftPath tx ty src) xbase ybase dir2 dest2 dg2).dest
            (aggregate (shiftPath tx ty src) xbase ybase dir2 dest2 dg2).num2).x g =
          (reconstruct xbase ybase (aggregate src xbase ybase dir1 dest1 dg1).dest
            (aggregate src xbase ybase dir1 dest1 dg1).num2).x g + tx ∧
        (reconstruct xbase ybase (aggregate (shiftPath tx ty src) xbase ybase dir2 dest2 dg2).dest
            (aggregate (shiftPath tx ty src) xbase ybase dir2 dest2 dg2).num2).y g =
          (reconstruct xbase ybase (aggregate src xbase ybase dir1 dest1 dg1).dest
            (aggregate src xbase ybase dir1 dest1 dg1).num2).y g + ty := by
      intro g hg
      by_cases hpos : 0 < (aggregate src xbase ybase dir1 dest1 dg1).num2
      · rw [← hn]
        exact reconstruct_shift tx ty xbase ybase _ _ _ hunit hpos (fun k hk => (hc k hk).2) g hg
      · have h0 : (aggregate src xbase ybase dir1 dest1 dg1).num2 = 0 := by omega
        have hP : dest2.x 0 = dest1.x 0 + tx ∧ dest2.y 0 = dest1.y 0 + ty := by
          rcases hstart with h | h
          · exact h
          · exact absurd h hpos
        have hd1 : (aggregate src xbase ybase dir1 dest1 dg1).dest = dest1 := by
          rcases aggregate_spec src xbase ybase dir1 dest1 dg1 hnum with ⟨-, h, -⟩ | hp
          · exact h
          · have := hp.two_le
            omega
        have hd2 : (aggregate (shiftPath tx ty src) xbase ybase dir2 dest2 dg2).dest = dest2 := by
          rcases aggregate_spec (shiftPath tx ty src) xbase ybase dir2 dest2 dg2 hnum with
            ⟨-, h, -⟩ | hp
          · exact h
          · have := hp.two_le
            omega
        have hg0 : g = 0 := by omega
        rw [← hn, h0, hd1, hd2, hg0, (reconstruct_zero xbase ybase dest1).1,
          (reconstruct_zero xbase ybase dest1).2, (reconstruct_zero xbase ybase dest2).1,
          (reconstruct_zero xbase ybase dest2).2]
        exact hP
    intro st1 st2
    unfold recalcOrtho
    dsimp only
    by_cases hcl : collapseLen > 0
    · rw [if_pos hcl, if_pos hcl]
      by_cases hf : (collapsePass src
          (reconstruct xbase ybase (aggregate src xbase ybase dir1 dest1 dg1).dest
            (aggregate src xbase ybase dir1 dest1 dg1).num2)
          (aggregate src xbase ybase dir1 dest1 dg1).dirgroup collapseLen dir1).2 > 0
      · rw [if_pos hf, if_pos (by rw [← h2]; exact hf)]
        exact ih _ _ _ _ _ _
          (collapsePass_binary src xbase ybase collapseLen dir1 dest1 dg1 hnum hb) h1
          (Or.inl (hout 0 (Nat.zero_le _))) st1 st2
      · rw [if_neg hf, if_neg (by rw [← h2]; exact hf)]
        intro e1 e2
        injection e1 with e1
        injection e2 with e2
        subst e1 e2
        exact fun g hg => hout g hg
    · rw [if_neg hcl, if_neg hcl]
      intro e1 e2
      injection e1 with e1
      injection e2 with e2
      subst e1 e2
      exact fun g hg => hout g hg

/-! ## The claims -/

/-- C1: `OrthogonalizePath` returns 1 exactly for a source with fewer than 5
nodes, returns 2 exactly for a source with at least 5 nodes whose first and
last point differ in `x` or in `y`, and returns neither code exactly for a
source with at least 5 nodes whose first and last point are equal. -/
theorem C1_error_codes (sqrt : F → F) (fuel : Nat) (mem : Fresh F) (dest src : Path F)
    (collapseLen : F) :
    ((∃ d, OrthogonalizePath sqrt fuel mem dest src collapseLen = some (1, d)) ↔ src.num < 5) ∧
    ((∃ d, OrthogonalizePath sqrt fuel mem dest src collapseLen = some (2, d)) ↔
      5 ≤ src.num ∧ (src.x 0 ≠ src.x (src.num - 1) ∨ src.y 0 ≠ src.y (src.num - 1))) ∧
    ((∀ d, OrthogonalizePath sqrt fuel mem dest src collapseLen ≠ some (1, d) ∧
        OrthogonalizePath sqrt fuel mem dest src collapseLen ≠ some (2, d)) ↔
      5 ≤ src.num ∧ src.x 0 = src.x (src.num - 1) ∧ src.y 0 = src.y (src.num - 1)) := by
  unfold OrthogonalizePath
  by_cases h1 : src.num < 5
  · simp only [if_pos h1]
    refine ⟨⟨fun _ => h1, fun _ => ⟨dest, rfl⟩⟩, ⟨?_, ?_⟩, ⟨?_, ?_⟩⟩
    · rintro ⟨d, hd⟩
      simp at hd
    · intro h; omega
    · intro h
      exact absurd rfl (h dest).1
    · intro h; omega
  · simp only [if_neg h1]
    by_cases h2 : src.x 0 ≠ src.x (src.num - 1) ∨ src.y 0 ≠ src.y (src.num - 1)
    · simp only [if_pos h2]
      refine ⟨⟨?_, fun h => absurd h h1⟩, ⟨fun _ => ⟨by omega, h2⟩, fun _ => ⟨dest, rfl⟩⟩,
        ⟨?_, ?_⟩⟩
      · rintro ⟨d, hd⟩
        simp at hd
      · intro h
        exact absurd rfl (h dest).2
      · rintro ⟨-, hx, hy⟩
        rcases h2 with h2 | h2
        · exact absurd hx h2
        · exact absurd hy h2
    · simp only [if_neg h2]
      have h3 : src.x 0 = src.x (src.num - 1) ∧ src.y 0 = src.y (src.num - 1) := by
        constructor
        · by_contra hc; exact h2 (Or.inl hc)
        · by_contra hc; exact h2 (Or.inr hc)
      have hne : ∀ (c : Int) (d : Path F), c ≠ 0 →
          Option.map (fun s => ((0 : Int), s.dest))
            (orthoMain sqrt fuel mem dest src collapseLen) ≠ some (c, d) := by
        intro c d hc h
        rcases hm : orthoMain sqrt fuel mem dest src collapseLen with _ | st
        · rw [hm] at h; simp at h
        · rw [hm] at h
          simp only [Option.map_some', Option.some.injEq, Prod.mk.injEq] at h
          exact hc h.1.symm
      refine ⟨⟨?_, fun h => absurd h h1⟩, ⟨?_, ?_⟩, ⟨fun _ => ⟨by omega, h3⟩, ?_⟩⟩
      · rintro ⟨d, hd⟩
        exact absurd hd (hne 1 d (by decide))
      · rintro ⟨d, hd⟩
        exact absurd hd (hne 2 d (by decide))
      · rintro ⟨-, h⟩
        exact absurd h (by tauto)
      · intro _ d
        exact ⟨hne 1 d (by decide), hne 2 d (by decide)⟩

/-- C2: every vector of the path that a successful call returns, from node
`g` to node `g+1` up to the closing vector that ends in the repeated first
node, and likewise the vector from the last but one node to the first node,
has no component perpendicular to the base vector or no component along
it. -/
theorem C2_rectilinear (sqrt : F → F) (fuel : Nat) (mem : Fresh F) (dest src : Path F)
    (collapseLen : F) (d : Path F)
    (h : OrthogonalizePath sqrt fuel mem dest src collapseLen = some (0, d)) :
    (∀ g, g + 1 < d.num →
      (d.x (g + 1) - d.x g) * (baseVector sqrt src).2 -
          (d.y (g + 1) - d.y g) * (baseVector sqrt src).1 = 0 ∨
      (d.x (g + 1) - d.x g) * (baseVector sqrt src).1 +
          (d.y (g + 1) - d.y g) * (baseVector sqrt src).2 = 0) ∧
    (2 ≤ d.num →
      (d.x 0 - d.x (d.num - 2)) * (baseVector sqrt src).2 -
          (d.y 0 - d.y (d.num - 2)) * (baseVector sqrt src).1 = 0 ∨
      (d.x 0 - d.x (d.num - 2)) * (baseVector sqrt src).1 +
          (d.y 0 - d.y (d.num - 2)) * (baseVector sqrt src).2 = 0) := by
  obtain ⟨hnum, -, st, hst, hd⟩ := (OrthogonalizePath_ok sqrt fuel mem dest src collapseLen d).mp h
  obtain ⟨dir1, dg1, dest1, hbin, -, -, -, hdest, -⟩ :=
    orthoMain_final sqrt fuel mem dest src collapseLen st (by omega) hst
  have hall : ∀ g, g + 1 < d.num →
      (d.x (g + 1) - d.x g) * (baseVector sqrt src).2 -
          (d.y (g + 1) - d.y g) * (baseVector sqrt src).1 = 0 ∨
      (d.x (g + 1) - d.x g) * (baseVector sqrt src).1 +
          (d.y (g + 1) - d.y g) * (baseVector sqrt src).2 = 0 := by
    intro g hg
    rw [← hd, hdest] at hg ⊢
    have hg2 : g < (aggregate src (baseVector sqrt src).1 (baseVector sqrt src).2
        dir1 dest1 dg1).num2 := by
      have : (reconstruct (baseVector sqrt src).1 (baseVector sqrt src).2
          (aggregate src (baseVector sqrt src).1 (baseVector sqrt src).2 dir1 dest1 dg1).dest
          (aggregate src (baseVector sqrt src).1 (baseVector sqrt src).2
            dir1 dest1 dg1).num2).num =
          (aggregate src (baseVector sqrt src).1 (baseVector sqrt src).2
            dir1 dest1 dg1).num2 + 1 := rfl
      omega
    rcases aggregate_spec src (baseVector sqrt src).1 (baseVector sqrt src).2 dir1 dest1 dg1
      (by omega) with hz | hp
    · omega
    · exact reconstruct_rect src _ _ dir1 _ hbin hp g hg2
  refine ⟨hall, ?_⟩
  intro h2
  have hcl := result_closed sqrt fuel mem dest src collapseLen d h
  have := hall (d.num - 2) (by omega)
  have he : d.num - 2 + 1 = d.num - 1 := by omega
  rw [he, ← hcl.1, ← hcl.2] at this
  exact this

/-- C2, witness: the call on `stepPath` with `collapseLen = 10` succeeds and
its vectors are along the base vector or perpendicular to it. -/
theorem C2_rectilinear_witness :
    ∃ d, OrthogonalizePath ratSqrt 3 zeroMem stepPath stepPath 10 = some (0, d) ∧
      (∀ g, g + 1 < d.num →
        (d.x (g + 1) - d.x g) * (baseVector ratSqrt stepPath).2 -
            (d.y (g + 1) - d.y g) * (baseVector ratSqrt stepPath).1 = 0 ∨
        (d.x (g + 1) - d.x g) * (baseVector ratSqrt stepPath).1 +
            (d.y (g + 1) - d.y g) * (baseVector ratSqrt stepPath).2 = 0) ∧
      (2 ≤ d.num →
        (d.x 0 - d.x (d.num - 2)) * (baseVector ratSqrt stepPath).2 -
            (d.y 0 - d.y (d.num - 2)) * (baseVector ratSqrt stepPath).1 = 0 ∨
        (d.x 0 - d.x (d.num - 2)) * (baseVector ratSqrt stepPath).1 +
            (d.y 0 - d.y (d.num - 2)) * (baseVector ratSqrt stepPath).2 = 0) := by
  have hc : (OrthogonalizePath ratSqrt 3 zeroMem stepPath stepPath 10).map Prod.fst = some 0 := by
    decide!
  rcases h : OrthogonalizePath ratSqrt 3 zeroMem stepPath stepPath 10 with _ | ⟨c, d⟩
  · rw [h] at hc
    simp at hc
  · rw [h] at hc
    simp only [Option.map_some', Option.some.injEq] at hc
    subst hc
    exact ⟨d, rfl, C2_rectilinear ratSqrt 3 zeroMem stepPath stepPath 10 d h⟩

/-- C3: with a positive `collapseLen`, no vector of the path that a
successful call returns is shorter than `collapseLen`: the squared distance
of every two consecutive nodes is at least `collapseLen * collapseLen`. -/
theorem C3_no_short_vector (sqrt : F → F) (fuel : Nat) (mem : Fresh F) (dest src : Path F)
    (collapseLen : F) (d : Path F) (hc : 0 < collapseLen)
    (h : OrthogonalizePath sqrt fuel mem dest src collapseLen = some (0, d)) :
    ∀ i, 1 ≤ i → i < d.num → collapseLen * collapseLen ≤ edgeLen2 d i := by
  obtain ⟨hnum, -, st, hst, hd⟩ := (OrthogonalizePath_ok sqrt fuel mem dest src collapseLen d).mp h
  obtain ⟨dir1, dg1, dest1, -, -, -, -, -, hshort⟩ :=
    orthoMain_final sqrt fuel mem dest src collapseLen st (by omega) hst
  intro i hi1 hi2
  rw [← hd] at hi2 ⊢
  exact not_lt.mp (hshort hc i hi1 hi2)

/-- C3, witness: the call on `stepPath` with `collapseLen = 10` succeeds and
returns no vector shorter than 10. -/
theorem C3_no_short_vector_witness :
    ∃ d, OrthogonalizePath ratSqrt 3 zeroMem stepPath stepPath 10 = some (0, d) ∧
      ∀ i, 1 ≤ i → i < d.num → (10 : ℚ) * 10 ≤ edgeLen2 d i := by
  have hc : (OrthogonalizePath ratSqrt 3 zeroMem stepPath stepPath 10).map Prod.fst = some 0 := by
    decide!
  rcases h : OrthogonalizePath ratSqrt 3 zeroMem stepPath stepPath 10 with _ | ⟨c, d⟩
  · rw [h] at hc
    simp at hc
  · rw [h] at hc
    simp only [Option.map_some', Option.some.injEq] at hc
    subst hc
    exact ⟨d, rfl, C3_no_short_vector ratSqrt 3 zeroMem stepPath stepPath 10 d (by norm_num) h⟩

/-- C4, the code at the failing input: `loopPath` is a closed path with 7
nodes; only the closing vector of its uncollapsed output is shorter than 10;
with `collapseLen = 10` the group of this vector is the last one, for which
the loop of lines 373-374 runs from the start of the last group to the start
of the first and changes nothing, while the flag is raised: no number of
passes brings `OrthogonalizePath` to an end, whatever the fresh arrays
hold. -/
theorem C4_closing_vector_loops :
    (5 ≤ loopPath.num ∧ loopPath.x 0 = loopPath.x (loopPath.num - 1) ∧
      loopPath.y 0 = loopPath.y (loopPath.num - 1)) ∧
    (∃ du, OrthogonalizePath ratSqrt 1 zeroMem loopPath loopPath 0 = some (0, du) ∧
      du.num = 7 ∧ ∀ j, 1 ≤ j → j < du.num → (Undersized du 10 j ↔ j = 6)) ∧
    ∀ (fuel : Nat) (mem : Fresh ℚ) (dest : Path ℚ),
      OrthogonalizePath ratSqrt fuel mem dest loopPath 10 = none := by
  refine ⟨by decide!, loopPath_uncollapsed, ?_⟩
  intro fuel mem dest
  have hflag : 0 < loopPass.2 := by decide!
  have hsame : ∀ e, e < loopPath.num - 1 → loopPass.1 e = loopDir e := by decide!
  have hclosed : ¬ (loopPath.x 0 ≠ loopPath.x (loopPath.num - 1) ∨
      loopPath.y 0 ≠ loopPath.y (loopPath.num - 1)) := by decide!
  have hnum : ¬ loopPath.num < 5 := by decide
  unfold OrthogonalizePath
  rw [if_neg hnum, if_neg hclosed]
  have hdiv := recalcOrtho_diverges loopPath (baseVector ratSqrt loopPath).1
    (baseVector ratSqrt loopPath).2 10 loopDir loopPath zeroMem.dirgroup (by decide) (by norm_num)
    (fillDir_binary _ _ _ _) hflag hsame fuel
    (fillDir loopPath (baseVector ratSqrt loopPath).1 (baseVector ratSqrt loopPath).2 mem.dir)
    mem.dirgroup (dest.Alloc loopPath.num mem.x mem.y) (fillDir_sameDir _ _ _ _ _)
  unfold orthoMain
  dsimp only
  rw [hdiv]
  rfl

/-- C5: the path that a successful call returns has one point more than
there are groups, the groups being the maximal cyclic runs of equal flags in
the final flags, and at most as many points as the source; with a square
root that is positive on positive numbers the square of Scenario 1 gives 4
groups and 5 points. -/
theorem C5_point_count (sqrt : F → F) (fuel : Nat) (mem : Fresh F) (dest src : Path F)
    (collapseLen : F) (d : Path F)
    (h : OrthogonalizePath sqrt fuel mem dest src collapseLen = some (0, d)) :
    (∃ st, orthoMain sqrt fuel mem dest src collapseLen = some st ∧ st.dest = d ∧
      d.num = st.num2 + 1 ∧ st.num2 = groupCount st.dir (src.num - 1) ∧ d.num ≤ src.num) ∧
    ((∀ a, 0 < a → 0 < sqrt a) →
      ∃ st, orthoMain sqrt fuel mem dest squarePath 0 = some st ∧
        OrthogonalizePath sqrt fuel mem dest squarePath 0 = some (0, st.dest) ∧
        st.num2 = 4 ∧ st.dest.num = 5) := by
  obtain ⟨hnum, -, st, hst, hd⟩ := (OrthogonalizePath_ok sqrt fuel mem dest src collapseLen d).mp h
  obtain ⟨dir1, dg1, dest1, -, hdir, hn2, -, hdest, -⟩ :=
    orthoMain_final sqrt fuel mem dest src collapseLen st (by omega) hst
  have hfuel : fuel ≠ 0 := by
    rintro rfl
    simp [orthoMain, recalcOrtho] at hst
  constructor
  · refine ⟨st, hst, hd, ?_, ?_, ?_⟩
    · rw [← hd, hdest, hn2]
      rfl
    · rw [hn2, hdir]
      exact aggregate_num2 _ _ _ _ _ _ (by omega)
    · rw [← hd, hdest]
      exact aggregate_num2_le _ _ _ _ _ _ (by omega)
  · intro hs
    obtain ⟨n, rfl⟩ := Nat.exists_eq_succ_of_ne_zero hfuel
    exact squarePath_result sqrt hs n mem dest

/-- C5, witness: the call on `stepPath` with `collapseLen = 10` succeeds;
its result has one point more than groups and at most the 7 points of the
source. -/
theorem C5_point_count_witness :
    ∃ d, OrthogonalizePath ratSqrt 3 zeroMem stepPath stepPath 10 = some (0, d) ∧
      (∃ st, orthoMain ratSqrt 3 zeroMem stepPath stepPath 10 = some st ∧ st.dest = d ∧
        d.num = st.num2 + 1 ∧ st.num2 = groupCount st.dir (stepPath.num - 1) ∧
        d.num ≤ stepPath.num) ∧
      ((∀ a, 0 < a → 0 < ratSqrt a) →
        ∃ st, orthoMain ratSqrt 3 zeroMem stepPath squarePath 0 = some st ∧
          OrthogonalizePath ratSqrt 3 zeroMem stepPath squarePath 0 = some (0, st.dest) ∧
          st.num2 = 4 ∧ st.dest.num = 5) := by
  have hc : (OrthogonalizePath ratSqrt 3 zeroMem stepPath stepPath 10).map Prod.fst = some 0 := by
    decide!
  rcases h : OrthogonalizePath ratSqrt 3 zeroMem stepPath stepPath 10 with _ | ⟨c, d⟩
  · rw [h] at hc
    simp at hc
  · rw [h] at hc
    simp only [Option.map_some', Option.some.injEq] at hc
    subst hc
    exact ⟨d, rfl, C5_point_count ratSqrt 3 zeroMem stepPath stepPath 10 d h⟩

/-- C6: the first and the last point of the path that a successful call
returns have equal `x` and equal `y`. -/
theorem C6_output_closed (sqrt : F → F) (fuel : Nat) (mem : Fresh F) (dest src : Path F)
    (collapseLen : F) (d : Path F)
    (h : OrthogonalizePath sqrt fuel mem dest src collapseLen = some (0, d)) :
    d.x 0 = d.x (d.num - 1) ∧ d.y 0 = d.y (d.num - 1) :=
  result_closed sqrt fuel mem dest src collapseLen d h

/-- C6, witness: the call on `stepPath` with `collapseLen = 10` succeeds and
returns a closed path. -/
theorem C6_output_closed_witness :
    ∃ d, OrthogonalizePath ratSqrt 3 zeroMem stepPath stepPath 10 = some (0, d) ∧
      d.x 0 = d.x (d.num - 1) ∧ d.y 0 = d.y (d.num - 1) := by
  have hc : (OrthogonalizePath ratSqrt 3 zeroMem stepPath stepPath 10).map Prod.fst = some 0 := by
    decide!
  rcases h : OrthogonalizePath ratSqrt 3 zeroMem stepPath stepPath 10 with _ | ⟨c, d⟩
  · rw [h] at hc
    simp at hc
  · rw [h] at hc
    simp only [Option.map_some', Option.some.injEq] at hc
    subst hc
    exact ⟨d, rfl, C6_output_closed ratSqrt 3 zeroMem stepPath stepPath 10 d h⟩

/-- C7, as amended: for a source with at least 5 nodes, when the flags of
the vectors are not all equal, the groups of the aggregation (group `g` from
`dirgroup[g]` up to the start of the next group, the last group wrapping
round to the start of the first) have increasing starts among the vectors,
every vector belongs to exactly one group, the vectors of a group have the
flag of its start, and the flag changes at the start of every group and at
the start of the group that follows it cyclically; when the flags are all
equal the aggregation makes no group. -/
theorem C7_groups_partition (src : Path F) (xbase ybase : F) (dir : Nat → Int)
    (dest : Path F) (dirgroup : Nat → Nat) (hnum : 5 ≤ src.num) :
    ((∃ e1 e2, e1 < src.num - 1 ∧ e2 < src.num - 1 ∧ dir e1 ≠ dir e2) →
      (∀ e, e < src.num - 1 → ∃! g, g < (aggregate src xbase ybase dir dest dirgroup).num2 ∧
        InGroup (aggregate src xbase ybase dir dest dirgroup).dirgroup
          (aggregate src xbase ybase dir dest dirgroup).num2 g e) ∧
      (∀ g, g + 1 < (aggregate src xbase ybase dir dest dirgroup).num2 →
        (aggregate src xbase ybase dir dest dirgroup).dirgroup g <
          (aggregate src xbase ybase dir dest dirgroup).dirgroup (g + 1)) ∧
      (∀ g, g < (aggregate src xbase ybase dir dest dirgroup).num2 →
        (aggregate src xbase ybase dir dest dirgroup).dirgroup g < src.num - 1 ∧
        (∀ e, e < src.num - 1 →
          InGroup (aggregate src xbase ybase dir dest dirgroup).dirgroup
            (aggregate src xbase ybase dir dest dirgroup).num2 g e →
          dir e = dir ((aggregate src xbase ybase dir dest dirgroup).dirgroup g)) ∧
        dir (cpred (src.num - 1) ((aggregate src xbase ybase dir dest dirgroup).dirgroup g)) ≠
          dir ((aggregate src xbase ybase dir dest dirgroup).dirgroup g) ∧
        dir ((aggregate src xbase ybase dir dest dirgroup).dirgroup
            (if g + 1 < (aggregate src xbase ybase dir dest dirgroup).num2 then g + 1 else 0)) ≠
          dir ((aggregate src xbase ybase dir dest dirgroup).dirgroup g))) ∧
    ((∀ e1 e2, e1 < src.num - 1 → e2 < src.num - 1 → dir e1 = dir e2) →
      (aggregate src xbase ybase dir dest dirgroup).num2 = 0) := by
  constructor
  · intro hvar
    have hp := aggregate_post src xbase ybase dir dest dirgroup (by omega) hvar
    refine ⟨?_, hp.sorted, ?_⟩
    · intro e _
      obtain ⟨g, hg, hin⟩ := hp.exists_group e
      refine ⟨g, ⟨hg, hin⟩, ?_⟩
      rintro g2 ⟨hg2, hin2⟩
      exact hp.group_unique e g2 g hg2 hg hin2 hin
    · intro g hg
      exact ⟨hp.lt_num1 g hg, fun e he hin => hp.inGroup_dir g e hg he hin, hp.start_ne g hg,
        hp.next_ne g hg⟩
  · intro hall
    rw [aggregate_num2 src xbase ybase dir dest dirgroup (by omega)]
    unfold groupCount
    rw [groupStarts_const dir (src.num - 1) (fun e he => hall e _ he (by omega))]
    rfl

/-- C7, witness: the flags 0, 1, 0, 1 of a source with 5 nodes make groups
that partition its vectors; the flags of `flatPath`, which are all equal,
make no group. -/
theorem C7_groups_partition_witness :
    ((5 ≤ (squarePath : Path ℚ).num ∧
        ∃ e1 e2, e1 < (squarePath : Path ℚ).num - 1 ∧ e2 < (squarePath : Path ℚ).num - 1 ∧
          altDir e1 ≠ altDir e2) ∧
      (∀ e, e < (squarePath : Path ℚ).num - 1 →
        ∃! g, g < altAgg.num2 ∧ InGroup altAgg.dirgroup altAgg.num2 g e) ∧
      (∀ g, g + 1 < altAgg.num2 → altAgg.dirgroup g < altAgg.dirgroup (g + 1)) ∧
      (∀ g, g < altAgg.num2 →
        altAgg.dirgroup g < (squarePath : Path ℚ).num - 1 ∧
        (∀ e, e < (squarePath : Path ℚ).num - 1 → InGroup altAgg.dirgroup altAgg.num2 g e →
          altDir e = altDir (altAgg.dirgroup g)) ∧
        altDir (cpred ((squarePath : Path ℚ).num - 1) (altAgg.dirgroup g)) ≠
          altDir (altAgg.dirgroup g) ∧
        altDir (altAgg.dirgroup (if g + 1 < altAgg.num2 then g + 1 else 0)) ≠
          altDir (altAgg.dirgroup g))) ∧
    ((5 ≤ flatPath.num ∧
        ∀ e1 e2, e1 < flatPath.num - 1 → e2 < flatPath.num - 1 →
          initDir ratSqrt zeroMem flatPath e1 = initDir ratSqrt zeroMem flatPath e2) ∧
      flatAgg.num2 = 0) := by
  have hall : ∀ e1 e2, e1 < flatPath.num - 1 → e2 < flatPath.num - 1 →
      initDir ratSqrt zeroMem flatPath e1 = initDir ratSqrt zeroMem flatPath e2 := by
    have h0 : ∀ e, e < flatPath.num - 1 → initDir ratSqrt zeroMem flatPath e = 0 := by
      decide!
    intro e1 e2 h1 h2
    rw [h0 e1 h1, h0 e2 h2]
  exact ⟨⟨⟨Nat.le_refl 5, 0, 1, by decide, by decide, by decide⟩,
      (C7_groups_partition squarePath 1 0 altDir squarePath (fun _ => 0) (Nat.le_refl 5)).1
        ⟨0, 1, by decide, by decide, by decide⟩⟩,
    ⟨Nat.le_refl 5, hall⟩,
    (C7_groups_partition flatPath (baseVector ratSqrt flatPath).1 (baseVector ratSqrt flatPath).2
      (initDir ratSqrt zeroMem flatPath) (flatPath.Alloc flatPath.num zeroMem.x zeroMem.y)
      zeroMem.dirgroup (Nat.le_refl 5)).2 hall⟩

/-- C7, counterexample: all vectors of `flatPath` are labelled along, the
aggregation makes no group, so that the first vector belongs to no group. -/
theorem C7_counterexample :
    (5 ≤ flatPath.num ∧ flatPath.x 0 = flatPath.x (flatPath.num - 1) ∧
      flatPath.y 0 = flatPath.y (flatPath.num - 1)) ∧
    ¬ (∀ e, e < flatPath.num - 1 →
      ∃! g, g < flatAgg.num2 ∧ InGroup flatAgg.dirgroup flatAgg.num2 g e) := by
  have h0 : flatAgg.num2 = 0 := by decide!
  refine ⟨by decide!, ?_⟩
  intro h
  obtain ⟨g, ⟨hg, -⟩, -⟩ := h 0 (by decide)
  rw [h0] at hg
  exact absurd hg (Nat.not_lt_zero g)

/-- C8: when a vector of the source has non-zero length, neither of the two
folded sums is the zero vector, with an exact square root the two
normalisations do not divide by zero, and the selected base vector has
length 1. -/
theorem C8_base_unit (sqrt : F → F) (src : Path F)
    (hedge : ∃ i, 1 ≤ i ∧ i < src.num ∧ edgeVec src i ≠ (0, 0))
    (hsqrt : ∀ a, 0 ≤ a → sqrt a * sqrt a = a) :
    ((baseSums src).xbase, (baseSums src).ybase) ≠ (0, 0) ∧
    ((baseSums src).xbase2, (baseSums src).ybase2) ≠ (0, 0) ∧
    sqrt ((baseSums src).xbase * (baseSums src).xbase +
      (baseSums src).ybase * (baseSums src).ybase) ≠ 0 ∧
    sqrt ((baseSums src).xbase2 * (baseSums src).xbase2 +
      (baseSums src).ybase2 * (baseSums src).ybase2) ≠ 0 ∧
    (baseVector sqrt src).1 * (baseVector sqrt src).1 +
      (baseVector sqrt src).2 * (baseVector sqrt src).2 = 1 := by
  obtain ⟨i, hi1, hi2, hne⟩ := hedge
  have hmem : i ∈ List.range' 1 (src.num - 1) := by
    rw [List.mem_range'_1]
    omega
  obtain ⟨⟨h1, h2, h3⟩, h4⟩ := baseSums_loop src (List.range' 1 (src.num - 1)) ⟨0, 0, 0, 0⟩
  obtain ⟨h5, h6⟩ := h4 ⟨i, hmem, hne⟩
  change (0 : F) ≤ (baseSums src).xbase at h1
  change (0 : F) ≤ (baseSums src).ybase at h2
  change (0 : F) + 0 < (baseSums src).xbase + (baseSums src).ybase at h5
  change (0 : F) < (baseSums src).xbase2 at h6
  have hA : ((baseSums src).xbase, (baseSums src).ybase) ≠ (0, 0) := by
    intro h
    rw [Prod.ext_iff] at h
    dsimp only at h
    rw [h.1, h.2] at h5
    exact lt_irrefl _ h5
  have hB : ((baseSums src).xbase2, (baseSums src).ybase2) ≠ (0, 0) := by
    intro h
    rw [Prod.ext_iff] at h
    dsimp only at h
    rw [h.1] at h6
    exact lt_irrefl _ h6
  have hNA := sq_sum_pos _ hA
  have hNB := sq_sum_pos _ hB
  dsimp only at hNA hNB
  have hsA := hsqrt _ hNA.le
  have hsB := hsqrt _ hNB.le
  refine ⟨hA, hB, ?_, ?_, ?_⟩
  · intro h0
    rw [h0, mul_zero] at hsA
    exact hNA.ne hsA
  · intro h0
    rw [h0, mul_zero] at hsB
    exact hNB.ne hsB
  · unfold baseVector
    dsimp only
    split
    · exact normalize_unit sqrt _ hNB hsB
    · exact normalize_unit sqrt _ hNA hsA

/-- C8, witness: the square of Scenario 1 over the real numbers with the
real square root. -/
theorem C8_base_unit_witness :
    (∃ i, 1 ≤ i ∧ i < (squarePath : Path ℝ).num ∧ edgeVec (squarePath : Path ℝ) i ≠ (0, 0)) ∧
    (∀ a : ℝ, 0 ≤ a → Real.sqrt a * Real.sqrt a = a) ∧
    (baseVector Real.sqrt (squarePath : Path ℝ)).1 * (baseVector Real.sqrt squarePath).1 +
      (baseVector Real.sqrt (squarePath : Path ℝ)).2 * (baseVector Real.sqrt squarePath).2 = 1 :=
  have hedge : ∃ i, 1 ≤ i ∧ i < (squarePath : Path ℝ).num ∧
      edgeVec (squarePath : Path ℝ) i ≠ (0, 0) :=
    ⟨1, le_rfl, by decide, by simp [edgeVec, squarePath, mkPath]⟩
  ⟨hedge, fun _ ha => Real.mul_self_sqrt ha,
    (C8_base_unit Real.sqrt squarePath hedge (fun _ ha => Real.mul_self_sqrt ha)).2.2.2.2⟩

/-- C9, as amended: when exactly one vector of the uncollapsed output is
shorter than a positive `collapseLen` and it is not the closing vector, the
first pass with this `collapseLen` raises the flag and gives the vectors of
the group of the short vector the flag of the vector before the group, which
is also the flag of the group after it, so that two groups fewer are left;
when the call returns after the second pass, its output has two groups (two
vertices) fewer than the uncollapsed output. -/
theorem C9_single_collapse (sqrt : F → F) (mem : Fresh F) (dest src : Path F)
    (collapseLen : F) (du dc : Path F) (i : Nat) (hc : 0 < collapseLen)
    (hu : OrthogonalizePath sqrt 1 mem dest src 0 = some (0, du))
    (hi1 : 1 ≤ i) (hi2 : i + 1 < du.num) (hshort : Undersized du collapseLen i)
    (honly : ∀ j, 1 ≤ j → j < du.num → Undersized du collapseLen j → j = i)
    (h2 : OrthogonalizePath sqrt 2 mem dest src collapseLen = some (0, dc)) :
    du.num = (firstAgg sqrt mem dest src).num2 + 1 ∧
    (collapsePass src du (firstAgg sqrt mem dest src).dirgroup collapseLen
      (initDir sqrt mem src)).2 = 1 ∧
    (∀ e, e < src.num - 1 →
      (collapsePass src du (firstAgg sqrt mem dest src).dirgroup collapseLen
        (initDir sqrt mem src)).1 e =
      if InGroup (firstAgg sqrt mem dest src).dirgroup (firstAgg sqrt mem dest src).num2 (i - 1) e
      then initDir sqrt mem src
        (cpred (src.num - 1) ((firstAgg sqrt mem dest src).dirgroup (i - 1)))
      else initDir sqrt mem src e) ∧
    initDir sqrt mem src (cpred (src.num - 1) ((firstAgg sqrt mem dest src).dirgroup (i - 1))) =
      initDir sqrt mem src ((firstAgg sqrt mem dest src).dirgroup i) ∧
    groupCount
        (collapsePass src du (firstAgg sqrt mem dest src).dirgroup collapseLen
          (initDir sqrt mem src)).1 (src.num - 1) + 2 =
      groupCount (initDir sqrt mem src) (src.num - 1) ∧
    dc.num + 2 = du.num := by
  have hdu := uncollapsed_eq sqrt 0 mem dest src du hu
  obtain ⟨hnum, -, st, hst, hd⟩ :=
    (OrthogonalizePath_ok sqrt 2 mem dest src collapseLen dc).mp h2
  have hbin : BinaryDir (initDir sqrt mem src) (src.num - 1) := fillDir_binary _ _ _ _
  have hnum2 : du.num = (firstAgg sqrt mem dest src).num2 + 1 := by rw [hdu]; rfl
  subst hdu
  have hps := pass_single src (baseVector sqrt src).1 (baseVector sqrt src).2 collapseLen
    (initDir sqrt mem src) (dest.Alloc src.num mem.x mem.y) mem.dirgroup i (by omega) hbin hi1
    (by change i < (firstAgg sqrt mem dest src).num2; omega) hshort
    (fun j hj1 hj2 hj3 => honly j hj1
      (by change j ≤ (firstAgg sqrt mem dest src).num2 at hj2; omega) hj3)
  obtain ⟨p1, p2, p3, p4⟩ := hps
  refine ⟨hnum2, p1, p2, p3, p4, ?_⟩
  unfold orthoMain at hst
  dsimp only at hst
  unfold recalcOrtho at hst
  dsimp only at hst
  rw [if_pos hc] at hst
  have hflag : 0 < (collapsePass src
      (reconstruct (baseVector sqrt src).1 (baseVector sqrt src).2
        (aggregate src (baseVector sqrt src).1 (baseVector sqrt src).2
          (fillDir src (baseVector sqrt src).1 (baseVector sqrt src).2 mem.dir)
          (dest.Alloc src.num mem.x mem.y) mem.dirgroup).dest
        (aggregate src (baseVector sqrt src).1 (baseVector sqrt src).2
          (fillDir src (baseVector sqrt src).1 (baseVector sqrt src).2 mem.dir)
          (dest.Alloc src.num mem.x mem.y) mem.dirgroup).num2)
      (aggregate src (baseVector sqrt src).1 (baseVector sqrt src).2
        (fillDir src (baseVector sqrt src).1 (baseVector sqrt src).2 mem.dir)
        (dest.Alloc src.num mem.x mem.y) mem.dirgroup).dirgroup collapseLen
      (fillDir src (baseVector sqrt src).1 (baseVector sqrt src).2 mem.dir)).2 := by
    have : (1 : Int) = _ := p1.symm
    exact lt_of_lt_of_eq Int.one_pos this
  rw [if_pos hflag] at hst
  have hdc := recalcOrtho_one _ _ _ _ _ _ _ st hst
  rw [← hd, hdc, hnum2]
  show (aggregate _ _ _ _ _ _).num2 + 1 + 2 = _
  rw [aggregate_num2 _ _ _ _ _ _ (by omega)]
  have hf : (firstAgg sqrt mem dest src).num2 = groupCount (initDir sqrt mem src) (src.num - 1) :=
    aggregate_num2 _ _ _ _ _ _ (by omega)
  rw [hf]
  have key : ∀ a b : Nat, a + 2 = b → a + 1 + 2 = b + 1 := by
    intro a b hab
    omega
  exact key _ _ p4

/-- C9, witness: `stepPath` with `collapseLen = 10`; the short vector is the
fourth of the 6 vectors of the uncollapsed output, and the call returns after
the second pass with 5 points instead of 7. -/
theorem C9_single_collapse_witness :
    ∃ du dc, OrthogonalizePath ratSqrt 1 zeroMem stepPath stepPath 0 = some (0, du) ∧
      OrthogonalizePath ratSqrt 2 zeroMem stepPath stepPath 10 = some (0, dc) ∧
      Undersized du 10 4 ∧ (∀ j, 1 ≤ j → j < du.num → Undersized du 10 j → j = 4) ∧
      du.num = 7 ∧ dc.num = 5 ∧
      groupCount
          (collapsePass stepPath du (firstAgg ratSqrt zeroMem stepPath stepPath).dirgroup 10
            (initDir ratSqrt zeroMem stepPath)).1 (stepPath.num - 1) + 2 =
        groupCount (initDir ratSqrt zeroMem stepPath) (stepPath.num - 1) ∧
      dc.num + 2 = du.num := by
  obtain ⟨du, hu, hn, hshort, honly⟩ := stepPath_uncollapsed
  obtain ⟨dc, h2, hm⟩ := stepPath_collapsed 2 (Or.inl rfl)
  have h := C9_single_collapse ratSqrt zeroMem stepPath stepPath 10 du dc 4 (by norm_num) hu
    (by decide) (by omega) hshort honly h2
  exact ⟨du, dc, hu, h2, hshort, honly, hn, hm, h.2.2.2.2.1, h.2.2.2.2.2⟩

/-- C9, counterexample: the uncollapsed output for `stepPath` has exactly
one vector shorter than 10, and the output with `collapseLen = 10` has not
one vertex fewer than the uncollapsed output (it has 5 points instead
of 7). -/
theorem C9_counterexample :
    ¬ (∀ du dc : Path ℚ,
      OrthogonalizePath ratSqrt 1 zeroMem stepPath stepPath 0 = some (0, du) →
      (∃ i, 1 ≤ i ∧ i < du.num ∧ Undersized du 10 i ∧
        ∀ j, 1 ≤ j → j < du.num → Undersized du 10 j → j = i) →
      OrthogonalizePath ratSqrt 3 zeroMem stepPath stepPath 10 = some (0, dc) →
      dc.num + 1 = du.num) := by
  intro hclaim
  obtain ⟨du, hu, hn, hshort, honly⟩ := stepPath_uncollapsed
  obtain ⟨dc, h3, hm⟩ := stepPath_collapsed 3 (Or.inr rfl)
  have := hclaim du dc hu ⟨4, by decide, by omega, hshort, honly⟩ h3
  omega

omit [LinearOrderedField F] in
/-- C10, the code at the failing input: for the text `1 ,2 3` the function
`ParsePath` makes the single node of the numbers `1` and `2`, which lie on
the two sides of the comma, while the usage comment promises the single node
of `2` and `3`. -/
theorem C10_space_before_comma (atof : List Char → F) (fx fy : Nat → F) (x0 y0 : F)
    (dest : Path F) :
    (ParsePath atof fx fy x0 y0 dest ['1', ' ', ',', '2', ' ', '3']).2.nodes =
      [(atof ['1'], atof ['2'])] ∧
    parseDoc atof ['1', ' ', ',', '2', ' ', '3'] = [(atof ['2'], atof ['3'])] := by
  constructor
  · rfl
  · rfl

/-- C11, as amended: for every edge whose weighted and sign-normalised vector
`(x1, y1)` is not strictly between -45 and 0 degrees (not `x1 > |y1|` with
`y1 < 0`), the folded vector `(x4, y4)` of Variant B is one of `(x1, y1)`,
`(-y1, x1)`, `(y1, -x1)`, and for such an edge of non-zero length it lies in
the closed sector from -45 to 45 degrees: `x4 > 0` and `-x4 ≤ y4 ≤ x4`, with
`y4 = -x4` exactly for an edge at 45 degrees (`x1 = y1`). -/
theorem C11_fold_sector (src : Path F) (i : Nat)
    (hns : ¬ ((signNorm (weightEdge (edgeVec src i))).1 >
        |(signNorm (weightEdge (edgeVec src i))).2| ∧
      (signNorm (weightEdge (edgeVec src i))).2 < 0)) :
    (foldB (signNorm (weightEdge (edgeVec src i))) = signNorm (weightEdge (edgeVec src i)) ∨
      foldB (signNorm (weightEdge (edgeVec src i))) =
        (-(signNorm (weightEdge (edgeVec src i))).2, (signNorm (weightEdge (edgeVec src i))).1) ∨
      foldB (signNorm (weightEdge (edgeVec src i))) =
        ((signNorm (weightEdge (edgeVec src i))).2, -(signNorm (weightEdge (edgeVec src i))).1)) ∧
    (edgeVec src i ≠ (0, 0) →
      0 < (foldB (signNorm (weightEdge (edgeVec src i)))).1 ∧
      -(foldB (signNorm (weightEdge (edgeVec src i)))).1 ≤
        (foldB (signNorm (weightEdge (edgeVec src i)))).2 ∧
      (foldB (signNorm (weightEdge (edgeVec src i)))).2 ≤
        (foldB (signNorm (weightEdge (edgeVec src i)))).1 ∧
      ((foldB (signNorm (weightEdge (edgeVec src i)))).2 =
          -(foldB (signNorm (weightEdge (edgeVec src i)))).1 ↔
        (signNorm (weightEdge (edgeVec src i))).1 =
          (signNorm (weightEdge (edgeVec src i))).2)) := by
  have hw := signNorm_fst_nonneg (weightEdge (edgeVec src i))
  obtain ⟨h1, h2, h3, h4⟩ := foldB_sector _ hw hns
  refine ⟨h1, fun hne => ⟨?_, h2, h3, h4⟩⟩
  exact foldB_pos _ hw (signNorm_ne_zero _ (weightEdge_ne_zero _ hne))

/-- C11, witness: the second edge of `foldPath`, the vector `(1, 1)` at 45
degrees, is folded to `(2, -2)` at -45 degrees. -/
theorem C11_fold_sector_witness :
    ¬ ((signNorm (weightEdge (edgeVec foldPath 2))).1 >
        |(signNorm (weightEdge (edgeVec foldPath 2))).2| ∧
      (signNorm (weightEdge (edgeVec foldPath 2))).2 < 0) ∧
    edgeVec foldPath 2 ≠ (0, 0) ∧
    ((foldB (signNorm (weightEdge (edgeVec foldPath 2)))).2 =
        -(foldB (signNorm (weightEdge (edgeVec foldPath 2)))).1 ↔
      (signNorm (weightEdge (edgeVec foldPath 2))).1 =
        (signNorm (weightEdge (edgeVec foldPath 2))).2) :=
  ⟨by decide!, by decide!,
    ((C11_fold_sector foldPath 2 (by decide!)).2 (by decide!)).2.2.2⟩

/-- C11, counterexample: the first edge of `foldPath`, the vector `(2, -1)`,
has the weighted vector `(10, -5)` and the folded vector `(10, 10)`, which
is none of `(10, -5)`, `(5, 10)`, `(-5, -10)`; the second edge, the vector
`(1, 1)`, has length non-zero and the folded vector `(2, -2)`, for which
`-x4 < y4` fails. -/
theorem C11_counterexample :
    signNorm (weightEdge (edgeVec foldPath 1)) = (10, -5) ∧
    foldB (signNorm (weightEdge (edgeVec foldPath 1))) = (10, 10) ∧
    ¬ (foldB (signNorm (weightEdge (edgeVec foldPath 1))) =
        signNorm (weightEdge (edgeVec foldPath 1)) ∨
      foldB (signNorm (weightEdge (edgeVec foldPath 1))) =
        (-(signNorm (weightEdge (edgeVec foldPath 1))).2,
          (signNorm (weightEdge (edgeVec foldPath 1))).1) ∨
      foldB (signNorm (weightEdge (edgeVec foldPath 1))) =
        ((signNorm (weightEdge (edgeVec foldPath 1))).2,
          -(signNorm (weightEdge (edgeVec foldPath 1))).1)) ∧
    edgeVec foldPath 2 ≠ (0, 0) ∧
    foldB (signNorm (weightEdge (edgeVec foldPath 2))) = (2, -2) ∧
    ¬ (-(foldB (signNorm (weightEdge (edgeVec foldPath 2)))).1 <
      (foldB (signNorm (weightEdge (edgeVec foldPath 2)))).2) := by
  decide!

/-- C12, the code at the failing input: the first pass on `loopPath` makes 6
groups, each of a single vector; with `collapseLen = 10` the only short
vector of the path of the pass is the last one (vector 6), made by the last
group, which is the source vector 5 (from the start 5 of the group up to the
start 0 of the first group, over the closing node); when the loop comes to
this group the vector before its start, vector 4, has the flag 0; after the
loop vector 5 still has the flag 1, while the variable `flag` is raised. -/
theorem C12_closing_group_kept :
    (5 ≤ loopPath.num ∧ loopPath.x 0 = loopPath.x (loopPath.num - 1) ∧
      loopPath.y 0 = loopPath.y (loopPath.num - 1)) ∧
    (firstAgg ratSqrt zeroMem loopPath loopPath).num2 = 6 ∧
    (firstOut ratSqrt zeroMem loopPath loopPath).num = 7 ∧
    (∀ j, 1 ≤ j → j < 7 → (Undersized (firstOut ratSqrt zeroMem loopPath loopPath) 10 j ↔ j = 6)) ∧
    (∀ g, g < 6 → (firstAgg ratSqrt zeroMem loopPath loopPath).dirgroup g = g) ∧
    (∀ e, e < 6 → (InGroup (firstAgg ratSqrt zeroMem loopPath loopPath).dirgroup 6 5 e ↔ e = 5)) ∧
    cpred (loopPath.num - 1) ((firstAgg ratSqrt zeroMem loopPath loopPath).dirgroup 5) = 4 ∧
    ((List.range' 1 5).foldl
      (collapseStep loopPath (firstOut ratSqrt zeroMem loopPath loopPath)
        (firstAgg ratSqrt zeroMem loopPath loopPath).dirgroup (10 * 10))
      (initDir ratSqrt zeroMem loopPath, 0)).1 4 = 0 ∧
    (firstPass ratSqrt zeroMem loopPath loopPath 10).1 5 = 1 ∧
    (firstPass ratSqrt zeroMem loopPath loopPath 10).2 = 1 := by
  refine ⟨by decide!, by decide!, by decide!, by decide!, by decide!, by decide!, by decide!,
    by decide!, by decide!, by decide!⟩

/-- C13: the two square errors that the second loop computes for the
candidates of Variant A and of Variant B are their residuals, the sums over
all edges of the smaller of the squared components along and perpendicular
to the candidate; the base vector is the candidate of Variant A when its
residual is at most that of Variant B and the candidate of Variant B
otherwise, so that the residual of the base vector is the smaller of the
two residuals. -/
theorem C13_smaller_residual (sqrt : F → F) (src : Path F) :
    sqErrors src (candA sqrt src) (candB sqrt src) =
      (residual src (candA sqrt src), residual src (candB sqrt src)) ∧
    baseVector sqrt src =
      (if residual src (candA sqrt src) ≤ residual src (candB sqrt src) then candA sqrt src
        else candB sqrt src) ∧
    residual src (baseVector sqrt src) =
      min (residual src (candA sqrt src)) (residual src (candB sqrt src)) := by
  have hb : baseVector sqrt src =
      (if residual src (candA sqrt src) ≤ residual src (candB sqrt src) then candA sqrt src
        else candB sqrt src) := by
    unfold baseVector
    dsimp only
    rw [sqErrors_eq_residual]
    dsimp only
    change (if residual src (candA sqrt src) > residual src (candB sqrt src) then
      candB sqrt src else candA sqrt src) = _
    by_cases h : residual src (candA sqrt src) ≤ residual src (candB sqrt src)
    · rw [if_pos h, if_neg (not_lt.mpr h)]
    · rw [if_neg h, if_pos (not_le.mp h)]
  refine ⟨sqErrors_eq_residual src _ _, hb, ?_⟩
  rw [hb]
  by_cases h : residual src (candA sqrt src) ≤ residual src (candB sqrt src)
  · rw [if_pos h, min_eq_left h]
  · rw [if_neg h, min_eq_right (not_le.mp h).le]

/-- C14: for flags 0 and 1, every group `g` that the aggregation makes runs
from its start `s = dirgroup[g]` to `e`, the start of the next group (for the
last group the start of the first group plus `num-1`), with `s < e`; the
edges `s..e-1` modulo `num-1` carry the flag of the group, and the offset
stored for the group, in the slot of its flag at the nodes `g` and `g+1`
(cyclically), is the arithmetic mean of the line constant of the flag over
the `e-s+1` source points `s..e` modulo `num-1`. -/
theorem C14_group_offset (src : Path F) (xbase ybase : F) (dir : Nat → Int) (dest : Path F)
    (dirgroup : Nat → Nat) (hnum : 5 ≤ src.num) (hb : BinaryDir dir (src.num - 1)) (g : Nat)
    (hg : g < (aggregate src xbase ybase dir dest dirgroup).num2) :
    (aggregate src xbase ybase dir dest dirgroup).dirgroup g <
      nxtFin (src.num - 1) (aggregate src xbase ybase dir dest dirgroup).dirgroup
        (aggregate src xbase ybase dir dest dirgroup).num2 g ∧
    (∀ j, (aggregate src xbase ybase dir dest dirgroup).dirgroup g ≤ j →
      j < nxtFin (src.num - 1) (aggregate src xbase ybase dir dest dirgroup).dirgroup
        (aggregate src xbase ybase dir dest dirgroup).num2 g →
      dir (j % (src.num - 1)) = dir ((aggregate src xbase ybase dir dest dirgroup).dirgroup g)) ∧
    slotAt (dir ((aggregate src xbase ybase dir dest dirgroup).dirgroup g))
        (aggregate src xbase ybase dir dest dirgroup).dest g =
      meanC src xbase ybase (src.num - 1)
        (dir ((aggregate src xbase ybase dir dest dirgroup).dirgroup g))
        ((aggregate src xbase ybase dir dest dirgroup).dirgroup g)
        (nxtFin (src.num - 1) (aggregate src xbase ybase dir dest dirgroup).dirgroup
          (aggregate src xbase ybase dir dest dirgroup).num2 g) ∧
    slotAt (dir ((aggregate src xbase ybase dir dest dirgroup).dirgroup g))
        (aggregate src xbase ybase dir dest dirgroup).dest
        (if g + 1 < (aggregate src xbase ybase dir dest dirgroup).num2 then g + 1 else 0) =
      meanC src xbase ybase (src.num - 1)
        (dir ((aggregate src xbase ybase dir dest dirgroup).dirgroup g))
        ((aggregate src xbase ybase dir dest dirgroup).dirgroup g)
        (nxtFin (src.num - 1) (aggregate src xbase ybase dir dest dirgroup).dirgroup
          (aggregate src xbase ybase dir dest dirgroup).num2 g) := by
  rcases aggregate_spec src xbase ybase dir dest dirgroup (by omega) with ⟨h0, -⟩ | hp
  · omega
  · have hlt := hp.start_lt_fin g hg
    obtain ⟨h1, h2⟩ := hp.slots hb g hg
    rw [groupC_eq_meanC _ _ _ _ _ _ _ hlt.le] at h1 h2
    exact ⟨hlt, hp.same g hg, h1, h2⟩

/-- C14, witness: the first group for the flags 0, 1, 0, 1 over the square
of Scenario 1. -/
theorem C14_group_offset_witness :
    (5 ≤ (squarePath : Path ℚ).num ∧ BinaryDir altDir ((squarePath : Path ℚ).num - 1) ∧
      0 < altAgg.num2) ∧
    slotAt (altDir (altAgg.dirgroup 0)) altAgg.dest 0 =
      meanC squarePath 1 0 ((squarePath : Path ℚ).num - 1) (altDir (altAgg.dirgroup 0))
        (altAgg.dirgroup 0)
        (nxtFin ((squarePath : Path ℚ).num - 1) altAgg.dirgroup altAgg.num2 0) :=
  ⟨⟨Nat.le_refl 5, altDir_binary _, by decide!⟩,
    (C14_group_offset squarePath 1 0 altDir squarePath (fun _ => 0) (Nat.le_refl 5)
      (altDir_binary _) 0 (by decide!)).2.2.1⟩

/-- C15: when a call on a closed source with at least 5 nodes succeeds and
the base vector is a unit vector, every vertex `g` below the number of
groups of the path it returns lies on the lines of group `g` and of the
group cyclically before it: exactly one of the two groups is along, and the
vertex satisfies `x*ybase - y*xbase =` the offset of the along one and
`x*xbase + y*ybase =` the offset of the perpendicular one, the offset of a
group being the mean of its line constant over its source points. -/
theorem C15_vertex_on_lines (sqrt : F → F) (fuel : Nat) (mem : Fresh F) (dest src : Path F)
    (collapseLen : F) (st : OrthoState F) (hnum : 5 ≤ src.num)
    (hclosed : src.x 0 = src.x (src.num - 1) ∧ src.y 0 = src.y (src.num - 1))
    (h : orthoMain sqrt fuel mem dest src collapseLen = some st)
    (hunit : (baseVector sqrt src).1 * (baseVector sqrt src).1 +
      (baseVector sqrt src).2 * (baseVector sqrt src).2 = 1)
    (g : Nat) (hg : g < st.num2) :
    OrthogonalizePath sqrt fuel mem dest src collapseLen = some (0, st.dest) ∧
    st.dest.num = st.num2 + 1 ∧
    ¬ (st.dir (st.dirgroup g) = 0 ↔ st.dir (st.dirgroup (prevGroup st.num2 g)) = 0) ∧
    st.dest.x g * (baseVector sqrt src).2 - st.dest.y g * (baseVector sqrt src).1 =
      meanC src (baseVector sqrt src).1 (baseVector sqrt src).2 (src.num - 1) 0
        (st.dirgroup (if st.dir (st.dirgroup g) = 0 then g else prevGroup st.num2 g))
        (nxtFin (src.num - 1) st.dirgroup st.num2
          (if st.dir (st.dirgroup g) = 0 then g else prevGroup st.num2 g)) ∧
    st.dest.x g * (baseVector sqrt src).1 + st.dest.y g * (baseVector sqrt src).2 =
      meanC src (baseVector sqrt src).1 (baseVector sqrt src).2 (src.num - 1) 1
        (st.dirgroup (if st.dir (st.dirgroup g) = 0 then prevGroup st.num2 g else g))
        (nxtFin (src.num - 1) st.dirgroup st.num2
          (if st.dir (st.dirgroup g) = 0 then prevGroup st.num2 g else g)) := by
  have hok : OrthogonalizePath sqrt fuel mem dest src collapseLen = some (0, st.dest) :=
    (OrthogonalizePath_ok sqrt fuel mem dest src collapseLen st.dest).mpr
      ⟨hnum, hclosed, st, h, rfl⟩
  obtain ⟨dir1, dg1, dest1, hb, hdir, hn2, hdg, hdest, -⟩ :=
    orthoMain_final sqrt fuel mem dest src collapseLen st (by omega) h
  generalize hagg : aggregate src (baseVector sqrt src).1 (baseVector sqrt src).2 dir1 dest1 dg1 =
    agg at hn2 hdg hdest
  have hpost : AggPost src (baseVector sqrt src).1 (baseVector sqrt src).2 dir1 (src.num - 1)
      agg := by
    rcases aggregate_spec src (baseVector sqrt src).1 (baseVector sqrt src).2 dir1 dest1 dg1
      (by omega) with ⟨h0, -⟩ | hp
    · rw [hagg] at h0
      omega
    · rw [hagg] at hp
      exact hp
  rw [hdest] at hok
  rw [hdir, hn2, hdg, hdest]
  rw [hn2] at hg
  have h2 := hpost.two_le
  have hpg : prevGroup agg.num2 g < agg.num2 := by
    unfold prevGroup; split <;> omega
  obtain ⟨a1, a2, a3⟩ := hpost.node_slots hb g hg
  rw [groupC_eq_meanC _ _ _ _ _ _ _ (hpost.start_lt_fin g hg).le] at a1
  rw [groupC_eq_meanC _ _ _ _ _ _ _ (hpost.start_lt_fin _ hpg).le] at a2
  obtain ⟨n1, n2⟩ := reconstruct_node (baseVector sqrt src).1 (baseVector sqrt src).2 agg.dest
    agg.num2 g hg
  refine ⟨hok, rfl, a3, ?_, ?_⟩
  · rw [n1, n2]
    by_cases hl : dir1 (agg.dirgroup g) = 0
    · rw [if_pos hl]
      rw [hl] at a1
      rw [← a1]
      unfold slotAt
      rw [if_pos rfl]
      linear_combination agg.dest.x g * hunit
    · rw [if_neg hl]
      have hl2 : dir1 (agg.dirgroup (prevGroup agg.num2 g)) = 0 := by
        by_contra hc
        exact a3 ⟨fun x => absurd x hl, fun x => absurd x hc⟩
      rw [hl2] at a2
      rw [← a2]
      unfold slotAt
      rw [if_pos rfl]
      linear_combination agg.dest.x g * hunit
  · rw [n1, n2]
    by_cases hl : dir1 (agg.dirgroup g) = 0
    · rw [if_pos hl]
      have hl2 : dir1 (agg.dirgroup (prevGroup agg.num2 g)) = 1 := by
        rcases hb _ (hpost.lt_num1 _ hpg) with hc | hc
        · exact absurd ⟨fun _ => hc, fun _ => hl⟩ a3
        · exact hc
      rw [hl2] at a2
      rw [← a2]
      unfold slotAt
      rw [if_neg (by decide)]
      linear_combination agg.dest.y g * hunit
    · rw [if_neg hl]
      have hl1 : dir1 (agg.dirgroup g) = 1 := by
        rcases hb _ (hpost.lt_num1 _ hg) with hc | hc
        · exact absurd hc hl
        · exact hc
      rw [hl1] at a1
      rw [← a1]
      unfold slotAt
      rw [if_neg (by decide)]
      linear_combination agg.dest.y g * hunit

/-- C15, witness: the call on `stepPath` with `collapseLen = 10` succeeds
with 4 groups and a unit base vector; its first vertex. -/
theorem C15_vertex_on_lines_witness :
    ∃ st, orthoMain ratSqrt 3 zeroMem stepPath stepPath 10 = some st ∧ 0 < st.num2 ∧
      (5 ≤ stepPath.num ∧
        (stepPath.x 0 = stepPath.x (stepPath.num - 1) ∧
          stepPath.y 0 = stepPath.y (stepPath.num - 1)) ∧
        (baseVector ratSqrt stepPath).1 * (baseVector ratSqrt stepPath).1 +
          (baseVector ratSqrt stepPath).2 * (baseVector ratSqrt stepPath).2 = 1) ∧
      st.dest.x 0 * (baseVector ratSqrt stepPath).2 -
          st.dest.y 0 * (baseVector ratSqrt stepPath).1 =
        meanC stepPath (baseVector ratSqrt stepPath).1 (baseVector ratSqrt stepPath).2
          (stepPath.num - 1) 0
          (st.dirgroup (if st.dir (st.dirgroup 0) = 0 then 0 else prevGroup st.num2 0))
          (nxtFin (stepPath.num - 1) st.dirgroup st.num2
            (if st.dir (st.dirgroup 0) = 0 then 0 else prevGroup st.num2 0)) := by
  have hc : (orthoMain ratSqrt 3 zeroMem stepPath stepPath 10).map (fun s => s.num2) =
      some 4 := by
    decide!
  rcases h : orthoMain ratSqrt 3 zeroMem stepPath stepPath 10 with _ | st
  · rw [h] at hc
    simp at hc
  · rw [h] at hc
    simp only [Option.map_some', Option.some.injEq] at hc
    have hpos : 0 < st.num2 := by omega
    exact ⟨st, rfl, hpos, ⟨by decide, by decide!, by decide!⟩,
      (C15_vertex_on_lines ratSqrt 3 zeroMem stepPath stepPath 10 st (by decide) (by decide!) h
        (by decide!) 0 hpos).2.2.2.1⟩

/-- C16: the label with which the first pass starts is 0 (along) for an edge
exactly when the absolute value of its component along the base vector is
strictly greater than the absolute value of its component perpendicular to
it, and 1 (perpendicular) otherwise; in particular an edge with equal
absolute values, and so an edge of length zero, is labelled 1. -/
theorem C16_initial_label (sqrt : F → F) (mem : Fresh F) (src : Path F) (e : Nat)
    (he : e < src.num - 1) :
    (initDir sqrt mem src e = 0 ↔
      |(src.x (e + 1) - src.x e) * (baseVector sqrt src).1 +
          (src.y (e + 1) - src.y e) * (baseVector sqrt src).2| >
        |(src.x (e + 1) - src.x e) * (baseVector sqrt src).2 -
          (src.y (e + 1) - src.y e) * (baseVector sqrt src).1|) ∧
    (initDir sqrt mem src e = 1 ↔
      ¬ |(src.x (e + 1) - src.x e) * (baseVector sqrt src).1 +
          (src.y (e + 1) - src.y e) * (baseVector sqrt src).2| >
        |(src.x (e + 1) - src.x e) * (baseVector sqrt src).2 -
          (src.y (e + 1) - src.y e) * (baseVector sqrt src).1|) ∧
    (|(src.x (e + 1) - src.x e) * (baseVector sqrt src).1 +
          (src.y (e + 1) - src.y e) * (baseVector sqrt src).2| =
        |(src.x (e + 1) - src.x e) * (baseVector sqrt src).2 -
          (src.y (e + 1) - src.y e) * (baseVector sqrt src).1| →
      initDir sqrt mem src e = 1) ∧
    (src.x (e + 1) = src.x e ∧ src.y (e + 1) = src.y e → initDir sqrt mem src e = 1) := by
  have hd : initDir sqrt mem src e =
      if |(src.x (e + 1) - src.x e) * (baseVector sqrt src).1 +
          (src.y (e + 1) - src.y e) * (baseVector sqrt src).2| >
        |(src.x (e + 1) - src.x e) * (baseVector sqrt src).2 -
          (src.y (e + 1) - src.y e) * (baseVector sqrt src).1| then 0 else 1 := by
    unfold initDir
    rw [fillDir_apply, if_pos he]
    rfl
  refine ⟨?_, ?_, ?_, ?_⟩
  · rw [hd]
    split <;> simp_all
  · rw [hd]
    split <;> simp_all
  · intro h
    rw [hd, if_neg]
    rw [h]
    exact lt_irrefl _
  · rintro ⟨hx, hy⟩
    rw [hd, if_neg]
    rw [hx, hy]
    simp

/-- C16, witness: the first edge of the square of Scenario 1 over the
rationals. -/
theorem C16_initial_label_witness :
    0 < (squarePath : Path ℚ).num - 1 ∧
    (|((squarePath : Path ℚ).x (0 + 1) - (squarePath : Path ℚ).x 0) *
          (baseVector ratSqrt squarePath).1 +
          ((squarePath : Path ℚ).y (0 + 1) - (squarePath : Path ℚ).y 0) *
          (baseVector ratSqrt squarePath).2| =
        |((squarePath : Path ℚ).x (0 + 1) - (squarePath : Path ℚ).x 0) *
          (baseVector ratSqrt squarePath).2 -
          ((squarePath : Path ℚ).y (0 + 1) - (squarePath : Path ℚ).y 0) *
          (baseVector ratSqrt squarePath).1| →
      initDir ratSqrt zeroMem squarePath 0 = 1) :=
  ⟨by decide, (C16_initial_label ratSqrt zeroMem squarePath 0 (by decide)).2.2.1⟩

/-- C17: in an aggregation pass over flags 0 and 1 the number of groups is
even and the group that cyclically follows a group has the other flag; the
cells `x` and `y` of every node below the number of groups are written by
the pass: they hold the same values whatever the arrays held before it.
The flags of the first pass are 0 or 1, and a collapse loop leaves flags
that are 0 or 1 for the pass that follows it. -/
theorem C17_even_alternating (src : Path F) (xbase ybase : F) (dir : Nat → Int)
    (dest : Path F) (dirgroup : Nat → Nat) (hnum : 5 ≤ src.num)
    (hb : BinaryDir dir (src.num - 1)) :
    Even (aggregate src xbase ybase dir dest dirgroup).num2 ∧
    (∀ g, g < (aggregate src xbase ybase dir dest dirgroup).num2 →
      dir ((aggregate src xbase ybase dir dest dirgroup).dirgroup
          (if g + 1 < (aggregate src xbase ybase dir dest dirgroup).num2 then g + 1 else 0)) ≠
        dir ((aggregate src xbase ybase dir dest dirgroup).dirgroup g)) ∧
    (∀ g, g < (aggregate src xbase ybase dir dest dirgroup).num2 →
      ∀ (dest2 : Path F) (dirgroup2 : Nat → Nat),
        (aggregate src xbase ybase dir dest2 dirgroup2).dest.x g =
          (aggregate src xbase ybase dir dest dirgroup).dest.x g ∧
        (aggregate src xbase ybase dir dest2 dirgroup2).dest.y g =
          (aggregate src xbase ybase dir dest dirgroup).dest.y g) ∧
    (∀ dir0 : Nat → Int, BinaryDir (fillDir src xbase ybase dir0) (src.num - 1)) ∧
    (∀ collapseLen : F, BinaryDir
      (collapsePass src
        (reconstruct xbase ybase (aggregate src xbase ybase dir dest dirgroup).dest
          (aggregate src xbase ybase dir dest dirgroup).num2)
        (aggregate src xbase ybase dir dest dirgroup).dirgroup collapseLen dir).1
      (src.num - 1)) := by
  have h2 : 2 ≤ src.num := by omega
  refine ⟨?_, ?_, ?_, fun dir0 => fillDir_binary src xbase ybase dir0,
    fun cl => collapsePass_binary src xbase ybase cl dir dest dirgroup h2 hb⟩
  · rcases aggregate_spec src xbase ybase dir dest dirgroup h2 with ⟨h0, -⟩ | hp
    · rw [h0]
      exact even_zero
    · exact hp.even hb
  · intro g hg
    rcases aggregate_spec src xbase ybase dir dest dirgroup h2 with ⟨h0, -⟩ | hp
    · omega
    · exact hp.next_ne g hg
  · intro g hg dest2 dirgroup2
    obtain ⟨-, hc⟩ := aggregate_congr src xbase ybase dir dir dest dest2 dirgroup dirgroup2 h2 hb
      (fun _ _ => rfl)
    obtain ⟨-, hx, hy⟩ := hc g hg
    exact ⟨hx.symm, hy.symm⟩

/-- C17, witness: the flags 0, 1, 0, 1 over the square of Scenario 1 make 4
groups. -/
theorem C17_even_alternating_witness :
    (5 ≤ (squarePath : Path ℚ).num ∧ BinaryDir altDir ((squarePath : Path ℚ).num - 1)) ∧
    altAgg.num2 = 4 ∧ Even altAgg.num2 :=
  ⟨⟨Nat.le_refl 5, altDir_binary _⟩, by decide!,
    (C17_even_alternating squarePath 1 0 altDir squarePath (fun _ => 0) (Nat.le_refl 5)
      (altDir_binary _)).1⟩

/-- C18, the code at the failing input: the first pass on `stairPath` makes
6 groups, each of a single vector, with the flags 0, 1, 0, 1, 0, 1; with
`collapseLen = 10` the short vectors of the path of the pass are the vectors
2 and 3, made by the groups 1 and 2; the source vector 3 belongs to group 3
only, whose vector 4 has the length 100 and is not short; the collapse loop
changes the flag of the source vector 3 from 1 to 0. -/
theorem C18_next_group_changed :
    (5 ≤ stairPath.num ∧ stairPath.x 0 = stairPath.x (stairPath.num - 1) ∧
      stairPath.y 0 = stairPath.y (stairPath.num - 1)) ∧
    (firstAgg ratSqrt zeroMem stairPath stairPath).num2 = 6 ∧
    (firstOut ratSqrt zeroMem stairPath stairPath).num = 7 ∧
    (∀ j, 1 ≤ j → j < 7 →
      (Undersized (firstOut ratSqrt zeroMem stairPath stairPath) 10 j ↔ j = 2 ∨ j = 3)) ∧
    (∀ g, g < 6 → (firstAgg ratSqrt zeroMem stairPath stairPath).dirgroup g = g) ∧
    (∀ g, g < 6 →
      (InGroup (firstAgg ratSqrt zeroMem stairPath stairPath).dirgroup 6 g 3 ↔ g = 3)) ∧
    edgeLen2 (firstOut ratSqrt zeroMem stairPath stairPath) 4 = 100 * 100 ∧
    ¬ Undersized (firstOut ratSqrt zeroMem stairPath stairPath) 10 4 ∧
    initDir ratSqrt zeroMem stairPath 3 = 1 ∧
    (firstPass ratSqrt zeroMem stairPath stairPath 10).1 3 = 0 := by
  refine ⟨by decide!, by decide!, by decide!, by decide!, by decide!, by decide!, by decide!,
    by decide!, by decide!, by decide!⟩

/-- C19, as amended: for a closed source with at least 5 nodes and a vector
of non-zero length, with a square root that is exact on the squared lengths
of the two summed vectors, the source shifted by `(tx, ty)` has the same base
vector and the same flags of the first pass; the call on the shifted source
ends exactly when the call on the source ends, with the same flags and the
same number of points; when the flags of the first pass are not all equal,
and also when the path returned has at least 2 points, every point of the
path returned is the point returned for the source shifted by `(tx, ty)`. -/
theorem C19_translation (sqrt : F → F) (fuel : Nat) (mem mem2 : Fresh F)
    (dest dest2 src : Path F) (collapseLen tx ty : F) (hnum : 5 ≤ src.num)
    (hclosed : src.x 0 = src.x (src.num - 1) ∧ src.y 0 = src.y (src.num - 1))
    (hedge : ∃ i, 1 ≤ i ∧ i < src.num ∧ edgeVec src i ≠ (0, 0))
    (hsA : sqrt ((baseSums src).xbase * (baseSums src).xbase +
        (baseSums src).ybase * (baseSums src).ybase) *
      sqrt ((baseSums src).xbase * (baseSums src).xbase +
        (baseSums src).ybase * (baseSums src).ybase) =
      (baseSums src).xbase * (baseSums src).xbase + (baseSums src).ybase * (baseSums src).ybase)
    (hsB : sqrt ((baseSums src).xbase2 * (baseSums src).xbase2 +
        (baseSums src).ybase2 * (baseSums src).ybase2) *
      sqrt ((baseSums src).xbase2 * (baseSums src).xbase2 +
        (baseSums src).ybase2 * (baseSums src).ybase2) =
      (baseSums src).xbase2 * (baseSums src).xbase2 +
        (baseSums src).ybase2 * (baseSums src).ybase2) :
    baseVector sqrt (shiftPath tx ty src) = baseVector sqrt src ∧
    (∀ e, e < src.num - 1 →
      initDir sqrt mem2 (shiftPath tx ty src) e = initDir sqrt mem src e) ∧
    (OrthogonalizePath sqrt fuel mem2 dest2 (shiftPath tx ty src) collapseLen = none ↔
      OrthogonalizePath sqrt fuel mem dest src collapseLen = none) ∧
    (∀ st st2, orthoMain sqrt fuel mem dest src collapseLen = some st →
      orthoMain sqrt fuel mem2 dest2 (shiftPath tx ty src) collapseLen = some st2 →
      OrthogonalizePath sqrt fuel mem dest src collapseLen = some (0, st.dest) ∧
      OrthogonalizePath sqrt fuel mem2 dest2 (shiftPath tx ty src) collapseLen =
        some (0, st2.dest) ∧
      st2.dest.num = st.dest.num ∧
      (∀ e, e < src.num - 1 → st2.dir e = st.dir e) ∧
      (2 ≤ st.dest.num → ∀ g, g < st.dest.num →
        st2.dest.x g = st.dest.x g + tx ∧ st2.dest.y g = st.dest.y g + ty) ∧
      ((∃ e1 e2, e1 < src.num - 1 ∧ e2 < src.num - 1 ∧
          initDir sqrt mem src e1 ≠ initDir sqrt mem src e2) →
        ∀ g, g < st.dest.num →
          st2.dest.x g = st.dest.x g + tx ∧ st2.dest.y g = st.dest.y g + ty)) := by
  have hunit := baseVector_unit sqrt src hedge hsA hsB
  have hbv := baseVector_shift sqrt tx ty src
  have hinit : ∀ m1 m2 : Fresh F, SameDir (initDir sqrt m1 src)
      (initDir sqrt m2 (shiftPath tx ty src)) (src.num - 1) := by
    intro m1 m2
    unfold initDir
    rw [hbv, fillDir_shift]
    exact fillDir_sameDir _ _ _ _ _
  have hnum2 : 5 ≤ (shiftPath tx ty src).num := hnum
  have hclosed2 : (shiftPath tx ty src).x 0 = (shiftPath tx ty src).x ((shiftPath tx ty src).num - 1) ∧
      (shiftPath tx ty src).y 0 = (shiftPath tx ty src).y ((shiftPath tx ty src).num - 1) := by
    unfold shiftPath
    dsimp only
    rw [hclosed.1, hclosed.2]
    exact ⟨rfl, rfl⟩
  have hrel := recalcOrtho_shift tx ty src (baseVector sqrt src).1 (baseVector sqrt src).2
    collapseLen (by omega) hunit fuel (initDir sqrt mem src) (initDir sqrt mem2 (shiftPath tx ty src))
    mem.dirgroup mem2.dirgroup (dest.Alloc src.num mem.x mem.y)
    (dest2.Alloc (shiftPath tx ty src).num mem2.x mem2.y) (fillDir_binary _ _ _ _) (hinit mem mem2)
  have hm1 : orthoMain sqrt fuel mem dest src collapseLen =
      recalcOrtho src (baseVector sqrt src).1 (baseVector sqrt src).2 collapseLen fuel
        (initDir sqrt mem src) mem.dirgroup (dest.Alloc src.num mem.x mem.y) := rfl
  have hm2 : orthoMain sqrt fuel mem2 dest2 (shiftPath tx ty src) collapseLen =
      recalcOrtho (shiftPath tx ty src) (baseVector sqrt src).1 (baseVector sqrt src).2
        collapseLen fuel (initDir sqrt mem2 (shiftPath tx ty src)) mem2.dirgroup
        (dest2.Alloc (shiftPath tx ty src).num mem2.x mem2.y) := by
    unfold orthoMain initDir
    rw [hbv]
  rw [← hm1, ← hm2] at hrel
  have hnodes := recalcOrtho_shift_nodes tx ty src (baseVector sqrt src).1 (baseVector sqrt src).2
    collapseLen (by omega) hunit fuel (initDir sqrt mem src) (initDir sqrt mem2 (shiftPath tx ty src))
    mem.dirgroup mem2.dirgroup (dest.Alloc src.num mem.x mem.y)
    (dest2.Alloc (shiftPath tx ty src).num mem2.x mem2.y) (fillDir_binary _ _ _ _) (hinit mem mem2)
  rw [← hm1, ← hm2] at hnodes
  have ho1 : OrthogonalizePath sqrt fuel mem dest src collapseLen =
      (orthoMain sqrt fuel mem dest src collapseLen).map (fun s => (0, s.dest)) := by
    unfold OrthogonalizePath
    rw [if_neg (by omega), if_neg (by rw [hclosed.1, hclosed.2]; simp)]
  have ho2 : OrthogonalizePath sqrt fuel mem2 dest2 (shiftPath tx ty src) collapseLen =
      (orthoMain sqrt fuel mem2 dest2 (shiftPath tx ty src) collapseLen).map
        (fun s => (0, s.dest)) := by
    unfold OrthogonalizePath
    rw [if_neg (by omega), if_neg (by rw [hclosed2.1, hclosed2.2]; simp)]
  refine ⟨hbv, fun e he => (hinit mem mem2 e he).symm, ?_, ?_⟩
  · rw [ho1, ho2, Option.map_eq_none', Option.map_eq_none']
    exact hrel.1.symm
  · intro st st2 h1 h2
    obtain ⟨a1, a2, a3, a4, a5⟩ := hrel.2 st st2 h1 h2
    refine ⟨by rw [ho1, h1]; rfl, by rw [ho2, h2]; rfl, by rw [a2, a3],
      fun e he => (a4 e he).symm, ?_, ?_⟩
    · intro h2n g hg
      exact a5 (by omega) g (by omega)
    · intro hvar g hg
      have hp := aggregate_post src (baseVector sqrt src).1 (baseVector sqrt src).2
        (initDir sqrt mem src) (dest.Alloc src.num mem.x mem.y) mem.dirgroup (by omega) hvar
      have h2le := hp.two_le
      exact hnodes (Or.inr (by omega)) st st2 h1 h2 g (by rw [a2] at hg; omega)

/-- C19, witness: `stepPath` and `stairPath` shifted by `(1, 2)`, with
`collapseLen = 10`; the square root of the rationals is exact on the squared
lengths of their summed vectors and the flags of the first pass are not all
equal. The call on `stepPath` returns 5 points. The call on `stairPath`
returns a single point, left by the pass before the last one, which made
groups. In both cases the points returned for the shifted source are the
points returned for the source shifted by `(1, 2)`. -/
theorem C19_translation_witness :
    ((5 ≤ stepPath.num ∧
      (stepPath.x 0 = stepPath.x (stepPath.num - 1) ∧ stepPath.y 0 = stepPath.y (stepPath.num - 1)) ∧
      (∃ i, 1 ≤ i ∧ i < stepPath.num ∧ edgeVec stepPath i ≠ (0, 0)) ∧
      ratSqrt ((baseSums stepPath).xbase * (baseSums stepPath).xbase +
          (baseSums stepPath).ybase * (baseSums stepPath).ybase) *
        ratSqrt ((baseSums stepPath).xbase * (baseSums stepPath).xbase +
          (baseSums stepPath).ybase * (baseSums stepPath).ybase) =
        (baseSums stepPath).xbase * (baseSums stepPath).xbase +
          (baseSums stepPath).ybase * (baseSums stepPath).ybase ∧
      ratSqrt ((baseSums stepPath).xbase2 * (baseSums stepPath).xbase2 +
          (baseSums stepPath).ybase2 * (baseSums stepPath).ybase2) *
        ratSqrt ((baseSums stepPath).xbase2 * (baseSums stepPath).xbase2 +
          (baseSums stepPath).ybase2 * (baseSums stepPath).ybase2) =
        (baseSums stepPath).xbase2 * (baseSums stepPath).xbase2 +
          (baseSums stepPath).ybase2 * (baseSums stepPath).ybase2) ∧
      (∃ e1 e2, e1 < stepPath.num - 1 ∧ e2 < stepPath.num - 1 ∧
        initDir ratSqrt zeroMem stepPath e1 ≠ initDir ratSqrt zeroMem stepPath e2) ∧
      ∃ st st2, orthoMain ratSqrt 3 zeroMem stepPath stepPath 10 = some st ∧
        orthoMain ratSqrt 3 zeroMem stepPath (shiftPath 1 2 stepPath) 10 = some st2 ∧
        st.dest.num = 5 ∧
        ∀ g, g < st.dest.num →
          st2.dest.x g = st.dest.x g + 1 ∧ st2.dest.y g = st.dest.y g + 2) ∧
    ((5 ≤ stairPath.num ∧
      (stairPath.x 0 = stairPath.x (stairPath.num - 1) ∧ stairPath.y 0 = stairPath.y (stairPath.num - 1)) ∧
      (∃ i, 1 ≤ i ∧ i < stairPath.num ∧ edgeVec stairPath i ≠ (0, 0)) ∧
      ratSqrt ((baseSums stairPath).xbase * (baseSums stairPath).xbase +
          (baseSums stairPath).ybase * (baseSums stairPath).ybase) *
        ratSqrt ((baseSums stairPath).xbase * (baseSums stairPath).xbase +
          (baseSums stairPath).ybase * (baseSums stairPath).ybase) =
        (baseSums stairPath).xbase * (baseSums stairPath).xbase +
          (baseSums stairPath).ybase * (baseSums stairPath).ybase ∧
      ratSqrt ((baseSums stairPath).xbase2 * (baseSums stairPath).xbase2 +
          (baseSums stairPath).ybase2 * (baseSums stairPath).ybase2) *
        ratSqrt ((baseSums stairPath).xbase2 * (baseSums stairPath).xbase2 +
          (baseSums stairPath).ybase2 * (baseSums stairPath).ybase2) =
        (baseSums stairPath).xbase2 * (baseSums stairPath).xbase2 +
          (baseSums stairPath).ybase2 * (baseSums stairPath).ybase2) ∧
      (∃ e1 e2, e1 < stairPath.num - 1 ∧ e2 < stairPath.num - 1 ∧
        initDir ratSqrt zeroMem stairPath e1 ≠ initDir ratSqrt zeroMem stairPath e2) ∧
      ∃ st st2, orthoMain ratSqrt 3 zeroMem stairPath stairPath 10 = some st ∧
        orthoMain ratSqrt 3 zeroMem stairPath (shiftPath 1 2 stairPath) 10 = some st2 ∧
        st.dest.num = 1 ∧
        ∀ g, g < st.dest.num →
          st2.dest.x g = st.dest.x g + 1 ∧ st2.dest.y g = st.dest.y g + 2) := by
  have hvA : ∃ e1 e2, e1 < stepPath.num - 1 ∧ e2 < stepPath.num - 1 ∧
      initDir ratSqrt zeroMem stepPath e1 ≠ initDir ratSqrt zeroMem stepPath e2 :=
    ⟨0, 1, by decide, by decide, by decide!⟩
  have hnA : (orthoMain ratSqrt 3 zeroMem stepPath stepPath 10).map (fun s => s.dest.num) =
      some 5 := by
    decide!
  have hsA : (orthoMain ratSqrt 3 zeroMem stepPath (shiftPath 1 2 stepPath) 10).isSome = true := by
    decide!
  have hvB : ∃ e1 e2, e1 < stairPath.num - 1 ∧ e2 < stairPath.num - 1 ∧
      initDir ratSqrt zeroMem stairPath e1 ≠ initDir ratSqrt zeroMem stairPath e2 :=
    ⟨0, 1, by decide, by decide, by decide!⟩
  have hnB : (orthoMain ratSqrt 3 zeroMem stairPath stairPath 10).map (fun s => s.dest.num) =
      some 1 := by
    decide!
  have hsB : (orthoMain ratSqrt 3 zeroMem stairPath (shiftPath 1 2 stairPath) 10).isSome = true := by
    decide!
  constructor
  · rcases e1 : orthoMain ratSqrt 3 zeroMem stepPath stepPath 10 with _ | st
    · rw [e1] at hnA
      simp at hnA
    rcases e2 : orthoMain ratSqrt 3 zeroMem stepPath (shiftPath 1 2 stepPath) 10 with _ | st2
    · rw [e2] at hsA
      simp at hsA
    rw [e1] at hnA
    simp only [Option.map_some', Option.some.injEq] at hnA
    exact ⟨⟨by decide, by decide!, ⟨1, by decide, by decide, by decide!⟩, by decide!, by decide!⟩,
      hvA, st, st2, rfl, rfl, hnA,
      ((C19_translation ratSqrt 3 zeroMem zeroMem stepPath stepPath stepPath 10 1 2 (by decide)
        (by decide!) ⟨1, by decide, by decide, by decide!⟩ (by decide!) (by decide!)).2.2.2
          st st2 e1 e2).2.2.2.2.2 hvA⟩
  · rcases e1 : orthoMain ratSqrt 3 zeroMem stairPath stairPath 10 with _ | st
    · rw [e1] at hnB
      simp at hnB
    rcases e2 : orthoMain ratSqrt 3 zeroMem stairPath (shiftPath 1 2 stairPath) 10 with _ | st2
    · rw [e2] at hsB
      simp at hsB
    rw [e1] at hnB
    simp only [Option.map_some', Option.some.injEq] at hnB
    exact ⟨⟨by decide, by decide!, ⟨1, by decide, by decide, by decide!⟩, by decide!, by decide!⟩,
      hvB, st, st2, rfl, rfl, hnB,
      ((C19_translation ratSqrt 3 zeroMem zeroMem stairPath stairPath stairPath 10 1 2 (by decide)
        (by decide!) ⟨1, by decide, by decide, by decide!⟩ (by decide!) (by decide!)).2.2.2
          st st2 e1 e2).2.2.2.2.2 hvB⟩

/-- C19, counterexample: `flatPath` is closed, has 5 nodes and vectors of
non-zero length, and the square root is exact on the squared lengths of its
two summed vectors; all its vectors are labelled along, so that the calls on
`flatPath` and on `flatPath` shifted by `(1, 0)` both return a path of one
point whose coordinates were never written: with the same fresh arrays the
point returned for the shifted source is the point returned for the source,
not this point shifted by `(1, 0)`. -/
theorem C19_counterexample :
    (5 ≤ flatPath.num ∧
      (flatPath.x 0 = flatPath.x (flatPath.num - 1) ∧
        flatPath.y 0 = flatPath.y (flatPath.num - 1)) ∧
      (∃ i, 1 ≤ i ∧ i < flatPath.num ∧ edgeVec flatPath i ≠ (0, 0)) ∧
      ratSqrt ((baseSums flatPath).xbase * (baseSums flatPath).xbase +
          (baseSums flatPath).ybase * (baseSums flatPath).ybase) *
        ratSqrt ((baseSums flatPath).xbase * (baseSums flatPath).xbase +
          (baseSums flatPath).ybase * (baseSums flatPath).ybase) =
        (baseSums flatPath).xbase * (baseSums flatPath).xbase +
          (baseSums flatPath).ybase * (baseSums flatPath).ybase ∧
      ratSqrt ((baseSums flatPath).xbase2 * (baseSums flatPath).xbase2 +
          (baseSums flatPath).ybase2 * (baseSums flatPath).ybase2) *
        ratSqrt ((baseSums flatPath).xbase2 * (baseSums flatPath).xbase2 +
          (baseSums flatPath).ybase2 * (baseSums flatPath).ybase2) =
        (baseSums flatPath).xbase2 * (baseSums flatPath).xbase2 +
          (baseSums flatPath).ybase2 * (baseSums flatPath).ybase2) ∧
    ∃ d d2, OrthogonalizePath ratSqrt 1 zeroMem flatPath flatPath 0 = some (0, d) ∧
      OrthogonalizePath ratSqrt 1 zeroMem flatPath (shiftPath 1 0 flatPath) 0 = some (0, d2) ∧
      d.num = 1 ∧ d2.num = 1 ∧ d2.x 0 = d.x 0 ∧ ¬ (d2.x 0 = d.x 0 + 1) := by
  refine ⟨⟨by decide, by decide!, ⟨1, by decide, by decide, by decide!⟩, by decide!,
    by decide!⟩, ?_⟩
  have h1 : (OrthogonalizePath ratSqrt 1 zeroMem flatPath flatPath 0).map
      (fun r => (r.1, r.2.num, r.2.x 0)) = some (0, 1, 0) := by
    decide!
  have h2 : (OrthogonalizePath ratSqrt 1 zeroMem flatPath (shiftPath 1 0 flatPath) 0).map
      (fun r => (r.1, r.2.num, r.2.x 0)) = some (0, 1, 0) := by
    decide!
  rcases e1 : OrthogonalizePath ratSqrt 1 zeroMem flatPath flatPath 0 with _ | ⟨c, d⟩
  · rw [e1] at h1
    simp at h1
  rcases e2 : OrthogonalizePath ratSqrt 1 zeroMem flatPath (shiftPath 1 0 flatPath) 0 with
    _ | ⟨c2, d2⟩
  · rw [e2] at h2
    simp at h2
  rw [e1] at h1
  rw [e2] at h2
  simp only [Option.map_some', Option.some.injEq, Prod.mk.injEq] at h1 h2
  obtain ⟨hc, hn, hx⟩ := h1
  obtain ⟨hc2, hn2, hx2⟩ := h2
  subst hc hc2
  refine ⟨d, d2, rfl, rfl, hn, hn2, by rw [hx, hx2], ?_⟩
  rw [hx, hx2]
  norm_num

/-- C20: in every pass over a source with at least 5 nodes, whatever the
flags and the arrays hold, the aggregation loop ends in the state that the
last of its iterations leaves, and in every iteration that is run the read
`dir[i]` of line 314 has an index `i < num-1` and every write to `dest->x`
or `dest->y` has an index of at most `num-1`, below the allocated size
`num`; the starts `dirgroup[0..num2-1]` of the groups are at most `num-2` and
strictly increasing; the loop of lines 373-374 writes `dir[j]` only for
`j ≤ num-2`. -/
theorem C20_in_bounds (src : Path F) (xbase ybase collapseLen : F) (dir : Nat → Int)
    (dest : Path F) (dirgroup : Nat → Nat) (hnum : 5 ≤ src.num) :
    (∀ p, (aggStates src xbase ybase dir dest dirgroup).getLast? = some p →
      aggregate src xbase ybase dir dest dirgroup =
        (aggBody src xbase ybase dir (src.num - 1) p.1 p.2).1) ∧
    (∀ p, p ∈ aggStates src xbase ybase dir dest dirgroup →
      (∀ k, aggDirRead dir (src.num - 1) p.1 p.2 = some k → k < src.num - 1) ∧
      (∀ k, k ∈ aggDestWrites dir (src.num - 1) p.1 p.2 → k ≤ src.num - 1 ∧ k < src.num)) ∧
    (∀ g, g < (aggregate src xbase ybase dir dest dirgroup).num2 →
      (aggregate src xbase ybase dir dest dirgroup).dirgroup g ≤ src.num - 2) ∧
    (∀ g, g + 1 < (aggregate src xbase ybase dir dest dirgroup).num2 →
      (aggregate src xbase ybase dir dest dirgroup).dirgroup g <
        (aggregate src xbase ybase dir dest dirgroup).dirgroup (g + 1)) ∧
    (∀ i, 1 ≤ i →
      i < (reconstruct xbase ybase (aggregate src xbase ybase dir dest dirgroup).dest
        (aggregate src xbase ybase dir dest dirgroup).num2).num →
      ∀ j, j ∈ collapseWrites
          (reconstruct xbase ybase (aggregate src xbase ybase dir dest dirgroup).dest
            (aggregate src xbase ybase dir dest dirgroup).num2)
          (aggregate src xbase ybase dir dest dirgroup).dirgroup (collapseLen * collapseLen) i →
        j ≤ src.num - 2) := by
  have hnum1 : 0 < src.num - 1 := by omega
  have hlt := aggregate_dirgroup_lt src xbase ybase dir dest dirgroup (by omega)
  refine ⟨?_, ?_, ?_, ?_, ?_⟩
  · intro p hp
    exact aggLoop_eq_last src xbase ybase dir (src.num - 1) _ _ _ p hp
  · intro p hp
    have hinv := aggTrace_inv src xbase ybase dir (src.num - 1) dest dirgroup hnum1
      (src.num * 2) 0 _ (by
        unfold AggInv
        exact ⟨rfl, rfl, fun j hj => absurd hj (Nat.not_lt_zero j), rfl, rfl⟩) p hp
    obtain ⟨h1, h2⟩ := hinv.access hnum1
    refine ⟨h1, fun k hk => ?_⟩
    have := h2 k hk
    omega
  · intro g hg
    have := hlt g hg
    omega
  · intro g hg
    rcases aggregate_spec src xbase ybase dir dest dirgroup (by omega) with ⟨h0, -⟩ | hp
    · omega
    · exact hp.sorted g hg
  · intro i hi1 hi2 j hj
    have hn : (reconstruct xbase ybase (aggregate src xbase ybase dir dest dirgroup).dest
        (aggregate src xbase ybase dir dest dirgroup).num2).num =
        (aggregate src xbase ybase dir dest dirgroup).num2 + 1 := rfl
    rw [hn] at hi2
    unfold collapseWrites at hj
    split at hj
    · dsimp only at hj
      rw [List.mem_range'_1, hn] at hj
      by_cases hl : i = (aggregate src xbase ybase dir dest dirgroup).num2 + 1 - 1
      · rw [if_pos hl] at hj
        have := hlt 0 (by omega)
        omega
      · rw [if_neg hl] at hj
        have := hlt i (by omega)
        omega
    · exact absurd hj (List.not_mem_nil j)

/-- C20, witness: the pass for the flags 0, 1, 0, 1 over the square of
Scenario 1; the starts of its groups are at most 3. -/
theorem C20_in_bounds_witness :
    5 ≤ (squarePath : Path ℚ).num ∧
    ∀ g, g < altAgg.num2 → altAgg.dirgroup g ≤ (squarePath : Path ℚ).num - 2 :=
  ⟨Nat.le_refl 5,
    (C20_in_bounds squarePath 1 0 10 altDir squarePath (fun _ => 0) (Nat.le_refl 5)).2.2.1⟩

end Core

end PathOrtho
